import Mathlib

/-!
Verification of the ik-rs tokenizer sources against their specification.

All definitions below are shallow embeddings of the Rust sources under
`src/`: character indices and `usize` quantities are `Nat`, `i32` state
registers are `Int`, and the few places where Rust performs a narrowing or
sign-reinterpreting cast are made explicit through `asUsize` / `i32ofNat`.
Strings are handled as their character sequences (`List Char`), matching the
sources, which collect `input.chars()` up front and work on character
indices throughout.
-/

set_option linter.unusedVariables false
set_option linter.unreachableTactic false
set_option linter.unusedTactic false
set_option linter.unnecessarySeqFocus false

namespace IkRs

/-- A Rust `i32` value reinterpreted `as usize` (64-bit): reduce the
two's-complement value modulo `2 ^ 64`. -/
def asUsize (v : Int) : Nat := (v % (2 ^ 64 : Int)).toNat

/-- A Rust `usize` value cast `as i32`: keep the low 32 bits and
reinterpret them as a signed value. -/
def i32ofNat (n : Nat) : Int :=
  let m : Nat := n % 2 ^ 32
  if m < 2 ^ 31 then (m : Int) else (m : Int) - 2 ^ 32

/-- `Ord::cmp` on `usize`. -/
def cmpNat (a b : Nat) : Ordering := if a < b then .lt else if b < a then .gt else .eq

/-- `Ord::cmp` on `i32`. -/
def cmpInt (a b : Int) : Ordering := if a < b then .lt else if b < a then .gt else .eq

/-! ## char_util.rs -/

/-- `CharType` from char_util.rs. -/
inductive CharType where
  | USELESS
  | SPECIAL
  | ARABIC
  | ENGLISH
  | CHINESE
  | OtherCjk
deriving DecidableEq, Repr

/-- The code points of the `SPECIAL_CHARS` set of char_util.rs, in source
order: the ASCII punctuation listed there, `¥`, and the full-width
punctuation listed there. -/
def specialChars : List Nat :=
  [33, 34, 35, 36, 37, 38, 40, 41, 43, 44, 45, 47, 59, 60, 61, 62, 63, 64,
   91, 92, 93, 94, 96, 123, 124, 125, 126, 165,
   12289, 12290, 12298, 12299, 12300, 12301, 12304, 12305,
   65281, 65288, 65289, 65292, 65307, 65311, 65374]

def isSpecialChar (c : Char) : Bool := specialChars.contains c.toNat

/-- `char_type_of` from char_util.rs. The source resolves the character's
Unicode block through the `unicode_blocks` crate and `unwrap`s the result;
scalar values that belong to no Unicode block make that unwrap panic (this
is recorded under claim C3). On every character that has a block the
classification is exactly the one below, with the relevant blocks expressed
by their code-point ranges (CJK Unified Ideographs, CJK Compatibility
Ideographs, CJK Unified Ideographs Extension A, Halfwidth and Fullwidth
Forms, Hangul Syllables, Hangul Jamo, Hangul Compatibility Jamo, Hiragana,
Katakana, Katakana Phonetic Extensions). -/
def charTypeOf (c : Char) : CharType :=
  let n := c.toNat
  if 48 ≤ n ∧ n ≤ 57 then .ARABIC
  else if (97 ≤ n ∧ n ≤ 122) ∨ (65 ≤ n ∧ n ≤ 90) then .ENGLISH
  else if isSpecialChar c then .SPECIAL
  else if (0x4E00 ≤ n ∧ n ≤ 0x9FFF) ∨ (0xF900 ≤ n ∧ n ≤ 0xFAFF) ∨
          (0x3400 ≤ n ∧ n ≤ 0x4DBF) then .CHINESE
  else if (0xFF00 ≤ n ∧ n ≤ 0xFFEF) ∨ (0xAC00 ≤ n ∧ n ≤ 0xD7AF) ∨
          (0x1100 ≤ n ∧ n ≤ 0x11FF) ∨ (0x3130 ≤ n ∧ n ≤ 0x318F) ∨
          (0x3040 ≤ n ∧ n ≤ 0x309F) ∨ (0x30A0 ≤ n ∧ n ≤ 0x30FF) ∨
          (0x31F0 ≤ n ∧ n ≤ 0x31FF) then .OtherCjk
  else .USELESS

/-- `regularize` from char_util.rs: ideographic space to space, full-width
ASCII to half-width, ASCII uppercase to lowercase. -/
def regularize (c : Char) : Char :=
  let n := c.toNat
  let m :=
    if n = 12288 then n - 12256
    else if 65281 ≤ n ∧ n ≤ 65374 then n - 65248
    else if 65 ≤ n ∧ n ≤ 90 then n + 32
    else n
  Char.ofNat m

/-- `regularize_str` from char_util.rs, at the character level. -/
def regularizeStr (l : List Char) : List Char := l.map regularize

/-- `utf8_slice` from char_util.rs: the characters of positions
`[begin, end)`, empty when `end < begin`. -/
def utf8Slice (l : List Char) (b e : Nat) : List Char :=
  if e < b then [] else (l.drop b).take (e - b)

/-! ## lexeme.rs -/

/-- `LexemeType` from lexeme.rs. The Rust enum declares the first ten
variants. letter_segmentor.rs line 225 additionally constructs a
`LexemeType::SPECIAL` value, which the enum in lexeme.rs does not declare;
the extra constructor below lets the letter segmenter be embedded, and
claim C8 records the discrepancy. -/
inductive LexemeType where
  | UNKNOWN
  | ENGLISH
  | ARABIC
  | LETTER
  | CNWORD
  | CNCHAR
  | OtherCJK
  | CNUM
  | COUNT
  | CQUAN
  | SPECIAL
deriving DecidableEq, Repr

/-- The variants that the `LexemeType` enum of lexeme.rs actually declares
(the type set of §3 of the spec). -/
def declaredLexemeTypes : List LexemeType :=
  [.UNKNOWN, .ENGLISH, .ARABIC, .LETTER, .CNWORD, .CNCHAR, .OtherCJK,
   .CNUM, .COUNT, .CQUAN]

/-- `Lexeme` from lexeme.rs. -/
structure Lexeme where
  offset : Nat
  begin : Nat
  length : Nat
  lexemeText : List Char := []
  lexemeType : LexemeType
deriving DecidableEq, Repr

/-- `Lexeme::new` (the text starts empty). -/
def Lexeme.new (offset begin length : Nat) (ty : LexemeType) : Lexeme :=
  { offset := offset, begin := begin, length := length, lexemeType := ty }

def Lexeme.getBeginPosition (l : Lexeme) : Nat := l.offset + l.begin

def Lexeme.getEndPosition (l : Lexeme) : Nat := l.offset + l.begin + l.length

/-- `Ord for Lexeme`: begin ascending, ties broken by length descending. -/
def lexCmp (a b : Lexeme) : Ordering :=
  match cmpNat a.begin b.begin with
  | .lt => .lt
  | .gt => .gt
  | .eq => cmpNat b.length a.length

/-- `PartialEq for Lexeme`: equal offset, begin and length. -/
def lexPeq (a b : Lexeme) : Bool :=
  a.offset == b.offset && a.begin == b.begin && a.length == b.length

/-- `Lexeme::parse_lexeme_text`. -/
def Lexeme.parseText (l : Lexeme) (input : List Char) : Lexeme :=
  { l with lexemeText := utf8Slice input l.begin (l.begin + l.length) }

/-- `Lexeme::append`: merge an adjacent lexeme, extending the length and
replacing the type; fails when the two are not adjacent. -/
def Lexeme.append (l other : Lexeme) (ty : LexemeType) : Bool × Lexeme :=
  if l.getEndPosition = other.getBeginPosition then
    (true, { l with length := l.length + other.length, lexemeType := ty })
  else (false, l)

/-! ## hit.rs and trie.rs -/

/-- Modelled from the spec: the file src/dict/hit.rs is not among the
provided sources (only its callers in trie.rs, dictionary.rs and the
segmenters are). Per §3, a `Hit` is `{begin, end, flags}` with
`flags ⊆ {MATCH, PREFIX}`; `Hit::new` starts with no flags,
`set_match`/`set_prefix` set one flag each, and `is_match` tests MATCH.
`begin`/`end` are inclusive character indices. -/
structure Hit where
  begin : Nat := 0
  end_ : Nat := 0
  isMatch : Bool := false
  isPrefix : Bool := false
deriving DecidableEq, Repr

/-- `TrieNode` from trie.rs. The `HashMap<char, TrieNode>` of children is
embedded as a key-unique association list; the sources only ever access it
by key lookup (`contains_key`/`get`), by keyed insert, and by an emptiness
test, so the list order is irrelevant. -/
inductive TrieNode where
  | mk (value : Option Char) (finalState : Bool) (childNodes : List (Char × TrieNode))

def TrieNode.value : TrieNode → Option Char
  | .mk v _ _ => v

def TrieNode.finalState : TrieNode → Bool
  | .mk _ fs _ => fs

def TrieNode.childNodes : TrieNode → List (Char × TrieNode)
  | .mk _ _ ch => ch

/-- `TrieNode::has_childs`. -/
def TrieNode.hasChilds (t : TrieNode) : Bool := !t.childNodes.isEmpty

/-- `HashMap::get` on the children map. -/
def childFind (ch : List (Char × TrieNode)) (c : Char) : Option TrieNode :=
  match ch with
  | [] => none
  | (c', t) :: rest => if c' = c then some t else childFind rest c

/-- `HashMap::insert` on the children map: replace the binding for the key
if present, otherwise add it. -/
def childInsert (ch : List (Char × TrieNode)) (c : Char) (t : TrieNode) :
    List (Char × TrieNode) :=
  match ch with
  | [] => [(c, t)]
  | (c', t') :: rest =>
    if c' = c then (c, t) :: rest else (c', t') :: childInsert rest c t

/-- The empty root node (`TrieNode::default`). -/
def TrieNode.root : TrieNode := .mk none false []

/-- `TrieNode::insert` from trie.rs (lines 73–87). Note the source only
passes `final_state = true` to `add_child` when the node for the *last*
character does not exist yet; walking into an already existing node never
updates its `final_state`. This quirk is preserved faithfully (claim C1
examines it). -/
def TrieNode.insertChars : TrieNode → List Char → TrieNode
  | t, [] => t
  | .mk v fs ch, c :: rest =>
    match childFind ch c with
    | some child => .mk v fs (childInsert ch c (child.insertChars rest))
    | none =>
      let newChild := TrieNode.insertChars (.mk (some c) rest.isEmpty []) rest
      .mk v fs (childInsert ch c newChild)

/-- `TrieNode::exist`. -/
def TrieNode.existChars : TrieNode → List Char → Bool
  | t, [] => t.finalState
  | t, c :: rest =>
    match childFind t.childNodes c with
    | none => false
    | some child => child.existChars rest

/-- `TrieNode::delete`: walk down; when the whole word is present clear the
final-state flag of its last node, keeping the structure. -/
def TrieNode.deleteChars : TrieNode → List Char → TrieNode
  | .mk v _ ch, [] => .mk v false ch
  | .mk v fs ch, c :: rest =>
    match childFind ch c with
    | none => .mk v fs ch
    | some child => .mk v fs (childInsert ch c (child.deleteChars rest))

/-- The walking loop of `TrieNode::match_with_offset` (trie.rs lines
98–115): `counter` is the enumerate index, `rem` the remaining `take`
budget, `e` the running `end` variable. Returns the node at which the walk
stopped, the final `end`, and the hits pushed so far, in order. -/
def matchLoop (offset : Nat) :
    TrieNode → List Char → Nat → Nat → Nat → List Hit → TrieNode × Nat × List Hit
  | t, cl, counter, 0, e, hits => (t, e, hits)
  | t, cl, counter, rem + 1, e, hits =>
    if hcnt : counter < cl.length then
      let c := cl.get ⟨counter, hcnt⟩
      match childFind t.childNodes c with
      | none => (t, e, hits)
      | some child =>
        let hits' :=
          if t.finalState then
            hits ++ [{ begin := offset, end_ := e, isMatch := true,
                       isPrefix := t.hasChilds }]
          else hits
        matchLoop offset child cl (counter + 1) rem counter hits'
    else (t, e, hits)

/-- `TrieNode::match_with_offset` from trie.rs (lines 89–130). -/
def TrieNode.matchWithOffset (root : TrieNode) (cl : List Char)
    (offset length : Nat) : List Hit :=
  if offset + length ≤ cl.length then
    let r := matchLoop offset root cl offset length offset []
    if r.1.value.isSome then
      r.2.2 ++ [{ begin := offset, end_ := r.2.1, isMatch := r.1.finalState,
                  isPrefix := r.1.hasChilds }]
    else r.2.2
  else []

/-! ## dictionary.rs -/

/-- `Dictionary` from dictionary.rs: the three tries. The word lists that
populate them are configuration data loaded from files at startup, so every
statement below is parameterized over the dictionary contents. -/
structure Dictionary where
  mainDict : TrieNode
  quantifierDict : TrieNode
  stopWordDict : TrieNode

/-- A dictionary whose three tries are all empty. -/
def emptyDictionary : Dictionary :=
  { mainDict := .root, quantifierDict := .root, stopWordDict := .root }

/-- `Dictionary::is_stop_word` (dictionary.rs lines 100–115): true iff some
hit of the stop-word trie is a MATCH spanning exactly
`[offset, offset + length - 1]`. -/
def Dictionary.isStopWord (d : Dictionary) (cl : List Char)
    (offset length : Nat) : Bool :=
  (d.stopWordDict.matchWithOffset cl offset length).any
    (fun h => h.isMatch && h.begin == offset && h.end_ == offset + length - 1)

/-! ## ordered_linked_list.rs -/

/-- The tail-to-head scan of `OrderedLinkedList::insert`
(ordered_linked_list.rs lines 202–243), expressed on the *reversed* list,
so the head of the argument is the tail of the list.  `none` models the
scan running off the head without an insertion point, in which case the
`if let Some(before_node)` of the source is skipped and the list is
returned unchanged. A node strictly greater than the new element is
stepped over; a node equal under `PartialEq` swallows the insertion;
otherwise the element is spliced in right after the node. -/
def olScanRev (data : Lexeme) : List Lexeme → Option (List Lexeme)
  | [] => none
  | x :: rest =>
    if lexCmp x data = .gt then (olScanRev data rest).map (x :: ·)
    else if lexPeq x data then some (x :: rest)
    else some (data :: x :: rest)

/-- `OrderedLinkedList::insert` (ordered_linked_list.rs lines 186–245):
push in front when strictly below the head, push at the back when strictly
above the tail, otherwise scan from the tail for the splice point, dropping
the element when a `PartialEq`-equal node is met. -/
def olInsert (acc : List Lexeme) (data : Lexeme) : List Lexeme :=
  match acc with
  | [] => [data]
  | a :: rest =>
    if lexCmp data a = .lt then data :: acc
    else if lexCmp data ((a :: rest).getLast (by simp)) = .gt then acc ++ [data]
    else
      match olScanRev data acc.reverse with
      | none => acc
      | some r => r.reverse

/-! ## letter_segmentor.rs -/

/-- `(char_count - 1) as i32` as the sources compute it: a wrapping `usize`
subtraction followed by an `as i32` truncation (for an empty buffer this is
`-1`). -/
def charCountMinusOneI32 (n : Nat) : Int := i32ofNat (asUsize ((n : Int) - 1))

/-- The `LETTER_CONNECTOR` array. -/
def isLetterConnector (c : Char) : Bool :=
  c == '#' || c == '&' || c == '+' || c == '-' || c == '.' || c == '@' || c == '_'

/-- The `NUM_CONNECTOR` array. -/
def isNumConnector (c : Char) : Bool := c == ',' || c == '.'

/-- The scanning loop of `process_english_letter` (letter_segmentor.rs
lines 128–155): `cursor` is the enumerate index and `(es, ee)` are the
`english_start`/`english_end` registers (`i32`, `-1` meaning inactive).
Returns the lexemes emitted inside the loop and the final registers. -/
def engLoop : List Char → Nat → Int → Int → List Lexeme × Int × Int
  | [], _, es, ee => ([], es, ee)
  | c :: rest, cursor, es, ee =>
    if es = -1 then
      if charTypeOf c = .ENGLISH then
        engLoop rest (cursor + 1) (i32ofNat cursor) (i32ofNat cursor)
      else engLoop rest (cursor + 1) es ee
    else
      if charTypeOf c = .ENGLISH then engLoop rest (cursor + 1) es (i32ofNat cursor)
      else
        let lx := Lexeme.new 0 (asUsize es) (asUsize (ee - es + 1)) .ENGLISH
        let r := engLoop rest (cursor + 1) (-1) (-1)
        (lx :: r.1, r.2)

/-- `process_english_letter` (letter_segmentor.rs lines 125–169), with the
end-of-buffer flush that fires when `english_end == (char_count - 1) as
i32`. -/
def processEnglishLetter (chars : List Char) : List Lexeme :=
  let r := engLoop chars 0 (-1) (-1)
  if r.2.2 = charCountMinusOneI32 chars.length then
    r.1 ++ [Lexeme.new 0 (asUsize r.2.1) (asUsize (r.2.2 - r.2.1 + 1)) .ENGLISH]
  else r.1

/-- The scanning loop of `process_arabic_letter` (letter_segmentor.rs lines
175–204); numeric connector characters are skipped without extending the
run end. -/
def arabicLoop : List Char → Nat → Int → Int → List Lexeme × Int × Int
  | [], _, arS, arE => ([], arS, arE)
  | c :: rest, cursor, arS, arE =>
    if arS = -1 then
      if charTypeOf c = .ARABIC then
        arabicLoop rest (cursor + 1) (i32ofNat cursor) (i32ofNat cursor)
      else arabicLoop rest (cursor + 1) arS arE
    else
      if charTypeOf c = .ARABIC then arabicLoop rest (cursor + 1) arS (i32ofNat cursor)
      else if charTypeOf c = .USELESS ∧ isNumConnector c then
        arabicLoop rest (cursor + 1) arS arE
      else
        let lx := Lexeme.new 0 (asUsize arS) (asUsize (arE - arS + 1)) .ARABIC
        let r := arabicLoop rest (cursor + 1) (-1) (-1)
        (lx :: r.1, r.2)

/-- `process_arabic_letter` (letter_segmentor.rs lines 172–217). -/
def processArabicLetter (chars : List Char) : List Lexeme :=
  let r := arabicLoop chars 0 (-1) (-1)
  if r.2.2 = charCountMinusOneI32 chars.length then
    r.1 ++ [Lexeme.new 0 (asUsize r.2.1) (asUsize (r.2.2 - r.2.1 + 1)) .ARABIC]
  else r.1

/-- The scanning loop of `process_mix_letter` (letter_segmentor.rs lines
78–108); letter connector characters keep the run alive and do extend the
run end. -/
def mixLoop : List Char → Nat → Int → Int → List Lexeme × Int × Int
  | [], _, st, en => ([], st, en)
  | c :: rest, cursor, st, en =>
    let ct := charTypeOf c
    if st = -1 then
      if ct = .ARABIC ∨ ct = .ENGLISH then
        mixLoop rest (cursor + 1) (i32ofNat cursor) (i32ofNat cursor)
      else mixLoop rest (cursor + 1) st en
    else
      if ct = .ARABIC ∨ ct = .ENGLISH ∨ (ct = .USELESS ∧ isLetterConnector c) then
        mixLoop rest (cursor + 1) st (i32ofNat cursor)
      else
        let lx := Lexeme.new 0 (asUsize st) (asUsize (en - st + 1)) .LETTER
        let r := mixLoop rest (cursor + 1) (-1) (-1)
        (lx :: r.1, r.2)

/-- `process_mix_letter` (letter_segmentor.rs lines 75–122). -/
def processMixLetter (chars : List Char) : List Lexeme :=
  let r := mixLoop chars 0 (-1) (-1)
  if r.2.2 = charCountMinusOneI32 chars.length then
    r.1 ++ [Lexeme.new 0 (asUsize r.2.1) (asUsize (r.2.2 - r.2.1 + 1)) .LETTER]
  else r.1

/-- `process_special_letter` (letter_segmentor.rs lines 219–230): each
SPECIAL character becomes a single-character lexeme; the constructed
`LexemeType::SPECIAL` is the variant missing from lexeme.rs (claim C8). -/
def processSpecialLetter (chars : List Char) : List Lexeme :=
  chars.enum.filterMap fun p =>
    if charTypeOf p.2 = .SPECIAL then some (Lexeme.new 0 p.1 1 .SPECIAL) else none

/-- `LetterSegmenter::analyze`: the four passes, concatenated in source
order. The segmenter's registers always end a pass at `-1`, so a fresh
state per call is faithful. -/
def letterAnalyze (chars : List Char) : List Lexeme :=
  processEnglishLetter chars ++ processArabicLetter chars ++
    processMixLetter chars ++ processSpecialLetter chars

/-! ## cn_quantifier_segmenter.rs -/

/-- The `chn_number_chars` set (the duplicated `拾` of the source is kept;
it is harmless for membership). -/
def chnNumberChars : List Char :=
  ['一', '二', '两', '三', '四', '五', '六', '七', '八', '九', '十', '零',
   '壹', '贰', '叁', '肆', '伍', '陆', '柒', '捌', '玖', '拾', '百', '千',
   '万', '亿', '拾', '佰', '仟', '萬', '億', '兆', '卅', '廿']

def isChnNumber (c : Char) : Bool := chnNumberChars.contains c

/-- The loop of `process_cnumber` (cn_quantifier_segmenter.rs lines
58–108): `(ns, ne)` are the `n_start`/`n_end` registers; the in-loop
end-of-buffer flush (`cursor == input_length - 1`, i.e. the current
character is the last one) is applied after the regular step. -/
def cnumLoop : List Char → Nat → Int → Int → List Lexeme × Int × Int
  | [], _, ns, ne => ([], ns, ne)
  | c :: rest, cursor, ns, ne =>
    let ct := charTypeOf c
    let st1 : List Lexeme × Int × Int :=
      if ns = -1 ∧ ne = -1 then
        if ct = .CHINESE ∧ isChnNumber c then ([], i32ofNat cursor, i32ofNat cursor)
        else ([], ns, ne)
      else
        if ct = .CHINESE ∧ isChnNumber c then ([], ns, i32ofNat cursor)
        else ([Lexeme.new 0 (asUsize ns) (asUsize (ne - ns + 1)) .CNUM], -1, -1)
    let st2 : List Lexeme × Int × Int :=
      if rest.isEmpty ∧ st1.2.1 ≠ -1 ∧ st1.2.2 ≠ -1 then
        (st1.1 ++ [Lexeme.new 0 (asUsize st1.2.1) (asUsize (st1.2.2 - st1.2.1 + 1)) .CNUM],
         -1, -1)
      else st1
    let r := cnumLoop rest (cursor + 1) st2.2.1 st2.2.2
    (st2.1 ++ r.1, r.2)

/-- `process_cnumber`, returning the emitted CNUM lexemes and the final
`(n_start, n_end)` registers. -/
def processCnumber (chars : List Char) : List Lexeme × Int × Int :=
  cnumLoop chars 0 (-1) (-1)

/-- The backward walk of `need_count_scan` (cn_quantifier_segmenter.rs
lines 151–166), on the reversed list (tail first): skip over lexemes whose
`begin + length` exceeds the cursor or whose type is not CNUM/ARABIC,
succeed on an exact match, stop on the first one ending before the
cursor. -/
def scanTailForNumber (cursor : Nat) : List Lexeme → Bool
  | [] => false
  | l :: rest =>
    if l.lexemeType = .CNUM ∨ l.lexemeType = .ARABIC then
      match cmpNat (l.begin + l.length) cursor with
      | .eq => true
      | .lt => false
      | .gt => scanTailForNumber cursor rest
    else scanTailForNumber cursor rest

/-- `need_count_scan` (cn_quantifier_segmenter.rs lines 147–169). -/
def needCountScan (ns ne : Int) (cnumberList : List Lexeme) (cursor : Nat) : Bool :=
  if ns ≠ -1 ∧ ne ≠ -1 then true
  else scanTailForNumber cursor cnumberList.reverse

/-- `process_count` (cn_quantifier_segmenter.rs lines 111–144). -/
def processCount (d : Dictionary) (chars : List Char) (ns ne : Int)
    (cnumberList : List Lexeme) : List Lexeme :=
  chars.enum.flatMap fun p =>
    if needCountScan ns ne cnumberList p.1 then
      if charTypeOf p.2 = .CHINESE then
        (d.quantifierDict.matchWithOffset chars p.1 (chars.length - p.1)).filterMap
          fun h =>
            if h.isMatch then some (Lexeme.new 0 h.begin (h.end_ - h.begin + 1) .COUNT)
            else none
      else []
    else []

/-- `CnQuantifierSegmenter::analyze` (cn_quantifier_segmenter.rs lines
19–32): the number pass, then the quantifier pass over the ordered list of
the number pass's output, with the registers the number pass left. -/
def cnqAnalyze (d : Dictionary) (chars : List Char) : List Lexeme :=
  let r := processCnumber chars
  let cnumberList := r.1.foldl olInsert []
  r.1 ++ processCount d chars r.2.1 r.2.2 cnumberList

/-! ## cjk_segmenter.rs -/

/-- `CJKSegmenter::analyze` (cjk_segmenter.rs lines 13–35): for every
non-USELESS position, every MATCH hit of the main dictionary becomes a
CNWORD lexeme. -/
def cjkAnalyze (d : Dictionary) (chars : List Char) : List Lexeme :=
  chars.enum.flatMap fun p =>
    if charTypeOf p.2 ≠ .USELESS then
      (d.mainDict.matchWithOffset chars p.1 (chars.length - p.1)).filterMap
        fun h =>
          if h.isMatch then some (Lexeme.new 0 h.begin (h.end_ - h.begin + 1) .CNWORD)
          else none
    else []

/-- The sub-segmenter outputs in the run order fixed by `IKSegmenter::new`:
Letter, CnQuantifier, CJK. -/
def candidateLexemes (d : Dictionary) (chars : List Char) : List Lexeme :=
  letterAnalyze chars ++ cnqAnalyze d chars ++ cjkAnalyze d chars

/-- The `origin_lexemes` ordered list of `IKSegmenter::tokenize`: every
candidate inserted in run order. -/
def originLexemes (d : Dictionary) (chars : List Char) : List Lexeme :=
  (candidateLexemes d chars).foldl olInsert []

/-! ## lexeme_path.rs -/

/-- A placeholder value for the `unwrap`s the sources perform on list ends
that are provably present; it never influences reachable results. -/
def defaultLexeme : Lexeme := Lexeme.new 0 0 0 .UNKNOWN

/-- `LexemePath` from lexeme_path.rs: `path_begin`/`path_end` are `i32`
registers (`-1` on a fresh path), `payload_length` a `usize`, and the
lexeme list an ordered linked list. -/
structure LexemePath where
  pathBegin : Int := -1
  pathEnd : Int := -1
  payloadLength : Nat := 0
  lexemeList : List Lexeme := []
deriving DecidableEq, Repr

/-- `LexemePath::new`. -/
def LexemePath.new : LexemePath := {}

def LexemePath.size (p : LexemePath) : Nat := p.lexemeList.length

/-- `LexemePath::check_cross` (lexeme_path.rs lines 106–112). -/
def LexemePath.checkCross (p : LexemePath) (l : Lexeme) : Bool :=
  let lBegin := i32ofNat l.begin
  let lLength := i32ofNat l.length
  decide ((lBegin ≥ p.pathBegin ∧ lBegin < p.pathEnd) ∨
          (p.pathBegin ≥ lBegin ∧ p.pathBegin < lBegin + lLength))

/-- `LexemePath::add_cross_lexeme` (lexeme_path.rs lines 38–61); the
returned flag is the source's return value, the returned path the mutated
receiver. -/
def LexemePath.addCrossLexeme (p : LexemePath) (l : Lexeme) : Bool × LexemePath :=
  if p.lexemeList.isEmpty then
    (true, { pathBegin := i32ofNat l.begin,
             pathEnd := i32ofNat (l.begin + l.length),
             payloadLength := p.payloadLength + l.length,
             lexemeList := olInsert p.lexemeList l })
  else if p.checkCross l then
    let le := i32ofNat (l.begin + l.length)
    let pe := if le > p.pathEnd then le else p.pathEnd
    (true, { pathBegin := p.pathBegin,
             pathEnd := pe,
             payloadLength := asUsize (pe - p.pathBegin),
             lexemeList := olInsert p.lexemeList l })
  else (false, p)

/-- `LexemePath::add_not_cross_lexeme` (lexeme_path.rs lines 64–87). -/
def LexemePath.addNotCrossLexeme (p : LexemePath) (l : Lexeme) : Bool × LexemePath :=
  if p.lexemeList.isEmpty then
    (true, { pathBegin := i32ofNat l.begin,
             pathEnd := i32ofNat (l.begin + l.length),
             payloadLength := p.payloadLength + l.length,
             lexemeList := olInsert p.lexemeList l })
  else if p.checkCross l then (false, p)
  else
    let list' := olInsert p.lexemeList l
    let head := list'.head?.getD defaultLexeme
    let tail := list'.getLast?.getD defaultLexeme
    (true, { pathBegin := i32ofNat head.begin,
             pathEnd := i32ofNat tail.begin + i32ofNat tail.length,
             payloadLength := p.payloadLength + l.length,
             lexemeList := list' })

/-- `LexemePath::remove_tail` (lexeme_path.rs lines 90–103). -/
def LexemePath.removeTail (p : LexemePath) : Option Lexeme × LexemePath :=
  let tail := p.lexemeList.getLast?
  let rest := p.lexemeList.dropLast
  if rest.isEmpty then
    (tail, { pathBegin := -1, pathEnd := -1, payloadLength := 0, lexemeList := rest })
  else
    let newTail := rest.getLast?.getD defaultLexeme
    (tail, { p with
             payloadLength := p.payloadLength - (tail.getD defaultLexeme).length,
             pathEnd := i32ofNat newTail.begin + i32ofNat newTail.length,
             lexemeList := rest })

/-- `LexemePath::get_path_length`: `(path_end - path_begin) as usize`. -/
def LexemePath.getPathLength (p : LexemePath) : Nat := asUsize (p.pathEnd - p.pathBegin)

/-- `LexemePath::get_xweight`: the `usize` product of the lexeme lengths,
returned `as i32`. -/
def LexemePath.getXWeight (p : LexemePath) : Int :=
  i32ofNat (p.lexemeList.foldl (fun acc l => acc * l.length) 1)

/-- `LexemePath::get_pweight`: `Σ position × length` with 1-based
positions, in `usize`, returned `as i32`. -/
def LexemePath.getPWeight (p : LexemePath) : Int :=
  i32ofNat (p.lexemeList.enum.foldl (fun acc q => acc + (q.1 + 1) * q.2.length) 0)

/-- `PartialOrd for LexemePath` (lexeme_path.rs lines 195–220): the
six-key comparator used to pick the best disambiguation path. -/
def pathCompare (a b : LexemePath) : Ordering :=
  match cmpNat a.payloadLength b.payloadLength with
  | .lt => .gt
  | .gt => .lt
  | .eq =>
    match cmpNat a.size b.size with
    | .lt => .lt
    | .gt => .gt
    | .eq =>
      match cmpNat a.getPathLength b.getPathLength with
      | .lt => .gt
      | .gt => .lt
      | .eq =>
        match cmpInt a.pathEnd b.pathEnd with
        | .lt => .gt
        | .gt => .lt
        | .eq =>
          match cmpInt a.getXWeight b.getXWeight with
          | .lt => .gt
          | .gt => .lt
          | .eq => cmpInt b.getPWeight a.getPWeight

/-! ## ik_arbitrator.rs -/

/-- `TokenMode` from ik_segmenter.rs. -/
inductive TokenMode where
  | INDEX
  | SEARCH
deriving DecidableEq, Repr

/-- The `BTreeSet<LexemePath>::insert` used by `judge`, on the model of a
`BTreeSet` as a `pathCompare`-sorted duplicate-free list: splice the path
in front of the first element it is below, drop it when an equal element is
already present. `iter().next()` is then the head of the list. -/
def btInsert (p : LexemePath) : List LexemePath → List LexemePath
  | [] => [p]
  | q :: rest =>
    match pathCompare p q with
    | .lt => p :: q :: rest
    | .eq => q :: rest
    | .gt => q :: btInsert p rest

/-- `IKArbitrator::forward_path` (ik_arbitrator.rs lines 103–124): walk the
chain, adding each lexeme that does not cross the option path; lexemes
that fail to add are pushed on the conflict stack, which holds their node
handles — modelled by the chain suffix starting at the conflict. The head
of the returned stack is its top (the last conflict pushed). -/
def forwardPath : List Lexeme → LexemePath → LexemePath × List (List Lexeme)
  | [], opt => (opt, [])
  | c :: rest, opt =>
    let r := opt.addNotCrossLexeme c
    let rr := forwardPath rest r.2
    if r.1 then rr else (rr.1, rr.2 ++ [c :: rest])

/-- The rollback loop of `IKArbitrator::back_path` (ik_arbitrator.rs lines
127–136), with an explicit step bound: each step on a nonempty path
removes its tail, so `size + 1` steps are exact. (On an empty path that
still "crosses" — which needs a lexeme whose begin truncates to a negative
`i32`, something no reachable lexeme has — the source loop would spin
forever; the bound stops it.) -/
def backPathAux : Nat → Lexeme → LexemePath → LexemePath
  | 0, _, opt => opt
  | n + 1, lx, opt =>
    if opt.checkCross lx then backPathAux n lx (opt.removeTail).2 else opt

/-- `IKArbitrator::back_path`. -/
def backPath (l? : Option Lexeme) (opt : LexemePath) : LexemePath :=
  match l? with
  | none => opt
  | some lx => backPathAux (opt.size + 1) lx opt

/-- The drain loop of `IKArbitrator::judge` (ik_arbitrator.rs lines
87–93): pop each conflict off the stack, roll the option path back past
it, walk forward again from it, and record the resulting option. The
conflict stacks produced by the re-walks are discarded, as in the source.
Returns the final option, the candidate set, and the list of recorded
candidates in record order. -/
def judgeLoop : List (List Lexeme) → LexemePath → List LexemePath → List LexemePath →
    LexemePath × List LexemePath × List LexemePath
  | [], opt, cands, recs => (opt, cands, recs)
  | c :: cs, opt, cands, recs =>
    let opt1 := backPath c.head? opt
    let opt2 := (forwardPath c opt1).1
    judgeLoop cs opt2 (btInsert opt2 cands) (recs ++ [opt2])

/-- `IKArbitrator::judge` (ik_arbitrator.rs lines 78–100), returning the
candidate set and the recorded candidates. -/
def judgeRun (chain : List Lexeme) : List LexemePath × List LexemePath :=
  let fr := forwardPath chain LexemePath.new
  let r := judgeLoop fr.2 fr.1 (btInsert fr.1 []) [fr.1]
  (r.2.1, r.2.2)

/-- The path `judge` returns: the least element of the candidate set. The
set always contains the first forward pass's option, so `head?` cannot
miss; `getD` stands in for the source's `unwrap`. -/
def judge (chain : List Lexeme) : LexemePath :=
  ((judgeRun chain).1.head?).getD LexemePath.new

/-- The path map `HashMap<usize, LexemePath>`, as a function. -/
def PathMap : Type := Nat → Option LexemePath

def pmEmpty : PathMap := fun _ => none

def pmInsert (m : PathMap) (k : Nat) (p : LexemePath) : PathMap :=
  fun q => if q = k then some p else m q

/-- Resolving and storing one terminal cross path, as done twice inside
`IKArbitrator::process` (ik_arbitrator.rs lines 34–46 and 58–70): paths of
size one — and every path in INDEX mode — are stored as they are, larger
SEARCH-mode paths are stored after `judge`; the key is
`get_path_begin() as usize`. -/
def storePath (mode : TokenMode) (m : PathMap) (cross : LexemePath) : PathMap :=
  if cross.size = 1 ∨ ¬mode = .SEARCH then
    pmInsert m (asUsize cross.pathBegin) cross
  else
    let jr := judge cross.lexemeList
    pmInsert m (asUsize jr.pathBegin) jr

/-- The main loop of `IKArbitrator::process` (ik_arbitrator.rs lines
27–55) followed by the final store (lines 58–70). -/
def processLoop (mode : TokenMode) : List Lexeme → PathMap → LexemePath → PathMap
  | [], m, cross => storePath mode m cross
  | l :: rest, m, cross =>
    let r := cross.addCrossLexeme l
    if r.1 then processLoop mode rest m r.2
    else
      let m' := storePath mode m cross
      processLoop mode rest m' (LexemePath.new.addCrossLexeme l).2

/-- `IKArbitrator::process`. -/
def arbProcess (mode : TokenMode) (org : List Lexeme) : PathMap :=
  processLoop mode org pmEmpty LexemePath.new

/-! ## ik_segmenter.rs -/

/-- The single-character emission of `output_to_result`: CHINESE positions
yield a CNCHAR lexeme, OtherCjk positions an OtherCJK lexeme, all others
nothing. -/
def singleCharLexeme (c : Char) (index : Nat) : List Lexeme :=
  if charTypeOf c = .CHINESE then [Lexeme.new 0 index 1 .CNCHAR]
  else if charTypeOf c = .OtherCjk then [Lexeme.new 0 index 1 .OtherCJK]
  else []

/-- The body of the gap-filling loop, driven by the exact iteration count
`target - i`. -/
def gapFillGo (chars : List Char) : Nat → Nat → List Lexeme
  | 0, _ => []
  | n + 1, i =>
    (match chars.get? i with
     | some c => singleCharLexeme c i
     | none => []) ++ gapFillGo chars n (i + 1)

/-- The inner gap-filling loop of `output_to_result` (ik_segmenter.rs lines
137–150): emit single-character lexemes for every position in
`[i, target)`. Positions past the buffer end (unreachable through the
pipeline) emit nothing. -/
def gapFill (chars : List Char) (i target : Nat) : List Lexeme :=
  gapFillGo chars (target - i) i

/-- The path-draining inner loop of `output_to_result` (ik_segmenter.rs
lines 126–152): emit the path's lexemes in order, filling each gap between
two successive lexemes with single characters; `index` ends at
`begin + length` of the last lexeme (or stays put for an empty path). -/
def drainPath (chars : List Char) : List Lexeme → Nat → List Lexeme × Nat
  | [], i => ([], i)
  | l :: rest, _ =>
    let i' := l.begin + l.length
    match rest with
    | [] => ([l], i')
    | l2 :: _ =>
      let r := drainPath chars rest (max i' l2.begin)
      (l :: (gapFill chars i' l2.begin ++ r.1), r.2)

/-- The outer loop of `IKSegmenter::output_to_result` (ik_segmenter.rs
lines 107–168), with explicit fuel; the loop runs while `index` is inside
the buffer. `chars.length` fuel is enough for every reachable path map,
since each iteration advances `index` (claims C2 and C7 hold for every
fuel). -/
def outputLoop (chars : List Char) (m : PathMap) : Nat → Nat → List Lexeme
  | 0, _ => []
  | fuel + 1, index =>
    match chars.get? index with
    | none => []
    | some c =>
      if charTypeOf c = .USELESS then outputLoop chars m fuel (index + 1)
      else
        match m index with
        | some path =>
          let r := drainPath chars path.lexemeList index
          r.1 ++ outputLoop chars m fuel r.2
        | none => singleCharLexeme c index ++ outputLoop chars m fuel (index + 1)

/-- `IKSegmenter::output_to_result`. -/
def outputToResult (chars : List Char) (m : PathMap) : List Lexeme :=
  outputLoop chars m chars.length 0

/-- The first merging phase of `IKSegmenter::compound` (ik_segmenter.rs
lines 174–188): an ARABIC result absorbs an adjacent CNUM (becoming CNUM)
or COUNT (becoming CQUAN) head of the remaining results. -/
def compoundArabic (rv : Lexeme) (results : List Lexeme) : Lexeme × List Lexeme :=
  match results with
  | [] => (rv, [])
  | nxt :: rest =>
    if rv.lexemeType = .ARABIC then
      if nxt.lexemeType = .CNUM then
        let a := rv.append nxt .CNUM
        if a.1 then (a.2, rest) else (rv, nxt :: rest)
      else if nxt.lexemeType = .COUNT then
        let a := rv.append nxt .CQUAN
        if a.1 then (a.2, rest) else (rv, nxt :: rest)
      else (rv, nxt :: rest)
    else (rv, nxt :: rest)

/-- The second merging phase of `IKSegmenter::compound` (ik_segmenter.rs
lines 190–200): a CNUM result absorbs an adjacent COUNT (becoming
CQUAN). -/
def compoundCnum (rv : Lexeme) (results : List Lexeme) : Lexeme × List Lexeme :=
  match results with
  | [] => (rv, [])
  | nxt :: rest =>
    if rv.lexemeType = .CNUM then
      if nxt.lexemeType = .COUNT then
        let a := rv.append nxt .CQUAN
        if a.1 then (a.2, rest) else (rv, nxt :: rest)
      else (rv, nxt :: rest)
    else (rv, nxt :: rest)

/-- `IKSegmenter::compound` (ik_segmenter.rs lines 171–202): both phases,
guarded by the outer emptiness test. -/
def compound (rv : Lexeme) (results : List Lexeme) : Lexeme × List Lexeme :=
  match results with
  | [] => (rv, [])
  | _ :: _ =>
    let s1 := compoundArabic rv results
    compoundCnum s1.1 s1.2

theorem compoundArabic_snd_length (rv : Lexeme) (rs : List Lexeme) :
    (compoundArabic rv rs).2.length ≤ rs.length := by
  cases rs with
  | nil => simp [compoundArabic]
  | cons nxt rest =>
    simp only [compoundArabic]
    split
    · split
      · split <;> simp
      · split
        · split <;> simp
        · simp
    · simp

theorem compoundCnum_snd_length (rv : Lexeme) (rs : List Lexeme) :
    (compoundCnum rv rs).2.length ≤ rs.length := by
  cases rs with
  | nil => simp [compoundCnum]
  | cons nxt rest =>
    simp only [compoundCnum]
    split
    · split
      · split <;> simp
      · simp
    · simp

theorem compound_snd_length (rv : Lexeme) (rs : List Lexeme) :
    (compound rv rs).2.length ≤ rs.length := by
  cases rs with
  | nil => simp [compound]
  | cons nxt rest =>
    simp only [compound]
    exact le_trans (compoundCnum_snd_length _ _) (compoundArabic_snd_length _ _)

/-- The body of the stop-word filtering loop, driven by a step count; the
list length strictly decreases every iteration (`compound_snd_length`), so
`l.length` steps are exact. -/
def finalizeGo (d : Dictionary) (input : List Char) (mode : TokenMode) :
    Nat → List Lexeme → List Lexeme
  | 0, _ => []
  | _, [] => []
  | n + 1, rv :: rest =>
    let s := if mode = .SEARCH then compound rv rest else (rv, rest)
    if d.isStopWord input s.1.begin s.1.length then finalizeGo d input mode n s.2
    else s.1.parseText input :: finalizeGo d input mode n s.2

/-- The stop-word filtering and compounding loop of
`IKSegmenter::tokenize` (ik_segmenter.rs lines 85–99): pop each result,
compound it in SEARCH mode, drop stop words, give survivors their text. -/
def finalizeResults (d : Dictionary) (input : List Char) (mode : TokenMode)
    (l : List Lexeme) : List Lexeme :=
  finalizeGo d input mode l.length l

/-- `IKSegmenter::tokenize` (ik_segmenter.rs lines 68–101), parameterized
by the loaded dictionary. -/
def tokenize (d : Dictionary) (input : List Char) (mode : TokenMode) : List Lexeme :=
  let org := originLexemes d input
  let pmap := arbProcess mode org
  let results := outputToResult input pmap
  finalizeResults d input mode results

/-! ## Basic lemmas about the machine casts and comparators -/

theorem asUsize_ofNat {n : Nat} (h : n < 2 ^ 64) : asUsize (n : Int) = n := by
  unfold asUsize
  omega

theorem i32ofNat_small {n : Nat} (h : n < 2 ^ 31) : i32ofNat n = (n : Int) := by
  unfold i32ofNat
  simp only
  omega

theorem cmpNat_lt {a b : Nat} : cmpNat a b = .lt ↔ a < b := by
  unfold cmpNat
  split <;> rename_i h1
  · simp [h1]
  · split <;> rename_i h2 <;> constructor <;> intro h <;> simp_all <;> omega

theorem cmpNat_gt {a b : Nat} : cmpNat a b = .gt ↔ b < a := by
  unfold cmpNat
  split <;> rename_i h1
  · constructor <;> intro h <;> simp_all <;> omega
  · split <;> rename_i h2 <;> constructor <;> intro h <;> simp_all <;> omega

theorem cmpNat_eq {a b : Nat} : cmpNat a b = .eq ↔ a = b := by
  unfold cmpNat
  split <;> rename_i h1
  · constructor <;> intro h <;> simp_all <;> omega
  · split <;> rename_i h2 <;> constructor <;> intro h <;> simp_all <;> omega

theorem cmpInt_lt {a b : Int} : cmpInt a b = .lt ↔ a < b := by
  unfold cmpInt
  split <;> rename_i h1
  · simp [h1]
  · split <;> rename_i h2 <;> constructor <;> intro h <;> simp_all <;> omega

theorem cmpInt_gt {a b : Int} : cmpInt a b = .gt ↔ b < a := by
  unfold cmpInt
  split <;> rename_i h1
  · constructor <;> intro h <;> simp_all <;> omega
  · split <;> rename_i h2 <;> constructor <;> intro h <;> simp_all <;> omega

theorem cmpInt_eq {a b : Int} : cmpInt a b = .eq ↔ a = b := by
  unfold cmpInt
  split <;> rename_i h1
  · constructor <;> intro h <;> simp_all <;> omega
  · split <;> rename_i h2 <;> constructor <;> intro h <;> simp_all <;> omega

/-! ## Claim C10 -/

/-- C10: for every trie, buffer, offset and length with `offset + length`
strictly greater than the buffer's character count, `match_with_offset`
returns the empty hit list, and consequently `is_stop_word` returns false
for any span extending past the end of the buffer. -/
theorem c10_out_of_range_match_empty (t : TrieNode) (d : Dictionary)
    (cl : List Char) (offset length : Nat) (h : cl.length < offset + length) :
    t.matchWithOffset cl offset length = [] ∧
      d.isStopWord cl offset length = false := by
  have h1 : ¬offset + length ≤ cl.length := by omega
  refine ⟨?_, ?_⟩
  · unfold TrieNode.matchWithOffset
    rw [if_neg h1]
  · unfold Dictionary.isStopWord TrieNode.matchWithOffset
    rw [if_neg h1]
    rfl

theorem c10_witness :
    (['a'] : List Char).length < 1 + 1 ∧
      ((TrieNode.root.insertChars ['a']).matchWithOffset ['a'] 1 1 = [] ∧
        emptyDictionary.isStopWord ['a'] 1 1 = false) :=
  ⟨by decide,
   c10_out_of_range_match_empty (TrieNode.root.insertChars ['a']) emptyDictionary
     ['a'] 1 1 (by decide)⟩

/-! ## Claim C1 -/

/-- C1 (code bug): `TrieNode::insert` only marks a node final when it
creates that node, so inserting a word that is a proper prefix of an
already-inserted word records nothing. After inserting `"ab"` and then
`"a"`, matching over the two-character span yields a single MATCH hit (for
`"ab"`), no MATCH hit with span `[0, 0]`, and `exist("a")` is false — even
though the claim requires a MATCH hit for every inserted word in any
insertion order. Inserting the words in the opposite order yields both
hits, exhibiting the order dependence. -/
theorem c1_insert_prefix_order_bug :
    ((TrieNode.root.insertChars ['a', 'b']).insertChars ['a']).matchWithOffset
        ['a', 'b'] 0 2 =
      [{ begin := 0, end_ := 1, isMatch := true, isPrefix := false }] ∧
    ((TrieNode.root.insertChars ['a', 'b']).insertChars ['a']).existChars ['a'] = false ∧
    ((TrieNode.root.insertChars ['a']).insertChars ['a', 'b']).matchWithOffset
        ['a', 'b'] 0 2 =
      [{ begin := 0, end_ := 0, isMatch := true, isPrefix := true },
       { begin := 0, end_ := 1, isMatch := true, isPrefix := false }] := by
  decide

/-! ## Claim C8 -/

/-- C8 (code bug): the letter segmenter emits, for each SPECIAL character,
a candidate lexeme with `begin = p`, `length = 1` and type SPECIAL — but
`SPECIAL` is not among the variants the `LexemeType` enum of lexeme.rs
declares (the type set of §3), so the constructed type is not representable
there: letter_segmentor.rs line 225 names a variant that does not exist. -/
theorem c8_special_lexeme_type_undeclared :
    processSpecialLetter ['!'] = [Lexeme.new 0 0 1 .SPECIAL] ∧
    letterAnalyze ['!'] = [Lexeme.new 0 0 1 .SPECIAL] ∧
    LexemeType.SPECIAL ∉ declaredLexemeTypes := by
  decide

/-! ## Claim C5 -/

/-- Full-width uppercase letters are the only characters on which
`regularize` is not idempotent: one pass turns them into half-width
*uppercase* letters, which only the next pass lowercases. -/
theorem regularize_regularize (c : Char)
    (h : ¬(65313 ≤ c.toNat ∧ c.toNat ≤ 65338)) :
    regularize (regularize c) = regularize c := by
  by_cases h1 : c.toNat = 12288
  · have hr : regularize c = Char.ofNat 32 := by
      simp [regularize, h1]
    rw [hr]
    decide
  · by_cases h2 : 65281 ≤ c.toNat ∧ c.toNat ≤ 65374
    · have hr : regularize c = Char.ofNat (c.toNat - 65248) := by
        simp [regularize, h1, h2]
      rw [hr]
      have hb1 : 33 ≤ c.toNat - 65248 := by omega
      have hb2 : c.toNat - 65248 ≤ 126 := by omega
      have hup : ¬(65 ≤ c.toNat - 65248 ∧ c.toNat - 65248 ≤ 90) := by omega
      set m := c.toNat - 65248 with hm
      clear_value m
      interval_cases m <;> first | omega | decide
    · by_cases h3 : 65 ≤ c.toNat ∧ c.toNat ≤ 90
      · have hr : regularize c = Char.ofNat (c.toNat + 32) := by
          simp [regularize, h1, h2, h3]
        rw [hr]
        have hb1 : 97 ≤ c.toNat + 32 := by omega
        have hb2 : c.toNat + 32 ≤ 122 := by omega
        set m := c.toNat + 32 with hm
        clear_value m
        interval_cases m <;> decide
      · have hr : regularize c = c := by
          simp [regularize, h1, h2, h3, Char.ofNat_toNat]
        rw [hr, hr]

/-- Idempotence of `regularize_str` on strings without full-width
uppercase letters. -/
theorem regularizeStr_idem (l : List Char)
    (h : ∀ c ∈ l, ¬(65313 ≤ c.toNat ∧ c.toNat ≤ 65338)) :
    regularizeStr (regularizeStr l) = regularizeStr l := by
  unfold regularizeStr
  rw [List.map_map]
  refine List.map_congr_left ?_
  intro c hc
  simpa using regularize_regularize c (h c hc)

/-- C5 counterexample: normalization is *not* idempotent, and the claim
fails on the full-width `Ａ` even with empty dictionaries: one
normalization yields `A` and the tokenizer emits the text `A`; a second
normalization lowercases it and the tokenizer emits `a`. -/
theorem c5_counterexample :
    tokenize emptyDictionary (regularizeStr (regularizeStr ['Ａ'])) .INDEX ≠
      tokenize emptyDictionary (regularizeStr ['Ａ']) .INDEX := by
  decide

/-- C5 (amended): for every dictionary, mode, and input containing no
full-width uppercase letter (code points 65313–65338), tokenizing
`normalize(normalize(x))` yields the same token sequence as tokenizing
`normalize(x)` — the two normalized inputs are in fact equal. -/
theorem c5_normalize_idempotent_amended (d : Dictionary) (mode : TokenMode)
    (x : List Char) (h : ∀ c ∈ x, ¬(65313 ≤ c.toNat ∧ c.toNat ≤ 65338)) :
    tokenize d (regularizeStr (regularizeStr x)) mode =
      tokenize d (regularizeStr x) mode := by
  rw [regularizeStr_idem x h]

theorem c5_witness :
    (∀ c ∈ (['ｂ', '1'] : List Char), ¬(65313 ≤ c.toNat ∧ c.toNat ≤ 65338)) ∧
      tokenize emptyDictionary (regularizeStr (regularizeStr ['ｂ', '1'])) .SEARCH =
        tokenize emptyDictionary (regularizeStr ['ｂ', '1']) .SEARCH := by
  refine ⟨by decide, c5_normalize_idempotent_amended emptyDictionary .SEARCH ['ｂ', '1'] (by decide)⟩

/-! ## Claim C6 -/

/-- Non-overlapping succession: the first lexeme ends at or before the
second begins. -/
def lexSep (a b : Lexeme) : Prop := a.begin + a.length ≤ b.begin

instance : IsTrans Lexeme lexSep :=
  ⟨fun a b c hab hbc => by unfold lexSep at *; omega⟩

theorem asUsize_castNat {n : Nat} (h : n < 2 ^ 64) : asUsize (n : Int) = n := by
  unfold asUsize
  omega

theorem asUsize_sub_add_one {s e : Nat} (hse : s ≤ e) (he : e < 2 ^ 63) :
    asUsize ((e : Int) - (s : Int) + 1) = e - s + 1 := by
  unfold asUsize
  omega

theorem asUsize_one : asUsize 1 = 1 := by
  unfold asUsize
  omega

/-- The number pass emits only CNUM lexemes of positive length, with
begins bounded below by the active run start (or the cursor), ends bounded
by the end of the buffer, and pairwise separated in increasing order. -/
theorem cnumLoop_spec (chars : List Char) :
    ∀ (cursor : Nat) (ns ne : Int),
      cursor + chars.length ≤ 2 ^ 31 →
      ((ns = -1 ∧ ne = -1) ∨
        (∃ s e : Nat, ns = (s : Int) ∧ ne = (e : Int) ∧ s ≤ e ∧ e < cursor)) →
      (∀ l ∈ (cnumLoop chars cursor ns ne).1,
          l.lexemeType = .CNUM ∧ 1 ≤ l.length ∧
          (if ns = -1 then cursor else ns.toNat) ≤ l.begin ∧
          l.begin + l.length ≤ cursor + chars.length) ∧
      List.Chain' lexSep (cnumLoop chars cursor ns ne).1 := by
  induction chars with
  | nil =>
    intro cursor ns ne hb hst
    simp [cnumLoop]
  | cons c rest ih =>
    intro cursor ns ne hb hst
    have hlenc : (c :: rest).length = rest.length + 1 := by simp
    have hcur31 : cursor < 2 ^ 31 := by rw [hlenc] at hb; omega
    rcases hst with ⟨hns, hne⟩ | ⟨s, e, hns, hne, hse, hec⟩
    · subst hns; subst hne
      by_cases hnum : charTypeOf c = .CHINESE ∧ isChnNumber c
      · -- a run starts at the cursor
        cases rest with
        | nil =>
          -- last character: the run is flushed immediately
          have hred : cnumLoop [c] cursor (-1) (-1) =
              ([Lexeme.new 0 (asUsize (i32ofNat cursor))
                  (asUsize (i32ofNat cursor - i32ofNat cursor + 1)) .CNUM], -1, -1) := by
            simp [cnumLoop, hnum, i32ofNat_small hcur31]
          rw [hred]
          have h1 : asUsize (i32ofNat cursor) = cursor := by
            rw [i32ofNat_small hcur31, asUsize_castNat (by omega)]
          have h2 : asUsize (i32ofNat cursor - i32ofNat cursor + 1) = 1 := by
            rw [i32ofNat_small hcur31]
            unfold asUsize
            omega
          constructor
          · intro l hl
            simp only [List.mem_singleton] at hl
            subst hl
            refine ⟨rfl, ?_, ?_, ?_⟩ <;>
              (simp [Lexeme.new, h1, h2, asUsize_one]; try omega)
          · simp
        | cons c2 rs =>
          have hred : cnumLoop (c :: c2 :: rs) cursor (-1) (-1) =
              cnumLoop (c2 :: rs) (cursor + 1) (i32ofNat cursor) (i32ofNat cursor) := by
            simp [cnumLoop, hnum]
          rw [hred]
          have hb2 : (cursor + 1) + (c2 :: rs).length ≤ 2 ^ 31 := by
            simp only [List.length_cons] at hb ⊢; omega
          have hst2 : ((i32ofNat cursor = -1 ∧ i32ofNat cursor = -1) ∨
              (∃ s e : Nat, i32ofNat cursor = (s : Int) ∧ i32ofNat cursor = (e : Int) ∧
                s ≤ e ∧ e < cursor + 1)) := by
            right
            exact ⟨cursor, cursor, i32ofNat_small hcur31, i32ofNat_small hcur31,
              le_refl _, by omega⟩
          obtain ⟨hmem, hchain⟩ := ih (cursor + 1) (i32ofNat cursor) (i32ofNat cursor) hb2 hst2
          refine ⟨?_, hchain⟩
          intro l hl
          obtain ⟨ht, hlen, hlow, hhigh⟩ := hmem l hl
          have hcast : i32ofNat cursor = (cursor : Int) := i32ofNat_small hcur31
          have hne1 : ¬ i32ofNat cursor = -1 := by rw [hcast]; omega
          rw [if_neg hne1, hcast] at hlow
          refine ⟨ht, hlen, ?_, ?_⟩
          · rw [if_pos rfl]
            omega
          · simp only [List.length_cons] at hhigh ⊢
            omega
      · -- no run active, current character not a numeral
        have hred : cnumLoop (c :: rest) cursor (-1) (-1) =
            cnumLoop rest (cursor + 1) (-1) (-1) := by
          cases rest <;> simp [cnumLoop, hnum]
        rw [hred]
        have hb2 : (cursor + 1) + rest.length ≤ 2 ^ 31 := by
          rw [hlenc] at hb; omega
        obtain ⟨hmem, hchain⟩ := ih (cursor + 1) (-1) (-1) hb2 (Or.inl ⟨rfl, rfl⟩)
        refine ⟨?_, hchain⟩
        intro l hl
        obtain ⟨ht, hlen, hlow, hhigh⟩ := hmem l hl
        rw [if_pos rfl] at hlow
        refine ⟨ht, hlen, ?_, ?_⟩
        · rw [if_pos rfl]
          omega
        · rw [hlenc]
          omega
    · -- a run (s, e) is active
      subst hns; subst hne
      have hs31 : s < 2 ^ 31 := by omega
      have hnsm1 : ¬((s : Int) = -1 ∧ (e : Int) = -1) := by
        intro hc; omega
      have hnsne : ¬ (s : Int) = -1 := by omega
      have htn : ((s : Int)).toNat = s := by omega
      by_cases hnum : charTypeOf c = .CHINESE ∧ isChnNumber c
      · cases rest with
        | nil =>
          -- extend the run to the cursor, then flush it
          have hred : cnumLoop [c] cursor (s : Int) (e : Int) =
              ([Lexeme.new 0 (asUsize (s : Int))
                  (asUsize (i32ofNat cursor - (s : Int) + 1)) .CNUM], -1, -1) := by
            simp [cnumLoop, hnsm1, hnum, i32ofNat_small hcur31] <;> omega
          rw [hred]
          have h1 : asUsize (s : Int) = s := asUsize_castNat (by omega)
          have h2 : asUsize (i32ofNat cursor - (s : Int) + 1) = cursor - s + 1 := by
            rw [i32ofNat_small hcur31]
            exact asUsize_sub_add_one (by omega) (by omega)
          constructor
          · intro l hl
            simp only [List.mem_singleton] at hl
            subst hl
            rw [if_neg hnsne]
            refine ⟨rfl, ?_, ?_, ?_⟩ <;>
              (simp [Lexeme.new, h1, h2, htn, asUsize_one]; try omega)
          · simp
        | cons c2 rs =>
          have hred : cnumLoop (c :: c2 :: rs) cursor (s : Int) (e : Int) =
              cnumLoop (c2 :: rs) (cursor + 1) (s : Int) (i32ofNat cursor) := by
            simp [cnumLoop, hnsm1, hnum]
          rw [hred]
          have hb2 : (cursor + 1) + (c2 :: rs).length ≤ 2 ^ 31 := by
            simp only [List.length_cons] at hb ⊢; omega
          have hst2 : (((s : Int) = -1 ∧ i32ofNat cursor = -1) ∨
              (∃ s' e' : Nat, (s : Int) = (s' : Int) ∧ i32ofNat cursor = (e' : Int) ∧
                s' ≤ e' ∧ e' < cursor + 1)) := by
            right
            exact ⟨s, cursor, rfl, i32ofNat_small hcur31, by omega, by omega⟩
          obtain ⟨hmem, hchain⟩ := ih (cursor + 1) (s : Int) (i32ofNat cursor) hb2 hst2
          refine ⟨?_, hchain⟩
          intro l hl
          obtain ⟨ht, hlen, hlow, hhigh⟩ := hmem l hl
          rw [if_neg hnsne] at hlow ⊢
          refine ⟨ht, hlen, hlow, ?_⟩
          simp only [List.length_cons] at hhigh ⊢
          omega
      · -- the active run is flushed here
        have hred : cnumLoop (c :: rest) cursor (s : Int) (e : Int) =
            (Lexeme.new 0 (asUsize (s : Int)) (asUsize ((e : Int) - (s : Int) + 1)) .CNUM ::
              (cnumLoop rest (cursor + 1) (-1) (-1)).1,
             (cnumLoop rest (cursor + 1) (-1) (-1)).2) := by
          cases rest <;> simp [cnumLoop, hnsm1, hnum]
        rw [hred]
        have h1 : asUsize (s : Int) = s := asUsize_castNat (by omega)
        have h2 : asUsize ((e : Int) - (s : Int) + 1) = e - s + 1 :=
          asUsize_sub_add_one hse (by omega)
        have hb2 : (cursor + 1) + rest.length ≤ 2 ^ 31 := by
          rw [hlenc] at hb; omega
        obtain ⟨hmem, hchain⟩ := ih (cursor + 1) (-1) (-1) hb2 (Or.inl ⟨rfl, rfl⟩)
        constructor
        · intro l hl
          simp only [List.mem_cons] at hl
          rcases hl with hl | hl
          · subst hl
            rw [if_neg hnsne]
            refine ⟨rfl, ?_, ?_, ?_⟩ <;>
              (simp only [Lexeme.new, h1, h2, htn, asUsize_one, List.length_cons]; omega)
          · obtain ⟨ht, hlen, hlow, hhigh⟩ := hmem l hl
            rw [if_pos rfl] at hlow
            rw [if_neg hnsne]
            refine ⟨ht, hlen, ?_, ?_⟩
            · rw [htn]
              omega
            · rw [hlenc]
              omega
        · rw [List.chain'_cons']
          refine ⟨?_, hchain⟩
          intro y hy
          have hymem : y ∈ (cnumLoop rest (cursor + 1) (-1) (-1)).1 :=
            List.mem_of_mem_head? hy
          obtain ⟨_, _, hlow, _⟩ := hmem y hymem
          rw [if_pos rfl] at hlow
          unfold lexSep
          simp only [Lexeme.new, h1, h2]
          omega

/-- Inserting an element strictly beyond every current element appends it
at the back. -/
theorem olInsert_push_back (acc : List Lexeme) (data : Lexeme)
    (h : ∀ x ∈ acc, x.begin < data.begin) : olInsert acc data = acc ++ [data] := by
  cases acc with
  | nil => simp [olInsert]
  | cons a rest =>
    have hgt : ∀ x ∈ a :: rest, lexCmp data x = .gt := by
      intro x hx
      unfold lexCmp
      rw [cmpNat_gt.mpr (h x hx)]
    have h1 : ¬ lexCmp data a = .lt := by
      rw [hgt a (by simp)]
      simp
    have h2 : lexCmp data ((a :: rest).getLast (by simp)) = .gt :=
      hgt _ (List.getLast_mem _)
    simp only [olInsert]
    rw [if_neg h1, if_pos h2]

/-- Folding `olInsert` over a separated run list reproduces the list: each
element lands strictly past the current tail. -/
theorem foldl_olInsert_sep (out : List Lexeme) :
    ∀ pre : List Lexeme,
      (∀ x ∈ pre, ∀ y ∈ out, x.begin < y.begin) →
      List.Chain' lexSep out → (∀ l ∈ out, 1 ≤ l.length) →
      out.foldl olInsert pre = pre ++ out := by
  induction out with
  | nil => simp
  | cons d rest ih =>
    intro pre hpre hchain hlen
    have hpair : ∀ y ∈ rest, lexSep d y :=
      (List.pairwise_cons.mp ((List.chain'_iff_pairwise).mp hchain)).1
    rw [List.foldl_cons,
      olInsert_push_back pre d (fun x hx => hpre x hx d (by simp)),
      ih (pre ++ [d]) ?_ ((List.chain'_cons'.mp hchain).2)
        (fun l hl => hlen l (by simp [hl]))]
    · simp
    · intro x hx y hy
      rcases List.mem_append.mp hx with hx | hx
      · exact hpre x hx y (by simp [hy])
      · simp at hx
        subst hx
        have hs := hpair y hy
        have hl := hlen x (by simp)
        unfold lexSep at hs
        omega

/-- The backward scan of `need_count_scan` finds a number lexeme ending
exactly at the cursor whenever the list is a separated CNUM run list
containing one: walking from the tail, the ends are strictly decreasing,
so the exact match is reached before the early break fires. -/
theorem scanTail_complete (out : List Lexeme) (p : Nat)
    (hchain : List.Chain' lexSep out) (hlen : ∀ l ∈ out, 1 ≤ l.length)
    (hty : ∀ l ∈ out, l.lexemeType = .CNUM)
    (hex : ∃ l ∈ out, l.begin + l.length = p) :
    scanTailForNumber p out.reverse = true := by
  induction out using List.reverseRecOn with
  | nil => simp at hex
  | append_singleton ys t ih =>
    have hrev : (ys ++ [t]).reverse = t :: ys.reverse := by simp
    rw [hrev]
    have htyt : t.lexemeType = .CNUM := hty t (by simp)
    have hcond : t.lexemeType = .CNUM ∨ t.lexemeType = .ARABIC := Or.inl htyt
    obtain ⟨hys, _, hlast⟩ := List.chain'_append.mp hchain
    have hends : ∀ l ∈ ys, l.begin + l.length < t.begin + t.length := by
      intro l hl
      have hp : List.Pairwise lexSep (ys ++ [t]) :=
        (List.chain'_iff_pairwise).mp hchain
      have hsep : lexSep l t := by
        have := (List.pairwise_append.mp hp).2.2
        exact this l hl t (by simp)
      have := hlen t (by simp)
      unfold lexSep at hsep
      omega
    unfold scanTailForNumber
    rw [if_pos hcond]
    rcases hcmp : cmpNat (t.begin + t.length) p with _ | _ | _
    · -- t ends before p: impossible, every end is at most t's
      exfalso
      obtain ⟨l, hl, hlp⟩ := hex
      rcases List.mem_append.mp hl with hl | hl
      · have := hends l hl
        have := cmpNat_lt.mp hcmp
        omega
      · simp at hl
        subst hl
        have := cmpNat_lt.mp hcmp
        omega
    · rfl
    · -- t ends after p: the witness lies strictly earlier
      obtain ⟨l, hl, hlp⟩ := hex
      rcases List.mem_append.mp hl with hl | hl
      · exact ih hys (fun x hx => hlen x (by simp [hx]))
          (fun x hx => hty x (by simp [hx])) ⟨l, hl, hlp⟩
      · exfalso
        simp at hl
        subst hl
        have := cmpNat_gt.mp hcmp
        omega

/-- Whenever the number pass produced a CNUM lexeme ending exactly at the
cursor, `need_count_scan` fires there. -/
theorem needCountScan_of_processCnumber (chars : List Char) (p : Nat)
    (hb : chars.length ≤ 2 ^ 31)
    (hex : ∃ l ∈ (processCnumber chars).1, l.begin + l.length = p) :
    needCountScan (processCnumber chars).2.1 (processCnumber chars).2.2
      ((processCnumber chars).1.foldl olInsert []) p = true := by
  obtain ⟨hmem, hchain⟩ :=
    cnumLoop_spec chars 0 (-1) (-1) (by simpa using hb) (Or.inl ⟨rfl, rfl⟩)
  have hchain1 : List.Chain' lexSep (processCnumber chars).1 := hchain
  have hlen1 : ∀ l ∈ (processCnumber chars).1, 1 ≤ l.length :=
    fun l hl => (hmem l hl).2.1
  have hty1 : ∀ l ∈ (processCnumber chars).1, l.lexemeType = .CNUM :=
    fun l hl => (hmem l hl).1
  unfold needCountScan
  split
  · rfl
  · have hfold : (processCnumber chars).1.foldl olInsert [] = (processCnumber chars).1 := by
      simpa using foldl_olInsert_sep (processCnumber chars).1 [] (by simp) hchain1 hlen1
    rw [hfold]
    exact scanTail_complete _ p hchain1 hlen1 hty1 hex

/-- C6 counterexample: at position 1 of `"3块"` the character is CHINESE,
the letter segmenter has produced an ARABIC lexeme ending exactly there,
and the quantifier dictionary has a MATCH hit there — yet the
Chinese-quantifier segmenter emits nothing: the list its
`need_count_scan` inspects contains only the CNUM lexemes of its own
number pass, never the ARABIC lexemes of the letter segmenter. -/
theorem c6_counterexample :
    charTypeOf '块' = .CHINESE ∧
    Lexeme.new 0 0 1 .ARABIC ∈ letterAnalyze ['3', '块'] ∧
    (((TrieNode.root.insertChars ['块']).matchWithOffset ['3', '块'] 1 1).any
        (fun h => h.isMatch)) = true ∧
    cnqAnalyze
      { emptyDictionary with quantifierDict := TrieNode.root.insertChars ['块'] }
      ['3', '块'] = [] := by
  decide

/-- C6 (amended): for every buffer and position `p` whose character is
CHINESE, if some CNUM lexeme *of the quantifier segmenter's own number
pass* ends exactly at `p` (the ARABIC case of the claim never applies: the
list that `need_count_scan` inspects only ever holds the number pass's
CNUM lexemes), then the quantifier dictionary is scanned at `p` and every
MATCH hit found there is emitted as a COUNT lexeme. -/
theorem c6_quantifier_scan_amended (d : Dictionary) (chars : List Char) (p : Nat)
    (hit : Hit) (hb : chars.length ≤ 2 ^ 31) (hp : p < chars.length)
    (hch : charTypeOf (chars.get ⟨p, hp⟩) = .CHINESE)
    (hnum : ∃ l ∈ (processCnumber chars).1, l.begin + l.length = p)
    (hhit : hit ∈ d.quantifierDict.matchWithOffset chars p (chars.length - p))
    (hm : hit.isMatch = true) :
    Lexeme.new 0 hit.begin (hit.end_ - hit.begin + 1) .COUNT ∈ cnqAnalyze d chars := by
  simp only [cnqAnalyze]
  rw [List.mem_append]
  right
  simp only [processCount]
  rw [List.mem_flatMap]
  refine ⟨(p, chars.get ⟨p, hp⟩), ?_, ?_⟩
  · rw [List.mem_enum_iff_getElem?]
    simp [List.getElem?_eq_getElem hp]
  · rw [if_pos (needCountScan_of_processCnumber chars p hb hnum), if_pos hch,
      List.mem_filterMap]
    exact ⟨hit, hhit, by rw [if_pos hm]⟩

theorem c6_witness :
    ((['一', '块'] : List Char).length ≤ 2 ^ 31 ∧ 1 < (['一', '块'] : List Char).length ∧
      (∃ l ∈ (processCnumber ['一', '块']).1, l.begin + l.length = 1)) ∧
    Lexeme.new 0 1 1 .COUNT ∈
      cnqAnalyze
        { emptyDictionary with quantifierDict := TrieNode.root.insertChars ['块'] }
        ['一', '块'] := by
  refine ⟨⟨by decide, by decide, by decide⟩, ?_⟩
  have h := c6_quantifier_scan_amended
    { emptyDictionary with quantifierDict := TrieNode.root.insertChars ['块'] }
    ['一', '块'] 1 { begin := 1, end_ := 1, isMatch := true, isPrefix := false }
    (by decide) (by decide) (by decide) (by decide) (by decide) (by decide)
  simpa using h

/-! ## Claim C9: the ordered candidate list -/

theorem lexCmp_lt_iff {a b : Lexeme} :
    lexCmp a b = .lt ↔ a.begin < b.begin ∨ (a.begin = b.begin ∧ b.length < a.length) := by
  unfold lexCmp
  rcases h : cmpNat a.begin b.begin with _ | _ | _ <;> simp only []
  · have h1 := cmpNat_lt.mp h
    constructor
    · intro _
      exact Or.inl h1
    · intro _
      trivial
  · have h1 := cmpNat_eq.mp h
    rw [cmpNat_lt]
    constructor
    · intro hlen
      exact Or.inr ⟨h1, hlen⟩
    · rintro (hlt | ⟨_, hlen⟩)
      · omega
      · exact hlen
  · have h1 := cmpNat_gt.mp h
    constructor
    · intro hc
      exact absurd hc (by decide)
    · rintro (hlt | ⟨heq, _⟩) <;> (exfalso; omega)

theorem lexCmp_gt_iff {a b : Lexeme} :
    lexCmp a b = .gt ↔ b.begin < a.begin ∨ (a.begin = b.begin ∧ a.length < b.length) := by
  unfold lexCmp
  rcases h : cmpNat a.begin b.begin with _ | _ | _ <;> simp only []
  · have h1 := cmpNat_lt.mp h
    constructor
    · intro hc
      exact absurd hc (by decide)
    · rintro (hlt | ⟨heq, _⟩) <;> (exfalso; omega)
  · have h1 := cmpNat_eq.mp h
    rw [cmpNat_gt]
    constructor
    · intro hlen
      exact Or.inr ⟨h1, hlen⟩
    · rintro (hlt | ⟨_, hlen⟩)
      · omega
      · exact hlen
  · have h1 := cmpNat_gt.mp h
    constructor
    · intro _
      exact Or.inl h1
    · intro _
      trivial

theorem lexCmp_eq_iff {a b : Lexeme} :
    lexCmp a b = .eq ↔ a.begin = b.begin ∧ a.length = b.length := by
  unfold lexCmp
  rcases h : cmpNat a.begin b.begin with _ | _ | _ <;> simp only []
  · have h1 := cmpNat_lt.mp h
    constructor
    · intro hc
      exact absurd hc (by decide)
    · rintro ⟨heq, _⟩
      exfalso
      omega
  · have h1 := cmpNat_eq.mp h
    rw [cmpNat_eq]
    omega
  · have h1 := cmpNat_gt.mp h
    constructor
    · intro hc
      exact absurd hc (by decide)
    · rintro ⟨heq, _⟩
      exfalso
      omega

/-- `≤` in the lexeme order. -/
def lexLe (a b : Lexeme) : Prop := ¬ lexCmp a b = .gt

instance : IsTrans Lexeme lexLe := by
  refine ⟨fun a b c hab hbc hac => ?_⟩
  unfold lexLe at hab hbc
  rw [lexCmp_gt_iff] at hab hbc hac
  omega

theorem lexLe_of_gt {a b : Lexeme} (h : lexCmp b a = .gt) : lexLe a b := by
  rw [lexCmp_gt_iff] at h
  rw [lexLe, lexCmp_gt_iff]
  omega

theorem lexLe_of_not_gt {a b : Lexeme} (h : ¬ lexCmp a b = .gt) : lexLe a b := h

/-- A list sorted in the lexeme order. -/
def SortedLex (l : List Lexeme) : Prop := List.Pairwise lexLe l

/-- The decomposition the tail-to-head scan produces: a strictly greater
prefix, then the first non-greater node, which either swallows the
insertion (`PartialEq`) or receives the element right behind itself (in
the reversed representation: right in front). -/
theorem olScanRev_cases (data : Lexeme) (rs : List Lexeme) :
    (olScanRev data rs = none ∧ ∀ x ∈ rs, lexCmp x data = .gt) ∨
    (∃ u x v, rs = u ++ x :: v ∧ (∀ y ∈ u, lexCmp y data = .gt) ∧
      ¬ lexCmp x data = .gt ∧
      ((lexPeq x data = true ∧ olScanRev data rs = some rs) ∨
       (lexPeq x data = false ∧ olScanRev data rs = some (u ++ data :: x :: v)))) := by
  induction rs with
  | nil =>
    left
    exact ⟨rfl, by simp⟩
  | cons a rest ih =>
    by_cases hgt : lexCmp a data = .gt
    · rcases ih with ⟨hn, hall⟩ | ⟨u, x, v, hdecomp, hu, hx, hcase⟩
      · left
        refine ⟨?_, ?_⟩
        · simp [olScanRev, hgt, hn]
        · intro y hy
          rcases List.mem_cons.mp hy with h | h
          · subst h; exact hgt
          · exact hall _ h
      · right
        refine ⟨a :: u, x, v, by simp [hdecomp], ?_, hx, ?_⟩
        · intro y hy
          rcases List.mem_cons.mp hy with h | h
          · subst h; exact hgt
          · exact hu _ h
        · rcases hcase with ⟨hpeq, heq⟩ | ⟨hpeq, heq⟩
          · left
            refine ⟨hpeq, ?_⟩
            simp only [olScanRev, if_pos hgt, heq, Option.map_some]
            simp
          · right
            refine ⟨hpeq, ?_⟩
            simp only [olScanRev, if_pos hgt, heq, Option.map_some]
            simp
    · right
      refine ⟨[], a, rest, rfl, by simp, hgt, ?_⟩
      by_cases hpeq : lexPeq a data
      · left
        exact ⟨hpeq, by simp [olScanRev, hgt, hpeq]⟩
      · right
        exact ⟨by simpa using hpeq, by simp [olScanRev, hgt, hpeq]⟩

theorem lexCmp_gt_swap {a b : Lexeme} : lexCmp a b = .gt ↔ lexCmp b a = .lt := by
  rw [lexCmp_gt_iff, lexCmp_lt_iff]
  omega

theorem lexPeq_iff {a b : Lexeme} :
    lexPeq a b = true ↔ a.offset = b.offset ∧ a.begin = b.begin ∧ a.length = b.length := by
  simp [lexPeq, and_assoc]

/-- Every element of the list survives an insertion. -/
theorem olInsert_mem_mono (acc : List Lexeme) (data y : Lexeme) (hy : y ∈ acc) :
    y ∈ olInsert acc data := by
  cases acc with
  | nil => simp at hy
  | cons a rest =>
    simp only [olInsert]
    split
    · simp [hy]
    · split
      · simp at hy ⊢
        tauto
      · rcases olScanRev_cases data (a :: rest).reverse with ⟨hn, _⟩ |
          ⟨u, x, v, hdec, hu, hx, hcase⟩
        · rw [hn]
          exact hy
        · have hacc : (a :: rest) = v.reverse ++ x :: u.reverse := by
            have h1 : (a :: rest) = ((a :: rest).reverse).reverse := by
              rw [List.reverse_reverse]
            rw [h1, hdec]
            simp
          rcases hcase with ⟨_, heq⟩ | ⟨_, heq⟩
          · rw [heq]
            simp only [List.reverse_reverse]
            exact hy
          · rw [heq]
            rw [hacc] at hy
            simp only [List.reverse_append, List.reverse_cons]
            simp at hy ⊢
            tauto

/-- Every element of the insertion result is an old element or the new
one. -/
theorem olInsert_mem_sub (acc : List Lexeme) (data y : Lexeme)
    (hy : y ∈ olInsert acc data) : y ∈ acc ∨ y = data := by
  cases acc with
  | nil => simp [olInsert] at hy; tauto
  | cons a rest =>
    simp only [olInsert] at hy
    split at hy
    · simp at hy ⊢
      tauto
    · split at hy
      · simp at hy ⊢
        tauto
      · rcases olScanRev_cases data (a :: rest).reverse with ⟨hn, _⟩ |
          ⟨u, x, v, hdec, hu, hx, hcase⟩
        · rw [hn] at hy
          exact Or.inl hy
        · have hacc : (a :: rest) = v.reverse ++ x :: u.reverse := by
            have h1 : (a :: rest) = ((a :: rest).reverse).reverse := by
              rw [List.reverse_reverse]
            rw [h1, hdec]
            simp
          rcases hcase with ⟨_, heq⟩ | ⟨_, heq⟩
          · rw [heq] at hy
            simp only [List.reverse_reverse] at hy
            exact Or.inl hy
          · rw [heq] at hy
            rw [hacc]
            simp only [List.reverse_append, List.reverse_cons] at hy
            simp at hy ⊢
            tauto

theorem lexLe_trans {a b c : Lexeme} (h1 : lexLe a b) (h2 : lexLe b c) : lexLe a c := by
  unfold lexLe at *
  rw [lexCmp_gt_iff] at *
  omega

theorem lexLe_refl (a : Lexeme) : lexLe a a := by
  unfold lexLe
  rw [lexCmp_gt_iff]
  omega

theorem sortedLex_head_le {a : Lexeme} {rest : List Lexeme}
    (hs : SortedLex (a :: rest)) : ∀ y ∈ a :: rest, y = a ∨ lexLe a y := by
  intro y hy
  rcases List.mem_cons.mp hy with h | h
  · exact Or.inl h
  · exact Or.inr ((List.pairwise_cons.mp hs).1 y h)

theorem sortedLex_le_last {l : List Lexeme} (hs : SortedLex l) (hne : l ≠ []) :
    ∀ x ∈ l, x = l.getLast hne ∨ lexLe x (l.getLast hne) := by
  intro x hx
  have hdec : l.dropLast ++ [l.getLast hne] = l := List.dropLast_append_getLast hne
  have hp : List.Pairwise lexLe (l.dropLast ++ [l.getLast hne]) := by
    rw [hdec]
    exact hs
  have hx2 : x ∈ l.dropLast ++ [l.getLast hne] := by rw [hdec]; exact hx
  rcases List.mem_append.mp hx2 with h | h
  · exact Or.inr ((List.pairwise_append.mp hp).2.2 x h _ (by simp))
  · simp at h
    exact Or.inl h

/-- Inserting preserves sortedness. -/
theorem olInsert_sorted (acc : List Lexeme) (data : Lexeme)
    (hs : SortedLex acc) : SortedLex (olInsert acc data) := by
  cases acc with
  | nil => simp [olInsert, SortedLex]
  | cons a rest =>
    simp only [olInsert]
    split
    · rename_i hlt
      refine List.pairwise_cons.mpr ⟨?_, hs⟩
      intro y hy
      rcases sortedLex_head_le hs y hy with h | h
      · subst h
        rw [lexCmp_lt_iff] at hlt
        unfold lexLe
        rw [lexCmp_gt_iff]
        omega
      · rw [lexCmp_lt_iff] at hlt
        unfold lexLe at h ⊢
        rw [lexCmp_gt_iff] at h ⊢
        omega
    · split
      · rename_i hnlt hgt
        rw [SortedLex, List.pairwise_append]
        refine ⟨hs, by simp, ?_⟩
        intro x hx y hy
        simp at hy
        subst hy
        rcases sortedLex_le_last hs (by simp) x hx with h | h
        · subst h
          rw [lexCmp_gt_iff] at hgt
          unfold lexLe
          rw [lexCmp_gt_iff]
          omega
        · refine lexLe_trans h ?_
          rw [lexCmp_gt_iff] at hgt
          unfold lexLe
          rw [lexCmp_gt_iff]
          omega
      · rcases olScanRev_cases data (a :: rest).reverse with ⟨hn, hall⟩ |
          ⟨u, x, v, hdec, hu, hx, hcase⟩
        · rw [hn]
          exact hs
        · have hacc : (a :: rest) = v.reverse ++ x :: u.reverse := by
            have h1 : (a :: rest) = ((a :: rest).reverse).reverse := by
              rw [List.reverse_reverse]
            rw [h1, hdec]
            simp
          rcases hcase with ⟨hpeq, heq⟩ | ⟨hpeq, heq⟩
          · rw [heq]
            simpa using hs
          · rw [heq]
            simp only [List.reverse_append, List.reverse_cons, List.append_assoc,
              List.nil_append, List.cons_append]
            have hs2 : List.Pairwise lexLe (v.reverse ++ x :: u.reverse) := by
              rw [← hacc]
              exact hs
            obtain ⟨hpv, hpxu, hcross⟩ := List.pairwise_append.mp hs2
            obtain ⟨hxu, hpu⟩ := List.pairwise_cons.mp hpxu
            have hxd : lexLe x data := hx
            have hdu : ∀ y ∈ u.reverse, lexLe data y := by
              intro y hy
              have : lexCmp y data = .gt := hu y (by simpa using hy)
              exact lexLe_of_gt this
            rw [SortedLex, List.pairwise_append]
            refine ⟨hpv, ?_, ?_⟩
            · rw [List.pairwise_cons]
              refine ⟨?_, ?_⟩
              · intro y hy
                rcases List.mem_cons.mp hy with h | h
                · subst h
                  exact hxd
                · exact hxu y h
              · rw [List.pairwise_cons]
                exact ⟨hdu, hpu⟩
            · intro p hp z hz
              rcases List.mem_cons.mp hz with h | h
              · rw [h]
                exact hcross p hp x (by simp)
              · rcases List.mem_cons.mp h with h2 | h2
                · rw [h2]
                  exact lexLe_trans (hcross p hp x (by simp)) hxd
                · exact hcross p hp z (by simp [h2])

/-- When a `lexCmp`-equal element is already present in a sorted
zero-offset list, insertion leaves the list unchanged (the `PartialEq`
check at the splice point swallows the new element). -/
theorem olInsert_eq_of_eqmem (acc : List Lexeme) (data : Lexeme)
    (hs : SortedLex acc) (hz : ∀ x ∈ acc, x.offset = 0) (hdz : data.offset = 0)
    (hex : ∃ x ∈ acc, lexCmp x data = .eq) : olInsert acc data = acc := by
  obtain ⟨w, hw, hweq⟩ := hex
  cases acc with
  | nil => simp at hw
  | cons a rest =>
    have hg1 : ¬ lexCmp data a = .lt := by
      intro hc
      rcases sortedLex_head_le hs w hw with h | h
      · subst h
        rw [lexCmp_eq_iff] at hweq
        rw [lexCmp_lt_iff] at hc
        omega
      · unfold lexLe at h
        rw [lexCmp_gt_iff] at h
        rw [lexCmp_eq_iff] at hweq
        rw [lexCmp_lt_iff] at hc
        omega
    have hg2 : ¬ lexCmp data ((a :: rest).getLast (by simp)) = .gt := by
      intro hc
      rcases sortedLex_le_last hs (by simp) w hw with h | h
      · rw [← h] at hc
        rw [lexCmp_eq_iff] at hweq
        rw [lexCmp_gt_iff] at hc
        omega
      · unfold lexLe at h
        rw [lexCmp_gt_iff] at h
        rw [lexCmp_eq_iff] at hweq
        rw [lexCmp_gt_iff] at hc
        omega
    simp only [olInsert]
    rw [if_neg hg1, if_neg hg2]
    rcases olScanRev_cases data (a :: rest).reverse with ⟨hn, hall⟩ |
      ⟨u, x, v, hdec, hu, hx, hcase⟩
    · rw [hn]
    · have hacc : (a :: rest) = v.reverse ++ x :: u.reverse := by
        have h1 : (a :: rest) = ((a :: rest).reverse).reverse := by
          rw [List.reverse_reverse]
        rw [h1, hdec]
        simp
      have hxeq : lexCmp x data = .eq := by
        have hw2 : w ∈ v.reverse ++ x :: u.reverse := by rw [← hacc]; exact hw
        rcases List.mem_append.mp hw2 with hwv | hwx
        · have hs2 : List.Pairwise lexLe (v.reverse ++ x :: u.reverse) := by
            rw [← hacc]
            exact hs
          have hwlex : lexLe w x :=
            (List.pairwise_append.mp hs2).2.2 w hwv x (by simp)
          unfold lexLe at hwlex
          rw [lexCmp_gt_iff] at hwlex hx
          rw [lexCmp_eq_iff] at hweq ⊢
          omega
        · rcases List.mem_cons.mp hwx with h | h
          · subst h
            exact hweq
          · have hgt : lexCmp w data = .gt := hu w (by simpa using h)
            rw [hweq] at hgt
            exact absurd hgt (by decide)
      have hpeq : lexPeq x data = true := by
        rw [lexPeq_iff]
        rw [lexCmp_eq_iff] at hxeq
        have hx0 : x.offset = 0 := hz x (by rw [hacc]; simp)
        exact ⟨by rw [hx0, hdz], hxeq.1, hxeq.2⟩
      rcases hcase with ⟨_, heq⟩ | ⟨hpf, heq⟩
      · rw [heq]
        simp
      · rw [hpeq] at hpf
        exact absurd hpf (by decide)

/-- When no `lexCmp`-equal element is present, insertion adds exactly the
new element. -/
theorem olInsert_mem_iff_of_no_eq (acc : List Lexeme) (data : Lexeme)
    (hs : SortedLex acc) (hno : ∀ x ∈ acc, ¬ lexCmp x data = .eq) :
    ∀ y, y ∈ olInsert acc data ↔ y ∈ acc ∨ y = data := by
  intro y
  constructor
  · exact olInsert_mem_sub acc data y
  · rintro (hy | rfl)
    · exact olInsert_mem_mono acc data y hy
    · cases acc with
      | nil => simp [olInsert]
      | cons a rest =>
        simp only [olInsert]
        split
        · simp
        · split
          · simp
          · rename_i hg1 hg2
            rcases olScanRev_cases y (a :: rest).reverse with ⟨hn, hall⟩ |
              ⟨u, x, v, hdec, hu, hx, hcase⟩
            · exfalso
              have hagt : lexCmp a y = .gt := hall a (by simp)
              rw [lexCmp_gt_swap] at hagt
              exact hg1 hagt
            · have hacc : (a :: rest) = v.reverse ++ x :: u.reverse := by
                have h1 : (a :: rest) = ((a :: rest).reverse).reverse := by
                  rw [List.reverse_reverse]
                rw [h1, hdec]
                simp
              rcases hcase with ⟨hpeq, heq⟩ | ⟨hpeq, heq⟩
              · exfalso
                rw [lexPeq_iff] at hpeq
                have hxmem : x ∈ a :: rest := by rw [hacc]; simp
                refine hno x hxmem ?_
                rw [lexCmp_eq_iff]
                exact ⟨hpeq.2.1, hpeq.2.2⟩
              · rw [heq]
                simp

theorem lexCmp_eq_refl (a : Lexeme) : lexCmp a a = .eq := by
  rw [lexCmp_eq_iff]
  exact ⟨rfl, rfl⟩

/-- `x` occurs in `ls` and no earlier element is `PartialEq`-equal to it:
`x` is the first-inserted lexeme of its `(offset, begin, length)` class. -/
def firstOccurrence (ls : List Lexeme) (x : Lexeme) : Prop :=
  ∃ pre post, ls = pre ++ x :: post ∧ ∀ y ∈ pre, lexPeq y x = false

/-- The merged ordered candidate list built by folding
`OrderedLinkedList::insert` over the emission sequence. -/
def mergeCandidates (ls : List Lexeme) : List Lexeme := ls.foldl olInsert []

theorem snoc_decomp {pre post ls : List Lexeme} {x d : Lexeme}
    (h : ls ++ [d] = pre ++ x :: post) :
    (∃ post', post = post' ++ [d] ∧ ls = pre ++ x :: post') ∨
    (pre = ls ∧ x = d ∧ post = []) := by
  induction post using List.reverseRecOn with
  | nil =>
    right
    have h2 : ls ++ [d] = pre ++ [x] := h
    obtain ⟨h3, h4⟩ := List.append_inj' h2 (by simp)
    simp at h4
    exact ⟨h3.symm, h4.symm, rfl⟩
  | append_singleton post' t ihp =>
    left
    have h2 : ls ++ [d] = (pre ++ x :: post') ++ [t] := by
      rw [h]
      simp
    obtain ⟨h3, h4⟩ := List.append_inj' h2 (by simp)
    simp at h4
    exact ⟨post', by rw [h4], h3⟩

/-- The merged candidate list is sorted, zero-offset, complete (every
emitted lexeme has a `lexCmp`-equal representative), and holds exactly the
first-inserted lexeme of every `(offset, begin, length)` class. -/
theorem mergeAll_spec (ls : List Lexeme) (hz : ∀ l ∈ ls, l.offset = 0) :
    SortedLex (mergeCandidates ls) ∧
    (∀ x ∈ mergeCandidates ls, x.offset = 0) ∧
    (∀ y ∈ ls, ∃ x ∈ mergeCandidates ls, lexCmp x y = .eq) ∧
    (∀ x, x ∈ mergeCandidates ls ↔ firstOccurrence ls x) := by
  induction ls using List.reverseRecOn with
  | nil =>
    refine ⟨by simp [mergeCandidates, SortedLex], by simp [mergeCandidates],
      by simp, ?_⟩
    intro x
    simp only [mergeCandidates, List.foldl_nil, List.not_mem_nil, false_iff]
    rintro ⟨pre, post, hdec, -⟩
    exact absurd hdec.symm (by simp)
  | append_singleton ls d ih =>
    have hzls : ∀ l ∈ ls, l.offset = 0 := fun l hl => hz l (by simp [hl])
    have hdz : d.offset = 0 := hz d (by simp)
    obtain ⟨hsort, hzm, hcomp, hiff⟩ := ih hzls
    have hfold : mergeCandidates (ls ++ [d]) = olInsert (mergeCandidates ls) d := by
      simp [mergeCandidates]
    by_cases hex : ∃ x ∈ mergeCandidates ls, lexCmp x d = .eq
    · have heq : mergeCandidates (ls ++ [d]) = mergeCandidates ls := by
        rw [hfold]
        exact olInsert_eq_of_eqmem _ _ hsort hzm hdz hex
      refine ⟨by rw [heq]; exact hsort, by rw [heq]; exact hzm, ?_, ?_⟩
      · intro y hy
        rw [heq]
        rcases List.mem_append.mp hy with h | h
        · exact hcomp y h
        · simp at h
          rw [h]
          exact hex
      · intro x
        rw [heq, hiff x]
        constructor
        · rintro ⟨pre, post, hdec, hpre⟩
          exact ⟨pre, post ++ [d], by rw [hdec]; simp, hpre⟩
        · rintro ⟨pre, post, hdec, hpre⟩
          rcases snoc_decomp hdec with ⟨post', hpost, hls⟩ | ⟨hpre2, hxd, hpost⟩
          · exact ⟨pre, post', hls, hpre⟩
          · exfalso
            obtain ⟨w, hwm, hweq⟩ := hex
            have hwls : w ∈ ls := by
              obtain ⟨p2, q2, hd2, -⟩ := (hiff w).mp hwm
              rw [hd2]
              simp
            have hfw := hpre w (by rw [hpre2]; exact hwls)
            have hwtrue : lexPeq w x = true := by
              rw [lexPeq_iff]
              rw [lexCmp_eq_iff] at hweq
              rw [hxd]
              exact ⟨by rw [hzm w hwm, hdz], hweq.1, hweq.2⟩
            rw [hwtrue] at hfw
            exact absurd hfw (by decide)
    · push_neg at hex
      have hmemiff := olInsert_mem_iff_of_no_eq _ d hsort hex
      refine ⟨?_, ?_, ?_, ?_⟩
      · rw [hfold]
        exact olInsert_sorted _ _ hsort
      · intro x hx
        rw [hfold] at hx
        rcases (hmemiff x).mp hx with h | h
        · exact hzm x h
        · rw [h]
          exact hdz
      · intro y hy
        rcases List.mem_append.mp hy with h | h
        · obtain ⟨w, hwm, hweq⟩ := hcomp y h
          exact ⟨w, by rw [hfold]; exact (hmemiff w).mpr (Or.inl hwm), hweq⟩
        · simp at h
          refine ⟨d, by rw [hfold]; exact (hmemiff d).mpr (Or.inr rfl), ?_⟩
          rw [h]
          exact lexCmp_eq_refl d
      · intro x
        rw [hfold, hmemiff x]
        constructor
        · rintro (hx | rfl)
          · obtain ⟨pre, post, hdec, hpre⟩ := (hiff x).mp hx
            exact ⟨pre, post ++ [d], by rw [hdec]; simp, hpre⟩
          · refine ⟨ls, [], rfl, ?_⟩
            intro y hy
            by_contra hc
            have hyt : lexPeq y x = true := by
              cases hcc : lexPeq y x
              · exact absurd hcc hc
              · rfl
            obtain ⟨w, hwm, hweq⟩ := hcomp y hy
            refine hex w hwm ?_
            rw [lexPeq_iff] at hyt
            rw [lexCmp_eq_iff] at hweq ⊢
            omega
        · rintro ⟨pre, post, hdec, hpre⟩
          rcases snoc_decomp hdec with ⟨post', hpost, hls⟩ | ⟨hpre2, hxd, hpost⟩
          · exact Or.inl ((hiff x).mpr ⟨pre, post', hls, hpre⟩)
          · exact Or.inr hxd

/-- C9: when two sub-segmenters emit candidate lexemes with identical
`(offset, begin, length)` but different types, the merged candidate list
keeps only the first-inserted one — membership in the merged list holds
exactly for first occurrences of each class — and the surviving type
follows the fixed run order Letter, CnQuantifier, CJK: with `块` both in
the quantifier and the main dictionary, the span is kept as COUNT (emitted
by the quantifier segmenter, which runs before the CJK segmenter), never
as CNWORD. -/
theorem c9_merged_list_keeps_first_inserted :
    (∀ ls : List Lexeme, (∀ l ∈ ls, l.offset = 0) →
      ∀ x, x ∈ mergeCandidates ls ↔ firstOccurrence ls x) ∧
    originLexemes
      { mainDict := TrieNode.root.insertChars ['块'],
        quantifierDict := TrieNode.root.insertChars ['块'],
        stopWordDict := TrieNode.root } ['一', '块'] =
      [Lexeme.new 0 0 1 .CNUM, Lexeme.new 0 1 1 .COUNT] := by
  constructor
  · intro ls hz
    exact (mergeAll_spec ls hz).2.2.2
  · decide

theorem c9_witness :
    (∀ l ∈ ([Lexeme.new 0 1 1 .COUNT, Lexeme.new 0 1 1 .CNWORD] : List Lexeme),
        l.offset = 0) ∧
    (Lexeme.new 0 1 1 .COUNT ∈
        mergeCandidates [Lexeme.new 0 1 1 .COUNT, Lexeme.new 0 1 1 .CNWORD] ↔
      firstOccurrence [Lexeme.new 0 1 1 .COUNT, Lexeme.new 0 1 1 .CNWORD]
        (Lexeme.new 0 1 1 .COUNT)) :=
  ⟨by decide,
   c9_merged_list_keeps_first_inserted.1
     [Lexeme.new 0 1 1 .COUNT, Lexeme.new 0 1 1 .CNWORD] (by decide)
     (Lexeme.new 0 1 1 .COUNT)⟩

/-! ## Claim C4 -/

/-- "a ranks strictly before b" in terms of the comparator's six keys as
the code computes them (`getPathLength`, `getXWeight` and `getPWeight`
include the source's `usize`/`i32` casts). -/
def codeRanksBefore (a b : LexemePath) : Prop :=
  b.payloadLength < a.payloadLength ∨
  (a.payloadLength = b.payloadLength ∧ (a.size < b.size ∨
    (a.size = b.size ∧ (b.getPathLength < a.getPathLength ∨
      (a.getPathLength = b.getPathLength ∧ (b.pathEnd < a.pathEnd ∨
        (a.pathEnd = b.pathEnd ∧ (b.getXWeight < a.getXWeight ∨
          (a.getXWeight = b.getXWeight ∧ b.getPWeight < a.getPWeight)))))))))

/-- Equality of all six comparator keys. -/
def codeKeysEq (a b : LexemePath) : Prop :=
  a.payloadLength = b.payloadLength ∧ a.size = b.size ∧
  a.getPathLength = b.getPathLength ∧ a.pathEnd = b.pathEnd ∧
  a.getXWeight = b.getXWeight ∧ a.getPWeight = b.getPWeight

theorem pathCompare_lt_iff (a b : LexemePath) :
    pathCompare a b = .lt ↔ codeRanksBefore a b := by
  unfold pathCompare codeRanksBefore
  rcases h1 : cmpNat a.payloadLength b.payloadLength with _ | _ | _ <;> simp only []
  · rw [cmpNat_lt] at h1
    constructor
    · intro hc
      exact absurd hc (by decide)
    · intro hk
      exfalso
      omega
  · rw [cmpNat_eq] at h1
    rcases h2 : cmpNat a.size b.size with _ | _ | _ <;> simp only []
    · rw [cmpNat_lt] at h2
      constructor
      · intro _
        exact Or.inr ⟨h1, Or.inl h2⟩
      · intro _
        trivial
    · rw [cmpNat_eq] at h2
      rcases h3 : cmpNat a.getPathLength b.getPathLength with _ | _ | _ <;> simp only []
      · rw [cmpNat_lt] at h3
        constructor
        · intro hc
          exact absurd hc (by decide)
        · intro hk
          exfalso
          omega
      · rw [cmpNat_eq] at h3
        rcases h4 : cmpInt a.pathEnd b.pathEnd with _ | _ | _ <;> simp only []
        · rw [cmpInt_lt] at h4
          constructor
          · intro hc
            exact absurd hc (by decide)
          · intro hk
            exfalso
            omega
        · rw [cmpInt_eq] at h4
          rcases h5 : cmpInt a.getXWeight b.getXWeight with _ | _ | _ <;> simp only []
          · rw [cmpInt_lt] at h5
            constructor
            · intro hc
              exact absurd hc (by decide)
            · intro hk
              exfalso
              omega
          · rw [cmpInt_eq] at h5
            rw [cmpInt_lt]
            constructor
            · intro h6
              exact Or.inr ⟨h1, Or.inr ⟨h2, Or.inr ⟨h3, Or.inr ⟨h4, Or.inr ⟨h5, h6⟩⟩⟩⟩⟩
            · intro hk
              omega
          · rw [cmpInt_gt] at h5
            constructor
            · intro _
              exact Or.inr ⟨h1, Or.inr ⟨h2, Or.inr ⟨h3, Or.inr ⟨h4, Or.inl h5⟩⟩⟩⟩
            · intro _
              trivial
        · rw [cmpInt_gt] at h4
          constructor
          · intro _
            exact Or.inr ⟨h1, Or.inr ⟨h2, Or.inr ⟨h3, Or.inl h4⟩⟩⟩
          · intro _
            trivial
      · rw [cmpNat_gt] at h3
        constructor
        · intro _
          exact Or.inr ⟨h1, Or.inr ⟨h2, Or.inl h3⟩⟩
        · intro _
          trivial
    · rw [cmpNat_gt] at h2
      constructor
      · intro hc
        exact absurd hc (by decide)
      · intro hk
        exfalso
        omega
  · rw [cmpNat_gt] at h1
    constructor
    · intro _
      exact Or.inl h1
    · intro _
      trivial

theorem pathCompare_gt_iff (a b : LexemePath) :
    pathCompare a b = .gt ↔ codeRanksBefore b a := by
  unfold pathCompare codeRanksBefore
  rcases h1 : cmpNat a.payloadLength b.payloadLength with _ | _ | _ <;> simp only []
  · rw [cmpNat_lt] at h1
    constructor
    · intro _
      exact Or.inl h1
    · intro _
      trivial
  · rw [cmpNat_eq] at h1
    rcases h2 : cmpNat a.size b.size with _ | _ | _ <;> simp only []
    · rw [cmpNat_lt] at h2
      constructor
      · intro hc
        exact absurd hc (by decide)
      · intro hk
        exfalso
        omega
    · rw [cmpNat_eq] at h2
      rcases h3 : cmpNat a.getPathLength b.getPathLength with _ | _ | _ <;> simp only []
      · rw [cmpNat_lt] at h3
        constructor
        · intro _
          exact Or.inr ⟨h1.symm, Or.inr ⟨h2.symm, Or.inl h3⟩⟩
        · intro _
          trivial
      · rw [cmpNat_eq] at h3
        rcases h4 : cmpInt a.pathEnd b.pathEnd with _ | _ | _ <;> simp only []
        · rw [cmpInt_lt] at h4
          constructor
          · intro _
            exact Or.inr ⟨h1.symm, Or.inr ⟨h2.symm, Or.inr ⟨h3.symm, Or.inl h4⟩⟩⟩
          · intro _
            trivial
        · rw [cmpInt_eq] at h4
          rcases h5 : cmpInt a.getXWeight b.getXWeight with _ | _ | _ <;> simp only []
          · rw [cmpInt_lt] at h5
            constructor
            · intro _
              exact Or.inr ⟨h1.symm, Or.inr ⟨h2.symm, Or.inr ⟨h3.symm,
                Or.inr ⟨h4.symm, Or.inl h5⟩⟩⟩⟩
            · intro _
              trivial
          · rw [cmpInt_eq] at h5
            rw [cmpInt_gt]
            constructor
            · intro h6
              exact Or.inr ⟨h1.symm, Or.inr ⟨h2.symm, Or.inr ⟨h3.symm,
                Or.inr ⟨h4.symm, Or.inr ⟨h5.symm, h6⟩⟩⟩⟩⟩
            · intro hk
              omega
          · rw [cmpInt_gt] at h5
            constructor
            · intro hc
              exact absurd hc (by decide)
            · intro hk
              exfalso
              omega
        · rw [cmpInt_gt] at h4
          constructor
          · intro hc
            exact absurd hc (by decide)
          · intro hk
            exfalso
            omega
      · rw [cmpNat_gt] at h3
        constructor
        · intro hc
          exact absurd hc (by decide)
        · intro hk
          exfalso
          omega
    · rw [cmpNat_gt] at h2
      constructor
      · intro _
        exact Or.inr ⟨h1.symm, Or.inl h2⟩
      · intro _
        trivial
  · rw [cmpNat_gt] at h1
    constructor
    · intro hc
      exact absurd hc (by decide)
    · intro hk
      exfalso
      omega

theorem pathCompare_eq_iff (a b : LexemePath) :
    pathCompare a b = .eq ↔ codeKeysEq a b := by
  unfold pathCompare codeKeysEq
  rcases h1 : cmpNat a.payloadLength b.payloadLength with _ | _ | _ <;> simp only []
  · rw [cmpNat_lt] at h1
    constructor
    · intro hc
      exact absurd hc (by decide)
    · intro hk
      exfalso
      omega
  · rw [cmpNat_eq] at h1
    rcases h2 : cmpNat a.size b.size with _ | _ | _ <;> simp only []
    · rw [cmpNat_lt] at h2
      constructor
      · intro hc
        exact absurd hc (by decide)
      · intro hk
        exfalso
        omega
    · rw [cmpNat_eq] at h2
      rcases h3 : cmpNat a.getPathLength b.getPathLength with _ | _ | _ <;> simp only []
      · rw [cmpNat_lt] at h3
        constructor
        · intro hc
          exact absurd hc (by decide)
        · intro hk
          exfalso
          omega
      · rw [cmpNat_eq] at h3
        rcases h4 : cmpInt a.pathEnd b.pathEnd with _ | _ | _ <;> simp only []
        · rw [cmpInt_lt] at h4
          constructor
          · intro hc
            exact absurd hc (by decide)
          · intro hk
            exfalso
            omega
        · rw [cmpInt_eq] at h4
          rcases h5 : cmpInt a.getXWeight b.getXWeight with _ | _ | _ <;> simp only []
          · rw [cmpInt_lt] at h5
            constructor
            · intro hc
              exact absurd hc (by decide)
            · intro hk
              exfalso
              omega
          · rw [cmpInt_eq] at h5
            rw [cmpInt_eq]
            constructor
            · intro h6
              exact ⟨h1, h2, h3, h4, h5, h6.symm⟩
            · intro hk
              omega
          · rw [cmpInt_gt] at h5
            constructor
            · intro hc
              exact absurd hc (by decide)
            · intro hk
              exfalso
              omega
        · rw [cmpInt_gt] at h4
          constructor
          · intro hc
            exact absurd hc (by decide)
          · intro hk
            exfalso
            omega
      · rw [cmpNat_gt] at h3
        constructor
        · intro hc
          exact absurd hc (by decide)
        · intro hk
          exfalso
          omega
    · rw [cmpNat_gt] at h2
      constructor
      · intro hc
        exact absurd hc (by decide)
      · intro hk
        exfalso
        omega
  · rw [cmpNat_gt] at h1
    constructor
    · intro hc
      exact absurd hc (by decide)
    · intro hk
      exfalso
      omega

theorem pathCompare_eq_refl (a : LexemePath) : pathCompare a a = .eq := by
  rw [pathCompare_eq_iff]
  unfold codeKeysEq
  exact ⟨rfl, rfl, rfl, rfl, rfl, rfl⟩

theorem pathCompare_eq_symm {a b : LexemePath} (h : pathCompare a b = .eq) :
    pathCompare b a = .eq := by
  rw [pathCompare_eq_iff] at h ⊢
  unfold codeKeysEq at h ⊢
  omega

theorem pathCompare_lt_trans {a b c : LexemePath} (h1 : pathCompare a b = .lt)
    (h2 : pathCompare b c = .lt) : pathCompare a c = .lt := by
  rw [pathCompare_lt_iff] at h1 h2 ⊢
  unfold codeRanksBefore at h1 h2 ⊢
  omega

theorem pathCompare_le_trans {a b c : LexemePath} (h1 : ¬ pathCompare a b = .gt)
    (h2 : ¬ pathCompare b c = .gt) : ¬ pathCompare a c = .gt := by
  rw [pathCompare_gt_iff] at h1 h2 ⊢
  unfold codeRanksBefore at h1 h2 ⊢
  omega

theorem pathCompare_lt_ne_gt {a b : LexemePath} (h : pathCompare a b = .lt) :
    ¬ pathCompare a b = .gt := by
  rw [h]
  decide

theorem pathCompare_eq_ne_gt {a b : LexemePath} (h : pathCompare a b = .eq) :
    ¬ pathCompare a b = .gt := by
  rw [h]
  decide

/-- Strictly increasing under the path comparator: the `BTreeSet` model's
well-formedness. -/
def PathsSorted (l : List LexemePath) : Prop :=
  List.Pairwise (fun p q => pathCompare p q = .lt) l

theorem btInsert_mem_sub {p : LexemePath} {l : List LexemePath} :
    ∀ y ∈ btInsert p l, y ∈ l ∨ y = p := by
  induction l with
  | nil =>
    intro y hy
    simp [btInsert] at hy
    exact Or.inr hy
  | cons q rest ih =>
    intro y hy
    simp only [btInsert] at hy
    rcases hcmp : pathCompare p q with _ | _ | _ <;> rw [hcmp] at hy
    · rcases List.mem_cons.mp hy with h | h
      · exact Or.inr h
      · exact Or.inl h
    · exact Or.inl hy
    · rcases List.mem_cons.mp hy with h | h
      · exact Or.inl (by rw [h]; exact List.mem_cons_self q rest)
      · rcases ih y h with h2 | h2
        · exact Or.inl (List.mem_cons_of_mem q h2)
        · exact Or.inr h2

theorem btInsert_mem_mono {p : LexemePath} {l : List LexemePath} :
    ∀ y ∈ l, y ∈ btInsert p l := by
  induction l with
  | nil => simp
  | cons q rest ih =>
    intro y hy
    simp only [btInsert]
    rcases hcmp : pathCompare p q with _ | _ | _
    · exact List.mem_cons_of_mem p hy
    · exact hy
    · rcases List.mem_cons.mp hy with h | h
      · exact h ▸ List.mem_cons_self q (btInsert p rest)
      · exact List.mem_cons_of_mem q (ih y h)

theorem btInsert_ne_nil {p : LexemePath} {l : List LexemePath} :
    btInsert p l ≠ [] := by
  cases l with
  | nil => simp [btInsert]
  | cons q rest =>
    simp only [btInsert]
    rcases hcmp : pathCompare p q with _ | _ | _ <;> simp

theorem btInsert_sorted {p : LexemePath} {l : List LexemePath}
    (hs : PathsSorted l) : PathsSorted (btInsert p l) := by
  induction l with
  | nil => simp [btInsert, PathsSorted]
  | cons q rest ih =>
    obtain ⟨hq, hrest⟩ := List.pairwise_cons.mp hs
    simp only [btInsert]
    rcases hcmp : pathCompare p q with _ | _ | _
    · refine List.pairwise_cons.mpr ⟨?_, hs⟩
      intro y hy
      rcases List.mem_cons.mp hy with h | h
      · rw [h]
        exact hcmp
      · exact pathCompare_lt_trans hcmp (hq y h)
    · exact hs
    · refine List.pairwise_cons.mpr ⟨?_, ih hrest⟩
      intro y hy
      rcases btInsert_mem_sub y hy with h | h
      · exact hq y h
      · rw [h]
        rw [pathCompare_gt_iff] at hcmp
        rw [pathCompare_lt_iff]
        exact hcmp

theorem btInsert_covers {p : LexemePath} {l : List LexemePath} :
    ∃ q ∈ btInsert p l, ¬ pathCompare q p = .gt := by
  induction l with
  | nil => exact ⟨p, by simp [btInsert], pathCompare_eq_ne_gt (pathCompare_eq_refl p)⟩
  | cons q rest ih =>
    simp only [btInsert]
    rcases hcmp : pathCompare p q with _ | _ | _
    · exact ⟨p, by simp, pathCompare_eq_ne_gt (pathCompare_eq_refl p)⟩
    · exact ⟨q, by simp, pathCompare_eq_ne_gt (pathCompare_eq_symm hcmp)⟩
    · obtain ⟨w, hw, hle⟩ := ih
      exact ⟨w, by simp [hw], hle⟩

theorem pathsSorted_head_min {x : LexemePath} {t : List LexemePath}
    (hs : PathsSorted (x :: t)) : ∀ q ∈ x :: t, ¬ pathCompare x q = .gt := by
  intro q hq
  rcases List.mem_cons.mp hq with h | h
  · rw [h]
    exact pathCompare_eq_ne_gt (pathCompare_eq_refl x)
  · exact pathCompare_lt_ne_gt ((List.pairwise_cons.mp hs).1 q h)

/-- Through the drain loop of `judge`, the candidate set stays sorted and
nonempty, every set element is a recorded candidate, and every recorded
candidate is dominated by some set element. -/
theorem judgeLoop_inv (stack : List (List Lexeme)) :
    ∀ (opt : LexemePath) (cands recs : List LexemePath),
      PathsSorted cands → cands ≠ [] →
      (∀ q ∈ cands, q ∈ recs) →
      (∀ r ∈ recs, ∃ q ∈ cands, ¬ pathCompare q r = .gt) →
      PathsSorted (judgeLoop stack opt cands recs).2.1 ∧
      (judgeLoop stack opt cands recs).2.1 ≠ [] ∧
      (∀ q ∈ (judgeLoop stack opt cands recs).2.1,
        q ∈ (judgeLoop stack opt cands recs).2.2) ∧
      (∀ r ∈ (judgeLoop stack opt cands recs).2.2,
        ∃ q ∈ (judgeLoop stack opt cands recs).2.1, ¬ pathCompare q r = .gt) := by
  induction stack with
  | nil =>
    intro opt cands recs h1 h2 h3 h4
    exact ⟨h1, h2, h3, h4⟩
  | cons c cs ih =>
    intro opt cands recs h1 h2 h3 h4
    simp only [judgeLoop]
    apply ih
    · exact btInsert_sorted h1
    · exact btInsert_ne_nil
    · intro q hq
      rcases btInsert_mem_sub q hq with h | h
      · exact List.mem_append.mpr (Or.inl (h3 q h))
      · exact List.mem_append.mpr (Or.inr (by simp [h]))
    · intro r hr
      rcases List.mem_append.mp hr with h | h
      · obtain ⟨q, hq, hle⟩ := h4 r h
        exact ⟨q, btInsert_mem_mono q hq, hle⟩
      · simp at h
        rw [h]
        exact btInsert_covers

/-- `judge` returns the least recorded candidate under the comparator. -/
theorem judge_min (chain : List Lexeme) :
    judge chain ∈ (judgeRun chain).2 ∧
    ∀ q ∈ (judgeRun chain).2, ¬ pathCompare (judge chain) q = .gt := by
  unfold judge judgeRun
  simp only []
  have hinit :=
    judgeLoop_inv (forwardPath chain LexemePath.new).2
      (forwardPath chain LexemePath.new).1
      (btInsert (forwardPath chain LexemePath.new).1 [])
      [(forwardPath chain LexemePath.new).1]
      (by simp [btInsert, PathsSorted])
      (by simp [btInsert])
      (by simp [btInsert])
      (by
        intro r hr
        simp at hr
        rw [hr]
        exact ⟨(forwardPath chain LexemePath.new).1, by simp [btInsert],
          pathCompare_eq_ne_gt (pathCompare_eq_refl _)⟩)
  obtain ⟨hs, hne, hsub, hcov⟩ := hinit
  rcases hc : (judgeLoop (forwardPath chain LexemePath.new).2
      (forwardPath chain LexemePath.new).1
      (btInsert (forwardPath chain LexemePath.new).1 [])
      [(forwardPath chain LexemePath.new).1]).2.1 with _ | ⟨x, t⟩
  · exact absurd hc hne
  · rw [hc] at hsub hcov hs
    simp only [hc, List.head?_cons, Option.getD_some]
    refine ⟨hsub x (by simp), ?_⟩
    intro q hq
    obtain ⟨w, hw, hle⟩ := hcov q hq
    exact pathCompare_le_trans (pathsSorted_head_min hs w hw) hle

/-- The untruncated product of the lexeme lengths (the claim's literal
"product of lexeme lengths"). -/
def lexProduct (p : LexemePath) : Nat := (p.lexemeList.map Lexeme.length).prod

/-- The untruncated 1-based position-weighted length sum (the claim's
literal sixth key). -/
def lexPosSum (p : LexemePath) : Nat :=
  (p.lexemeList.enum.map (fun q => (q.1 + 1) * q.2.length)).sum

/-- The ordering of the claim, rendered literally from its words: larger
payload first, then fewer lexemes, then larger span
`path_end − path_begin`, then larger `path_end`, then larger product of
lexeme lengths, then larger 1-based-position-weighted length sum. -/
def claimedRanksBefore (a b : LexemePath) : Prop :=
  b.payloadLength < a.payloadLength ∨
  (a.payloadLength = b.payloadLength ∧ (a.size < b.size ∨
    (a.size = b.size ∧ (b.pathEnd - b.pathBegin < a.pathEnd - a.pathBegin ∨
      (a.pathEnd - a.pathBegin = b.pathEnd - b.pathBegin ∧ (b.pathEnd < a.pathEnd ∨
        (a.pathEnd = b.pathEnd ∧ (lexProduct b < lexProduct a ∨
          (lexProduct a = lexProduct b ∧ lexPosSum b < lexPosSum a)))))))))

/-- C4 counterexample: the comparator works on the `i32`-truncated X- and
P-weights, not on the untruncated products the claim describes. Two paths
that agree on the first four keys, where the first has the larger product
of lexeme lengths (`65536 · 65536 = 2^32`, which truncates to `0` as an
`i32`), are ranked with the *second* strictly first by the code, although
the claim requires the first to come strictly first. -/
theorem c4_counterexample :
    claimedRanksBefore
      { pathBegin := 0, pathEnd := 0, payloadLength := 0,
        lexemeList := [Lexeme.new 0 0 65536 .CNWORD, Lexeme.new 0 0 65536 .CNWORD] }
      { pathBegin := 0, pathEnd := 0, payloadLength := 0,
        lexemeList := [Lexeme.new 0 0 1 .CNWORD, Lexeme.new 0 0 3 .CNWORD] } ∧
    ¬ pathCompare
      { pathBegin := 0, pathEnd := 0, payloadLength := 0,
        lexemeList := [Lexeme.new 0 0 65536 .CNWORD, Lexeme.new 0 0 65536 .CNWORD] }
      { pathBegin := 0, pathEnd := 0, payloadLength := 0,
        lexemeList := [Lexeme.new 0 0 1 .CNWORD, Lexeme.new 0 0 3 .CNWORD] } = .lt := by
  constructor
  · unfold claimedRanksBefore
    decide
  · decide

/-- C4 (amended): the comparator ranks A strictly before B iff
A.payload_length is larger, or on a tie A has fewer lexemes, or on a tie
A's `get_path_length` value (the `usize` cast of `path_end − path_begin`)
is larger, or on a tie A.path_end is larger, or on a tie A's product of
lexeme lengths *truncated to a signed 32-bit value* is larger, or on a tie
A's 1-based-position-weighted length sum *truncated to a signed 32-bit
value* is larger; and `judge` returns the minimum of the recorded
candidate paths under this order. -/
theorem c4_comparator_and_judge_amended :
    (∀ a b : LexemePath, pathCompare a b = .lt ↔ codeRanksBefore a b) ∧
    (∀ chain : List Lexeme,
      judge chain ∈ (judgeRun chain).2 ∧
      ∀ q ∈ (judgeRun chain).2, ¬ pathCompare (judge chain) q = .gt) :=
  ⟨pathCompare_lt_iff, judge_min⟩

/-! ## Bounds on the candidate lexemes (towards claims C7 and C2) -/

/-- Non-decreasing begin positions. -/
def beginLe (a b : Lexeme) : Prop := a.begin ≤ b.begin

/-- A well-formed candidate over a buffer of `B` characters: zero offset,
positive length, and contained in the buffer. -/
def GoodLex (B : Nat) (y : Lexeme) : Prop :=
  y.offset = 0 ∧ 1 ≤ y.length ∧ y.begin + y.length ≤ B

theorem i32ofNat_add_small {a b : Nat} (h : a + b < 2 ^ 31) :
    i32ofNat a + i32ofNat b = i32ofNat (a + b) := by
  rw [i32ofNat_small (by omega), i32ofNat_small (by omega), i32ofNat_small h]
  omega

theorem charCountMinusOneI32_pos {n : Nat} (h1 : 1 ≤ n) (h2 : n ≤ 2 ^ 31) :
    charCountMinusOneI32 n = ((n - 1 : Nat) : Int) := by
  unfold charCountMinusOneI32
  have ha : asUsize ((n : Int) - 1) = n - 1 := by
    unfold asUsize
    omega
  rw [ha, i32ofNat_small (by omega)]

theorem lexSep_beginLe {a b : Lexeme} (h : lexSep a b) : beginLe a b := by
  unfold lexSep at h
  unfold beginLe
  omega

theorem lexLe_beginLe {a b : Lexeme} (h : lexLe a b) : beginLe a b := by
  unfold lexLe at h
  rw [lexCmp_gt_iff] at h
  unfold beginLe
  omega

/-- The walking loop only pushes hits with `begin = offset` and an end
inside the buffer, and leaves the running end inside the buffer. -/
theorem matchLoop_spec (offset : Nat) (cl : List Char) :
    ∀ (rem : Nat) (t : TrieNode) (counter e : Nat) (hits : List Hit),
      offset ≤ counter →
      offset ≤ e → e < cl.length →
      (∀ h ∈ hits, h.begin = offset ∧ offset ≤ h.end_ ∧ h.end_ < cl.length) →
      (∀ h ∈ (matchLoop offset t cl counter rem e hits).2.2,
        h.begin = offset ∧ offset ≤ h.end_ ∧ h.end_ < cl.length) ∧
      offset ≤ (matchLoop offset t cl counter rem e hits).2.1 ∧
      (matchLoop offset t cl counter rem e hits).2.1 < cl.length := by
  intro rem
  induction rem with
  | zero =>
    intro t counter e hits hoc hoe hel hh
    exact ⟨hh, hoe, hel⟩
  | succ n ih =>
    intro t counter e hits hoc hoe hel hh
    simp only [matchLoop]
    by_cases hcnt : counter < cl.length
    · rw [dif_pos hcnt]
      rcases hcf : childFind t.childNodes (cl.get ⟨counter, hcnt⟩) with _ | child
      · exact ⟨hh, hoe, hel⟩
      · have hh' : ∀ h ∈ (if t.finalState then
            hits ++ [{ begin := offset, end_ := e, isMatch := true,
                       isPrefix := t.hasChilds }] else hits),
            h.begin = offset ∧ offset ≤ h.end_ ∧ h.end_ < cl.length := by
          split
          · intro h hmem
            rcases List.mem_append.mp hmem with hm | hm
            · exact hh h hm
            · simp at hm
              rw [hm]
              exact ⟨rfl, hoe, hel⟩
          · exact hh
        exact ih child (counter + 1) counter _ (by omega) hoc hcnt hh'
    · rw [dif_neg hcnt]
      exact ⟨hh, hoe, hel⟩

/-- Every hit of `match_with_offset` begins at the offset and ends at a
buffer position at or after it. -/
theorem matchWithOffset_bounds (root : TrieNode) (cl : List Char)
    (offset length : Nat) (hlen : 1 ≤ length) :
    ∀ h ∈ TrieNode.matchWithOffset root cl offset length,
      h.begin = offset ∧ offset ≤ h.end_ ∧ h.end_ < cl.length := by
  intro h hmem
  unfold TrieNode.matchWithOffset at hmem
  by_cases hg : offset + length ≤ cl.length
  · rw [if_pos hg] at hmem
    dsimp only at hmem
    have hocl : offset < cl.length := by omega
    obtain ⟨hhits, hoe, hel⟩ :=
      matchLoop_spec offset cl length root offset offset [] (le_refl _)
        (le_refl _) hocl (by simp)
    split at hmem
    · rcases List.mem_append.mp hmem with hm | hm
      · exact hhits h hm
      · simp at hm
        rw [hm]
        exact ⟨rfl, hoe, hel⟩
    · exact hhits h hmem
  · rw [if_neg hg] at hmem
    simp at hmem

/-- The single-character emissions of the output stage. -/
theorem singleCharLexeme_mem {c : Char} {index : Nat} :
    ∀ y ∈ singleCharLexeme c index,
      y.begin = index ∧ y.length = 1 ∧ y.offset = 0 := by
  intro y hy
  unfold singleCharLexeme at hy
  split at hy
  · simp at hy
    rw [hy]
    exact ⟨rfl, rfl, rfl⟩
  · split at hy
    · simp at hy
      rw [hy]
      exact ⟨rfl, rfl, rfl⟩
    · simp at hy

/-- The english pass loop: every emission is a well-formed zero-offset
lexeme inside the scanned prefix, and the registers stay either inactive
or a valid run `[s, e]` before the cursor. -/
theorem engLoop_bounds (chars : List Char) :
    ∀ (cursor : Nat) (es ee : Int),
      cursor + chars.length ≤ 2 ^ 31 →
      ((es = -1 ∧ ee = -1) ∨
        (∃ s e : Nat, es = (s : Int) ∧ ee = (e : Int) ∧ s ≤ e ∧ e < cursor)) →
      (∀ l ∈ (engLoop chars cursor es ee).1,
        l.offset = 0 ∧ 1 ≤ l.length ∧ l.begin + l.length ≤ cursor + chars.length) ∧
      (((engLoop chars cursor es ee).2.1 = -1 ∧ (engLoop chars cursor es ee).2.2 = -1) ∨
        (∃ s e : Nat, (engLoop chars cursor es ee).2.1 = (s : Int) ∧
          (engLoop chars cursor es ee).2.2 = (e : Int) ∧ s ≤ e ∧
          e < cursor + chars.length)) := by
  induction chars with
  | nil =>
    intro cursor es ee hb hst
    simp only [engLoop, List.length_nil]
    refine ⟨by simp, ?_⟩
    rcases hst with h | ⟨s, e, h1, h2, h3, h4⟩
    · exact Or.inl h
    · exact Or.inr ⟨s, e, h1, h2, h3, by omega⟩
  | cons c rest ih =>
    intro cursor es ee hb hst
    simp only [List.length_cons] at hb ⊢
    have hb2 : (cursor + 1) + rest.length ≤ 2 ^ 31 := by omega
    have hcur : cursor < 2 ^ 31 := by omega
    simp only [engLoop]
    rcases hst with ⟨hes, hee⟩ | ⟨s, e, hes, hee, hse, hec⟩
    · subst hes; subst hee
      rw [if_pos rfl]
      by_cases hct : charTypeOf c = .ENGLISH
      · rw [if_pos hct]
        obtain ⟨hm, hstate⟩ := ih (cursor + 1) _ _ hb2
          (Or.inr ⟨cursor, cursor, i32ofNat_small hcur, i32ofNat_small hcur,
            le_refl _, by omega⟩)
        refine ⟨?_, ?_⟩
        · intro l hl
          obtain ⟨ho, hlen, hub⟩ := hm l hl
          exact ⟨ho, hlen, by omega⟩
        · rcases hstate with h | ⟨s, e, h1, h2, h3, h4⟩
          · exact Or.inl h
          · exact Or.inr ⟨s, e, h1, h2, h3, by omega⟩
      · rw [if_neg hct]
        obtain ⟨hm, hstate⟩ := ih (cursor + 1) _ _ hb2 (Or.inl ⟨rfl, rfl⟩)
        refine ⟨?_, ?_⟩
        · intro l hl
          obtain ⟨ho, hlen, hub⟩ := hm l hl
          exact ⟨ho, hlen, by omega⟩
        · rcases hstate with h | ⟨s, e, h1, h2, h3, h4⟩
          · exact Or.inl h
          · exact Or.inr ⟨s, e, h1, h2, h3, by omega⟩
    · subst hes; subst hee
      rw [if_neg (by omega)]
      by_cases hct : charTypeOf c = .ENGLISH
      · rw [if_pos hct]
        obtain ⟨hm, hstate⟩ := ih (cursor + 1) _ _ hb2
          (Or.inr ⟨s, cursor, rfl, i32ofNat_small hcur, by omega, by omega⟩)
        refine ⟨?_, ?_⟩
        · intro l hl
          obtain ⟨ho, hlen, hub⟩ := hm l hl
          exact ⟨ho, hlen, by omega⟩
        · rcases hstate with h | ⟨s', e', h1, h2, h3, h4⟩
          · exact Or.inl h
          · exact Or.inr ⟨s', e', h1, h2, h3, by omega⟩
      · rw [if_neg hct]
        obtain ⟨hm, hstate⟩ := ih (cursor + 1) (-1) (-1) hb2 (Or.inl ⟨rfl, rfl⟩)
        dsimp only
        refine ⟨?_, ?_⟩
        · intro l hl
          rcases List.mem_cons.mp hl with hlx | hlx
          · rw [hlx]
            have h1 : asUsize (s : Int) = s := asUsize_castNat (by omega)
            have h2 : asUsize ((e : Int) - (s : Int) + 1) = e - s + 1 :=
              asUsize_sub_add_one hse (by omega)
            refine ⟨rfl, ?_, ?_⟩ <;> simp [Lexeme.new, h1, h2] <;> omega
          · obtain ⟨ho, hlen, hub⟩ := hm l hlx
            exact ⟨ho, hlen, by omega⟩
        · rcases hstate with h | ⟨s', e', h1, h2, h3, h4⟩
          · exact Or.inl h
          · exact Or.inr ⟨s', e', h1, h2, h3, by omega⟩

/-- The arabic pass loop: same invariant as the english one. -/
theorem arabicLoop_bounds (chars : List Char) :
    ∀ (cursor : Nat) (es ee : Int),
      cursor + chars.length ≤ 2 ^ 31 →
      ((es = -1 ∧ ee = -1) ∨
        (∃ s e : Nat, es = (s : Int) ∧ ee = (e : Int) ∧ s ≤ e ∧ e < cursor)) →
      (∀ l ∈ (arabicLoop chars cursor es ee).1,
        l.offset = 0 ∧ 1 ≤ l.length ∧ l.begin + l.length ≤ cursor + chars.length) ∧
      (((arabicLoop chars cursor es ee).2.1 = -1 ∧
          (arabicLoop chars cursor es ee).2.2 = -1) ∨
        (∃ s e : Nat, (arabicLoop chars cursor es ee).2.1 = (s : Int) ∧
          (arabicLoop chars cursor es ee).2.2 = (e : Int) ∧ s ≤ e ∧
          e < cursor + chars.length)) := by
  induction chars with
  | nil =>
    intro cursor es ee hb hst
    simp only [arabicLoop, List.length_nil]
    refine ⟨by simp, ?_⟩
    rcases hst with h | ⟨s, e, h1, h2, h3, h4⟩
    · exact Or.inl h
    · exact Or.inr ⟨s, e, h1, h2, h3, by omega⟩
  | cons c rest ih =>
    intro cursor es ee hb hst
    simp only [List.length_cons] at hb ⊢
    have hb2 : (cursor + 1) + rest.length ≤ 2 ^ 31 := by omega
    have hcur : cursor < 2 ^ 31 := by omega
    simp only [arabicLoop]
    rcases hst with ⟨hes, hee⟩ | ⟨s, e, hes, hee, hse, hec⟩
    · subst hes; subst hee
      rw [if_pos rfl]
      by_cases hct : charTypeOf c = .ARABIC
      · rw [if_pos hct]
        obtain ⟨hm, hstate⟩ := ih (cursor + 1) _ _ hb2
          (Or.inr ⟨cursor, cursor, i32ofNat_small hcur, i32ofNat_small hcur,
            le_refl _, by omega⟩)
        refine ⟨?_, ?_⟩
        · intro l hl
          obtain ⟨ho, hlen, hub⟩ := hm l hl
          exact ⟨ho, hlen, by omega⟩
        · rcases hstate with h | ⟨s, e, h1, h2, h3, h4⟩
          · exact Or.inl h
          · exact Or.inr ⟨s, e, h1, h2, h3, by omega⟩
      · rw [if_neg hct]
        obtain ⟨hm, hstate⟩ := ih (cursor + 1) _ _ hb2 (Or.inl ⟨rfl, rfl⟩)
        refine ⟨?_, ?_⟩
        · intro l hl
          obtain ⟨ho, hlen, hub⟩ := hm l hl
          exact ⟨ho, hlen, by omega⟩
        · rcases hstate with h | ⟨s, e, h1, h2, h3, h4⟩
          · exact Or.inl h
          · exact Or.inr ⟨s, e, h1, h2, h3, by omega⟩
    · subst hes; subst hee
      rw [if_neg (by omega)]
      by_cases hct : charTypeOf c = .ARABIC
      · rw [if_pos hct]
        obtain ⟨hm, hstate⟩ := ih (cursor + 1) _ _ hb2
          (Or.inr ⟨s, cursor, rfl, i32ofNat_small hcur, by omega, by omega⟩)
        refine ⟨?_, ?_⟩
        · intro l hl
          obtain ⟨ho, hlen, hub⟩ := hm l hl
          exact ⟨ho, hlen, by omega⟩
        · rcases hstate with h | ⟨s', e', h1, h2, h3, h4⟩
          · exact Or.inl h
          · exact Or.inr ⟨s', e', h1, h2, h3, by omega⟩
      · rw [if_neg hct]
        by_cases hsk : charTypeOf c = .USELESS ∧ isNumConnector c
        · rw [if_pos hsk]
          obtain ⟨hm, hstate⟩ := ih (cursor + 1) _ _ hb2
            (Or.inr ⟨s, e, rfl, rfl, hse, by omega⟩)
          refine ⟨?_, ?_⟩
          · intro l hl
            obtain ⟨ho, hlen, hub⟩ := hm l hl
            exact ⟨ho, hlen, by omega⟩
          · rcases hstate with h | ⟨s', e', h1, h2, h3, h4⟩
            · exact Or.inl h
            · exact Or.inr ⟨s', e', h1, h2, h3, by omega⟩
        · rw [if_neg hsk]
          obtain ⟨hm, hstate⟩ := ih (cursor + 1) (-1) (-1) hb2 (Or.inl ⟨rfl, rfl⟩)
          dsimp only
          refine ⟨?_, ?_⟩
          · intro l hl
            rcases List.mem_cons.mp hl with hlx | hlx
            · rw [hlx]
              have h1 : asUsize (s : Int) = s := asUsize_castNat (by omega)
              have h2 : asUsize ((e : Int) - (s : Int) + 1) = e - s + 1 :=
                asUsize_sub_add_one hse (by omega)
              refine ⟨rfl, ?_, ?_⟩ <;> simp [Lexeme.new, h1, h2] <;> omega
            · obtain ⟨ho, hlen, hub⟩ := hm l hlx
              exact ⟨ho, hlen, by omega⟩
          · rcases hstate with h | ⟨s', e', h1, h2, h3, h4⟩
            · exact Or.inl h
            · exact Or.inr ⟨s', e', h1, h2, h3, by omega⟩

/-- The mixed pass loop: same invariant again. -/
theorem mixLoop_bounds (chars : List Char) :
    ∀ (cursor : Nat) (es ee : Int),
      cursor + chars.length ≤ 2 ^ 31 →
      ((es = -1 ∧ ee = -1) ∨
        (∃ s e : Nat, es = (s : Int) ∧ ee = (e : Int) ∧ s ≤ e ∧ e < cursor)) →
      (∀ l ∈ (mixLoop chars cursor es ee).1,
        l.offset = 0 ∧ 1 ≤ l.length ∧ l.begin + l.length ≤ cursor + chars.length) ∧
      (((mixLoop chars cursor es ee).2.1 = -1 ∧ (mixLoop chars cursor es ee).2.2 = -1) ∨
        (∃ s e : Nat, (mixLoop chars cursor es ee).2.1 = (s : Int) ∧
          (mixLoop chars cursor es ee).2.2 = (e : Int) ∧ s ≤ e ∧
          e < cursor + chars.length)) := by
  induction chars with
  | nil =>
    intro cursor es ee hb hst
    simp only [mixLoop, List.length_nil]
    refine ⟨by simp, ?_⟩
    rcases hst with h | ⟨s, e, h1, h2, h3, h4⟩
    · exact Or.inl h
    · exact Or.inr ⟨s, e, h1, h2, h3, by omega⟩
  | cons c rest ih =>
    intro cursor es ee hb hst
    simp only [List.length_cons] at hb ⊢
    have hb2 : (cursor + 1) + rest.length ≤ 2 ^ 31 := by omega
    have hcur : cursor < 2 ^ 31 := by omega
    simp only [mixLoop]
    rcases hst with ⟨hes, hee⟩ | ⟨s, e, hes, hee, hse, hec⟩
    · subst hes; subst hee
      rw [if_pos rfl]
      by_cases hct : charTypeOf c = .ARABIC ∨ charTypeOf c = .ENGLISH
      · rw [if_pos hct]
        obtain ⟨hm, hstate⟩ := ih (cursor + 1) _ _ hb2
          (Or.inr ⟨cursor, cursor, i32ofNat_small hcur, i32ofNat_small hcur,
            le_refl _, by omega⟩)
        refine ⟨?_, ?_⟩
        · intro l hl
          obtain ⟨ho, hlen, hub⟩ := hm l hl
          exact ⟨ho, hlen, by omega⟩
        · rcases hstate with h | ⟨s, e, h1, h2, h3, h4⟩
          · exact Or.inl h
          · exact Or.inr ⟨s, e, h1, h2, h3, by omega⟩
      · rw [if_neg hct]
        obtain ⟨hm, hstate⟩ := ih (cursor + 1) _ _ hb2 (Or.inl ⟨rfl, rfl⟩)
        refine ⟨?_, ?_⟩
        · intro l hl
          obtain ⟨ho, hlen, hub⟩ := hm l hl
          exact ⟨ho, hlen, by omega⟩
        · rcases hstate with h | ⟨s, e, h1, h2, h3, h4⟩
          · exact Or.inl h
          · exact Or.inr ⟨s, e, h1, h2, h3, by omega⟩
    · subst hes; subst hee
      rw [if_neg (by omega)]
      by_cases hct : charTypeOf c = .ARABIC ∨ charTypeOf c = .ENGLISH ∨
          (charTypeOf c = .USELESS ∧ isLetterConnector c)
      · rw [if_pos hct]
        obtain ⟨hm, hstate⟩ := ih (cursor + 1) _ _ hb2
          (Or.inr ⟨s, cursor, rfl, i32ofNat_small hcur, by omega, by omega⟩)
        refine ⟨?_, ?_⟩
        · intro l hl
          obtain ⟨ho, hlen, hub⟩ := hm l hl
          exact ⟨ho, hlen, by omega⟩
        · rcases hstate with h | ⟨s', e', h1, h2, h3, h4⟩
          · exact Or.inl h
          · exact Or.inr ⟨s', e', h1, h2, h3, by omega⟩
      · rw [if_neg hct]
        obtain ⟨hm, hstate⟩ := ih (cursor + 1) (-1) (-1) hb2 (Or.inl ⟨rfl, rfl⟩)
        dsimp only
        refine ⟨?_, ?_⟩
        · intro l hl
          rcases List.mem_cons.mp hl with hlx | hlx
          · rw [hlx]
            have h1 : asUsize (s : Int) = s := asUsize_castNat (by omega)
            have h2 : asUsize ((e : Int) - (s : Int) + 1) = e - s + 1 :=
              asUsize_sub_add_one hse (by omega)
            refine ⟨rfl, ?_, ?_⟩ <;> simp [Lexeme.new, h1, h2] <;> omega
          · obtain ⟨ho, hlen, hub⟩ := hm l hlx
            exact ⟨ho, hlen, by omega⟩
        · rcases hstate with h | ⟨s', e', h1, h2, h3, h4⟩
          · exact Or.inl h
          · exact Or.inr ⟨s', e', h1, h2, h3, by omega⟩

/-- All candidates of the letter segmenter are well formed (for a nonempty
buffer of at most `2^31` characters). -/
theorem letterAnalyze_good (chars : List Char) (h1 : 1 ≤ chars.length)
    (hb : chars.length ≤ 2 ^ 31) :
    ∀ l ∈ letterAnalyze chars, GoodLex chars.length l := by
  have hflush : ∀ (r21 r22 : Int) (ty : LexemeType),
      ((r21 = -1 ∧ r22 = -1) ∨
        (∃ s e : Nat, r21 = (s : Int) ∧ r22 = (e : Int) ∧ s ≤ e ∧
          e < 0 + chars.length)) →
      r22 = charCountMinusOneI32 chars.length →
      GoodLex chars.length
        (Lexeme.new 0 (asUsize r21) (asUsize (r22 - r21 + 1)) ty) := by
    intro r21 r22 ty hstate hflush
    rcases hstate with ⟨hns, hne⟩ | ⟨s, e, hns, hne, hse, hec⟩
    · rw [hne, charCountMinusOneI32_pos h1 hb] at hflush
      omega
    · subst hns; subst hne
      have ha : asUsize (s : Int) = s := asUsize_castNat (by omega)
      have hb2 : asUsize ((e : Int) - (s : Int) + 1) = e - s + 1 :=
        asUsize_sub_add_one hse (by omega)
      refine ⟨rfl, ?_, ?_⟩ <;> simp [Lexeme.new, ha, hb2, GoodLex] <;> omega
  intro l hl
  unfold letterAnalyze at hl
  rcases List.mem_append.mp hl with hl1 | hl4
  rcases List.mem_append.mp hl1 with hl2 | hl3
  rcases List.mem_append.mp hl2 with hle | hla
  · -- english pass
    unfold processEnglishLetter at hle
    obtain ⟨hm, hstate⟩ := engLoop_bounds chars 0 (-1) (-1) (by omega) (Or.inl ⟨rfl, rfl⟩)
    dsimp only at hle
    split at hle
    · rcases List.mem_append.mp hle with hm1 | hm1
      · obtain ⟨ho, hlen, hub⟩ := hm l hm1
        exact ⟨ho, hlen, by omega⟩
      · simp only [List.mem_singleton] at hm1
        subst hm1
        exact hflush _ _ _ hstate (by assumption)
    · obtain ⟨ho, hlen, hub⟩ := hm l hle
      exact ⟨ho, hlen, by omega⟩
  · -- arabic pass
    unfold processArabicLetter at hla
    obtain ⟨hm, hstate⟩ := arabicLoop_bounds chars 0 (-1) (-1) (by omega) (Or.inl ⟨rfl, rfl⟩)
    dsimp only at hla
    split at hla
    · rcases List.mem_append.mp hla with hm1 | hm1
      · obtain ⟨ho, hlen, hub⟩ := hm l hm1
        exact ⟨ho, hlen, by omega⟩
      · simp only [List.mem_singleton] at hm1
        subst hm1
        exact hflush _ _ _ hstate (by assumption)
    · obtain ⟨ho, hlen, hub⟩ := hm l hla
      exact ⟨ho, hlen, by omega⟩
  · -- mixed pass
    unfold processMixLetter at hl3
    obtain ⟨hm, hstate⟩ := mixLoop_bounds chars 0 (-1) (-1) (by omega) (Or.inl ⟨rfl, rfl⟩)
    dsimp only at hl3
    split at hl3
    · rcases List.mem_append.mp hl3 with hm1 | hm1
      · obtain ⟨ho, hlen, hub⟩ := hm l hm1
        exact ⟨ho, hlen, by omega⟩
      · simp only [List.mem_singleton] at hm1
        subst hm1
        exact hflush _ _ _ hstate (by assumption)
    · obtain ⟨ho, hlen, hub⟩ := hm l hl3
      exact ⟨ho, hlen, by omega⟩
  · -- special pass
    unfold processSpecialLetter at hl4
    obtain ⟨p, hp, hpe⟩ := List.mem_filterMap.mp hl4
    have hp1 : p.1 < chars.length := by
      rcases p with ⟨i, c⟩
      rw [List.mem_enum_iff_getElem?] at hp
      obtain ⟨hlt, -⟩ := List.getElem?_eq_some.mp hp
      exact hlt
    split at hpe
    · simp only [Option.some.injEq] at hpe
      subst hpe
      exact ⟨rfl, by simp [Lexeme.new], by simp [Lexeme.new]; omega⟩
    · simp at hpe

/-- Every lexeme the number pass emits has a zero offset. -/
theorem cnumLoop_offset (chars : List Char) :
    ∀ (cursor : Nat) (ns ne : Int), ∀ l ∈ (cnumLoop chars cursor ns ne).1,
      l.offset = 0 := by
  induction chars with
  | nil =>
    intro cursor ns ne l hl
    simp [cnumLoop] at hl
  | cons c rest ih =>
    intro cursor ns ne l hl
    simp only [cnumLoop] at hl
    rw [List.mem_append] at hl
    rcases hl with hl | hl
    · split at hl <;> split at hl <;> split at hl <;> simp at hl <;>
        first
          | (rw [hl]; rfl)
          | (rcases hl with hl | hl <;> (rw [hl]; rfl))
    · exact ih _ _ _ l hl

/-- All candidates of the quantifier segmenter are well formed. -/
theorem cnqAnalyze_good (d : Dictionary) (chars : List Char)
    (h1 : 1 ≤ chars.length) (hb : chars.length ≤ 2 ^ 31) :
    ∀ l ∈ cnqAnalyze d chars, GoodLex chars.length l := by
  intro l hl
  simp only [cnqAnalyze] at hl
  rw [List.mem_append] at hl
  rcases hl with hl | hl
  · simp only [processCnumber] at hl
    obtain ⟨hmem, -⟩ := cnumLoop_spec chars 0 (-1) (-1) (by omega) (Or.inl ⟨rfl, rfl⟩)
    obtain ⟨-, hlen, -, hub⟩ := hmem l hl
    exact ⟨cnumLoop_offset chars 0 (-1) (-1) l hl, hlen, by omega⟩
  · simp only [processCount] at hl
    rw [List.mem_flatMap] at hl
    obtain ⟨p, hp, hl⟩ := hl
    have hp1 : p.1 < chars.length := by
      rcases p with ⟨i, ch⟩
      rw [List.mem_enum_iff_getElem?] at hp
      obtain ⟨hlt, -⟩ := List.getElem?_eq_some.mp hp
      exact hlt
    split at hl
    · split at hl
      · rw [List.mem_filterMap] at hl
        obtain ⟨h, hh, hhe⟩ := hl
        obtain ⟨hbg, hoe, hel⟩ :=
          matchWithOffset_bounds _ chars p.1 (chars.length - p.1) (by omega) h hh
        split at hhe
        · simp only [Option.some.injEq] at hhe
          subst hhe
          refine ⟨rfl, by simp [Lexeme.new], ?_⟩
          simp only [Lexeme.new]
          omega
        · simp at hhe
      · simp at hl
    · simp at hl

/-- All candidates of the CJK segmenter are well formed. -/
theorem cjkAnalyze_good (d : Dictionary) (chars : List Char)
    (hb : chars.length ≤ 2 ^ 31) :
    ∀ l ∈ cjkAnalyze d chars, GoodLex chars.length l := by
  intro l hl
  simp only [cjkAnalyze] at hl
  rw [List.mem_flatMap] at hl
  obtain ⟨p, hp, hl⟩ := hl
  have hp1 : p.1 < chars.length := by
    rcases p with ⟨i, ch⟩
    rw [List.mem_enum_iff_getElem?] at hp
    obtain ⟨hlt, -⟩ := List.getElem?_eq_some.mp hp
    exact hlt
  split at hl
  · rw [List.mem_filterMap] at hl
    obtain ⟨h, hh, hhe⟩ := hl
    obtain ⟨hbg, hoe, hel⟩ :=
      matchWithOffset_bounds _ chars p.1 (chars.length - p.1) (by omega) h hh
    split at hhe
    · simp only [Option.some.injEq] at hhe
      subst hhe
      refine ⟨rfl, by simp [Lexeme.new], ?_⟩
      simp only [Lexeme.new]
      omega
    · simp at hhe
  · simp at hl

/-- All sub-segmenter candidates are well formed. -/
theorem candidateLexemes_good (d : Dictionary) (chars : List Char)
    (h1 : 1 ≤ chars.length) (hb : chars.length ≤ 2 ^ 31) :
    ∀ l ∈ candidateLexemes d chars, GoodLex chars.length l := by
  intro l hl
  simp only [candidateLexemes] at hl
  rw [List.mem_append] at hl
  rcases hl with hl | hl
  rotate_left
  · exact cjkAnalyze_good d chars hb l hl
  rw [List.mem_append] at hl
  rcases hl with hl | hl
  · exact letterAnalyze_good chars h1 hb l hl
  · exact cnqAnalyze_good d chars h1 hb l hl

/-- The merged `origin_lexemes` list is sorted and consists of well-formed
candidates. -/
theorem originLexemes_good (d : Dictionary) (chars : List Char)
    (h1 : 1 ≤ chars.length) (hb : chars.length ≤ 2 ^ 31) :
    SortedLex (originLexemes d chars) ∧
    ∀ l ∈ originLexemes d chars, GoodLex chars.length l := by
  have hcand := candidateLexemes_good d chars h1 hb
  have hz : ∀ l ∈ candidateLexemes d chars, l.offset = 0 := fun l hl => (hcand l hl).1
  obtain ⟨hs, hzm, hcomp, hiff⟩ := mergeAll_spec (candidateLexemes d chars) hz
  have hdef : originLexemes d chars = mergeCandidates (candidateLexemes d chars) := rfl
  rw [hdef]
  refine ⟨hs, ?_⟩
  intro l hl
  obtain ⟨pre, post, hdec, -⟩ := (hiff l).mp hl
  exact hcand l (by rw [hdec]; simp)

/-! ## Invariants of the option path (towards claims C7 and C2) -/

theorem olInsert_ne_nil (acc : List Lexeme) (data : Lexeme) :
    olInsert acc data ≠ [] := by
  cases acc with
  | nil => simp [olInsert]
  | cons a rest =>
    simp only [olInsert]
    split
    · simp
    · split
      · simp
      · rcases olScanRev_cases data (a :: rest).reverse with ⟨hn, -⟩ |
          ⟨u, x, v, hdec, -, -, hcase⟩
        · rw [hn]
          simp
        · rcases hcase with ⟨-, heq⟩ | ⟨-, heq⟩ <;> rw [heq] <;> simp

/-- An insertion not below the head keeps the head. -/
theorem olInsert_head_keep (a : Lexeme) (rest : List Lexeme) (data : Lexeme)
    (h : ¬ lexCmp data a = .lt) :
    ∃ t, olInsert (a :: rest) data = a :: t := by
  simp only [olInsert]
  rw [if_neg h]
  split
  · exact ⟨rest ++ [data], by simp⟩
  · rcases olScanRev_cases data (a :: rest).reverse with ⟨hn, -⟩ |
      ⟨u, x, v, hdec, hu, hx, hcase⟩
    · rw [hn]
      exact ⟨rest, rfl⟩
    · have hacc : a :: rest = v.reverse ++ x :: u.reverse := by
        have h1 : a :: rest = ((a :: rest).reverse).reverse := by
          rw [List.reverse_reverse]
        rw [h1, hdec]
        simp
      rcases hcase with ⟨-, heq⟩ | ⟨-, heq⟩
      · rw [heq]
        exact ⟨rest, by simp⟩
      · rw [heq]
        cases hv : v.reverse with
        | nil =>
          have hxa : x = a := by
            rw [hv] at hacc
            simp at hacc
            exact hacc.1.symm
          refine ⟨data :: u.reverse, ?_⟩
          simp [hv, hxa]
        | cons b bs =>
          have hab : a = b ∧ rest = bs ++ x :: u.reverse := by
            rw [hv] at hacc
            simpa using hacc
          refine ⟨bs ++ x :: data :: u.reverse, ?_⟩
          simp [hv, hab.1]

/-- In a pairwise separated list every element ends no later than the last
one. -/
theorem pairwise_last_bound {l : List Lexeme} (hp : List.Pairwise lexSep l)
    (hne : l ≠ []) :
    ∀ x ∈ l, x.begin + x.length ≤ (l.getLast hne).begin + (l.getLast hne).length := by
  intro x hx
  have hdec := List.dropLast_append_getLast hne
  have hp2 : List.Pairwise lexSep (l.dropLast ++ [l.getLast hne]) := by
    rw [hdec]
    exact hp
  have hx2 : x ∈ l.dropLast ++ [l.getLast hne] := by
    rw [hdec]
    exact hx
  rcases List.mem_append.mp hx2 with h | h
  · have hs := (List.pairwise_append.mp hp2).2.2 x h (l.getLast hne) (by simp)
    unfold lexSep at hs
    omega
  · simp at h
    rw [h]

/-- In a pairwise separated list every element begins no earlier than the
head. -/
theorem pairwise_head_bound {a : Lexeme} {t : List Lexeme}
    (hp : List.Pairwise lexSep (a :: t)) :
    ∀ x ∈ a :: t, a.begin ≤ x.begin := by
  intro x hx
  rcases List.mem_cons.mp hx with h | h
  · rw [h]
  · have hs := (List.pairwise_cons.mp hp).1 x h
    unfold lexSep at hs
    omega

/-- The invariant maintained by `forward_path`/`back_path` on the option
path over a buffer of `B` characters: either freshly reset, or a nonempty
pairwise non-overlapping run of well-formed lexemes whose `path_begin` and
`path_end` registers hold the truncated begin of the head and end of the
last element. -/
def GoodPath (B : Nat) (p : LexemePath) : Prop :=
  p = LexemePath.new ∨
  ∃ hd t, p.lexemeList = hd :: t ∧
    p.pathBegin = i32ofNat hd.begin ∧
    (∃ lst, p.lexemeList.getLast? = some lst ∧
      p.pathEnd = i32ofNat (lst.begin + lst.length)) ∧
    List.Pairwise lexSep p.lexemeList ∧
    ∀ y ∈ p.lexemeList, GoodLex B y

/-- When `check_cross` rejects a well-formed lexeme against a well-formed
nonempty path, the lexeme lies entirely before the head or entirely after
the last element. -/
theorem checkCross_false_cases {B : Nat} (hB : B < 2 ^ 31) {p : LexemePath}
    {hd lst : Lexeme} {t : List Lexeme}
    (hlist : p.lexemeList = hd :: t)
    (hpb : p.pathBegin = i32ofNat hd.begin)
    (hlast : p.lexemeList.getLast? = some lst)
    (hpe : p.pathEnd = i32ofNat (lst.begin + lst.length))
    (hg : ∀ y ∈ p.lexemeList, GoodLex B y)
    {l : Lexeme} (hgl : GoodLex B l)
    (hcc : p.checkCross l = false) :
    l.begin + l.length ≤ hd.begin ∨ lst.begin + lst.length ≤ l.begin := by
  have hdmem : hd ∈ p.lexemeList := by
    rw [hlist]
    simp
  have hlmem : lst ∈ p.lexemeList := by
    have hne : p.lexemeList ≠ [] := by
      rw [hlist]
      simp
    rw [List.getLast?_eq_getLast _ hne] at hlast
    have hmem := List.getLast_mem hne
    simp at hlast
    rw [hlast] at hmem
    exact hmem
  obtain ⟨-, hdl, hdu⟩ := hg hd hdmem
  obtain ⟨-, hll, hlu⟩ := hg lst hlmem
  obtain ⟨-, hgl1, hgl2⟩ := hgl
  simp only [LexemePath.checkCross, decide_eq_false_iff_not] at hcc
  rw [hpb, hpe, i32ofNat_small (by omega : l.begin < 2 ^ 31),
    i32ofNat_small (by omega : l.length < 2 ^ 31),
    i32ofNat_small (by omega : hd.begin < 2 ^ 31),
    i32ofNat_small (by omega : lst.begin + lst.length < 2 ^ 31)] at hcc
  omega

/-- `add_not_cross_lexeme` preserves the option-path invariant, and its
result is never empty. -/
theorem addNotCross_good {B : Nat} (hB : B < 2 ^ 31) (p : LexemePath) (l : Lexeme)
    (hp : GoodPath B p) (hl : GoodLex B l) :
    GoodPath B (p.addNotCrossLexeme l).2 ∧
    (p.addNotCrossLexeme l).2.lexemeList ≠ [] := by
  unfold LexemePath.addNotCrossLexeme
  by_cases hemp : p.lexemeList.isEmpty = true
  · rw [if_pos hemp]
    have hnil : p.lexemeList = [] := by
      rwa [List.isEmpty_iff] at hemp
    have hres : olInsert p.lexemeList l = [l] := by
      rw [hnil]
      simp [olInsert]
    dsimp only
    rw [hres]
    refine ⟨Or.inr ⟨l, [], rfl, rfl, ⟨l, by simp, rfl⟩, by simp, ?_⟩, by simp⟩
    intro y hy
    simp at hy
    rw [hy]
    exact hl
  · rw [if_neg hemp]
    have hne : p.lexemeList ≠ [] := by
      simpa [List.isEmpty_iff] using hemp
    rcases hp with hnew | ⟨hd, t, hlist, hpb, ⟨lst, hlast, hpe⟩, hsep, hg⟩
    · exfalso
      rw [hnew] at hne
      exact hne rfl
    by_cases hcc : p.checkCross l = true
    · rw [if_pos hcc]
      exact ⟨Or.inr ⟨hd, t, hlist, hpb, ⟨lst, hlast, hpe⟩, hsep, hg⟩, hne⟩
    · rw [if_neg hcc]
      have hccf : p.checkCross l = false := by
        rwa [Bool.not_eq_true] at hcc
      dsimp only
      have hlstmem : lst ∈ p.lexemeList := by
        rw [List.getLast?_eq_getLast _ hne] at hlast
        have hmem := List.getLast_mem hne
        simp at hlast
        rw [hlast] at hmem
        exact hmem
      have hsep' : List.Pairwise lexSep (hd :: t) := by
        rw [hlist] at hsep
        exact hsep
      have hlast2 : (hd :: t).getLast? = some lst := by
        rw [← hlist]
        exact hlast
      have hlastg : (hd :: t).getLast (by simp) = lst := by
        have h3 := List.getLast?_eq_getLast (hd :: t) (by simp)
        rw [hlast2] at h3
        exact (Option.some.inj h3).symm
      rcases checkCross_false_cases hB hlist hpb hlast hpe hg hl hccf with hfront | hback
      · -- the new lexeme lies entirely before the head
        have hlt : lexCmp l hd = .lt := by
          rw [lexCmp_lt_iff]
          obtain ⟨-, h1, -⟩ := hl
          omega
        have hres : olInsert p.lexemeList l = l :: hd :: t := by
          rw [hlist]
          simp only [olInsert]
          rw [if_pos hlt]
        rw [hres]
        refine ⟨Or.inr ⟨l, hd :: t, rfl, by simp, ?_, ?_, ?_⟩, by simp⟩
        · refine ⟨lst, ?_, ?_⟩
          · rw [List.getLast?_cons_cons]
            exact hlast2
          · obtain ⟨-, h1, h2⟩ := hg lst hlstmem
            rw [List.getLast?_cons_cons, hlast2]
            simp [i32ofNat_add_small (by omega : lst.begin + lst.length < 2 ^ 31)]
        · refine List.pairwise_cons.mpr ⟨?_, hsep'⟩
          intro y hy
          have hyb := pairwise_head_bound hsep' y hy
          unfold lexSep
          omega
        · intro y hy
          rcases List.mem_cons.mp hy with h | h
          · rw [h]
            exact hl
          · exact hg y (by rw [hlist]; exact h)
      · -- the new lexeme lies entirely after the last element
        have hres : olInsert p.lexemeList l = (hd :: t) ++ [l] := by
          rw [hlist]
          refine olInsert_push_back (hd :: t) l ?_
          intro x hx
          have hxe := pairwise_last_bound hsep' (by simp) x hx
          obtain ⟨-, hx1, -⟩ := hg x (by rw [hlist]; exact hx)
          rw [hlastg] at hxe
          omega
        rw [hres]
        have hconc : (hd :: (t ++ [l])).getLast? = some l :=
          List.getLast?_concat (hd :: t)
        refine ⟨Or.inr ⟨hd, t ++ [l], by simp, by simp, ?_, ?_, ?_⟩, by simp⟩
        · refine ⟨l, by simpa using hconc, ?_⟩
          obtain ⟨-, h1, h2⟩ := hl
          simp only [← List.cons_append]
          rw [List.getLast?_concat]
          simp [i32ofNat_add_small (by omega : l.begin + l.length < 2 ^ 31)]
        · rw [List.pairwise_append]
          refine ⟨hsep', by simp, ?_⟩
          intro x hx y hy
          simp at hy
          rw [hy]
          have hxe := pairwise_last_bound hsep' (by simp) x hx
          rw [hlastg] at hxe
          unfold lexSep
          omega
        · intro y hy
          rcases List.mem_append.mp hy with h | h
          · exact hg y (by rw [hlist]; exact h)
          · simp at h
            rw [h]
            exact hl

/-- `remove_tail` preserves the option-path invariant. -/
theorem removeTail_good {B : Nat} (hB : B < 2 ^ 31) (p : LexemePath)
    (hp : GoodPath B p) : GoodPath B (p.removeTail).2 := by
  rcases hp with hnew | ⟨hd, t, hlist, hpb, ⟨lst, hlast, hpe⟩, hsep, hg⟩
  · rw [hnew]
    left
    rfl
  · unfold LexemePath.removeTail
    cases t with
    | nil =>
      rw [hlist]
      dsimp only
      left
      rfl
    | cons b t' =>
      have hdl : (hd :: b :: t').dropLast = hd :: (b :: t').dropLast :=
        List.dropLast_cons₂ ..
      rw [hlist]
      dsimp only
      rw [if_neg (by simp [hdl])]
      right
      have hsub : (hd :: b :: t').dropLast.Sublist (hd :: b :: t') :=
        List.dropLast_sublist _
      rw [hdl] at hsub
      have hsep' : List.Pairwise lexSep (hd :: b :: t') := by
        rw [hlist] at hsep
        exact hsep
      have hLne : (hd :: (b :: t').dropLast : List Lexeme) ≠ [] := by simp
      have hLlast : (hd :: (b :: t').dropLast).getLast? =
          some ((hd :: (b :: t').dropLast).getLast hLne) :=
        List.getLast?_eq_getLast _ hLne
      have hLmem : (hd :: (b :: t').dropLast).getLast hLne ∈ (hd :: b :: t') :=
        hsub.subset (List.getLast_mem hLne)
      obtain ⟨-, h1, h2⟩ := hg _ (by rw [hlist]; exact hLmem)
      refine ⟨hd, (b :: t').dropLast, by simp, by simpa using hpb, ?_, ?_, ?_⟩
      · refine ⟨(hd :: (b :: t').dropLast).getLast hLne, by simpa using hLlast, ?_⟩
        rw [show ((hd :: b :: t').dropLast : List Lexeme) = hd :: (b :: t').dropLast
          from hdl]
        simp only [hLlast, Option.getD_some]
        simp [i32ofNat_add_small (by omega :
          ((hd :: (b :: t').dropLast).getLast hLne).begin +
            ((hd :: (b :: t').dropLast).getLast hLne).length < 2 ^ 31)]
      · simpa using hsep'.sublist hsub
      · intro y hy
        simp only at hy
        exact hg y (by rw [hlist]; exact hsub.subset hy)

/-- The rollback loop preserves the option-path invariant. -/
theorem backPathAux_good {B : Nat} (hB : B < 2 ^ 31) (lx : Lexeme) :
    ∀ (n : Nat) (p : LexemePath), GoodPath B p →
      GoodPath B (backPathAux n lx p) := by
  intro n
  induction n with
  | zero =>
    intro p hp
    exact hp
  | succ m ih =>
    intro p hp
    simp only [backPathAux]
    split
    · exact ih _ (removeTail_good hB p hp)
    · exact hp

/-- `back_path` preserves the option-path invariant. -/
theorem backPath_good {B : Nat} (hB : B < 2 ^ 31) (l? : Option Lexeme)
    (p : LexemePath) (hp : GoodPath B p) : GoodPath B (backPath l? p) := by
  unfold backPath
  cases l? with
  | none => exact hp
  | some lx => exact backPathAux_good hB lx _ p hp

/-- `forward_path` preserves the option-path invariant; its result is
nonempty whenever the option or the chain is; every conflict stack is a
nonempty list of well-formed lexemes. -/
theorem forwardPath_good {B : Nat} (hB : B < 2 ^ 31) :
    ∀ (chain : List Lexeme) (opt : LexemePath),
      (∀ y ∈ chain, GoodLex B y) → GoodPath B opt →
      GoodPath B (forwardPath chain opt).1 ∧
      ((opt.lexemeList ≠ [] ∨ chain ≠ []) →
        (forwardPath chain opt).1.lexemeList ≠ []) ∧
      (∀ s ∈ (forwardPath chain opt).2, (∀ y ∈ s, GoodLex B y) ∧ s ≠ []) := by
  intro chain
  induction chain with
  | nil =>
    intro opt hc hopt
    simp only [forwardPath]
    refine ⟨hopt, ?_, by simp⟩
    rintro (h | h)
    · exact h
    · exact absurd rfl h
  | cons c rest ih =>
    intro opt hc hopt
    simp only [forwardPath]
    obtain ⟨hadd, haddne⟩ := addNotCross_good hB opt c hopt (hc c (by simp))
    obtain ⟨h1, h2, h3⟩ := ih (opt.addNotCrossLexeme c).2
      (fun y hy => hc y (by simp [hy])) hadd
    split
    · exact ⟨h1, fun _ => h2 (Or.inl haddne), h3⟩
    · dsimp only
      refine ⟨h1, fun _ => h2 (Or.inl haddne), ?_⟩
      intro s hs
      rcases List.mem_append.mp hs with h | h
      · exact h3 s h
      · simp at h
        rw [h]
        exact ⟨hc, by simp⟩

/-- Every candidate recorded by the drain loop of `judge` satisfies the
option-path invariant and is nonempty. -/
theorem judgeLoop_good {B : Nat} (hB : B < 2 ^ 31) :
    ∀ (stack : List (List Lexeme)) (opt : LexemePath)
      (cands recs : List LexemePath),
      (∀ s ∈ stack, (∀ y ∈ s, GoodLex B y) ∧ s ≠ []) →
      GoodPath B opt →
      (∀ r ∈ recs, GoodPath B r ∧ r.lexemeList ≠ []) →
      ∀ r ∈ (judgeLoop stack opt cands recs).2.2,
        GoodPath B r ∧ r.lexemeList ≠ [] := by
  intro stack
  induction stack with
  | nil =>
    intro opt cands recs hs hopt hrecs
    simpa [judgeLoop] using hrecs
  | cons c cs ih =>
    intro opt cands recs hs hopt hrecs
    simp only [judgeLoop]
    have hopt1 := backPath_good hB c.head? opt hopt
    obtain ⟨hc, hcne⟩ := hs c (by simp)
    obtain ⟨h1, h2, -⟩ := forwardPath_good hB c (backPath c.head? opt) hc hopt1
    apply ih
    · intro s hsm
      exact hs s (by simp [hsm])
    · exact h1
    · intro r hr
      rcases List.mem_append.mp hr with h | h
      · exact hrecs r h
      · simp at h
        rw [h]
        exact ⟨h1, h2 (Or.inr hcne)⟩

/-- Every candidate recorded by `judge` over a nonempty chain is a
nonempty path satisfying the option-path invariant. -/
theorem judgeRun_good {B : Nat} (hB : B < 2 ^ 31) (chain : List Lexeme)
    (hc : ∀ y ∈ chain, GoodLex B y) (hne : chain ≠ []) :
    ∀ r ∈ (judgeRun chain).2, GoodPath B r ∧ r.lexemeList ≠ [] := by
  unfold judgeRun
  dsimp only
  obtain ⟨h1, h2, h3⟩ := forwardPath_good hB chain LexemePath.new hc (Or.inl rfl)
  apply judgeLoop_good hB _ _ _ _ h3 h1
  intro r hr
  simp at hr
  rw [hr]
  exact ⟨h1, h2 (Or.inr hne)⟩

/-- The path `judge` picks is a nonempty path satisfying the option-path
invariant. -/
theorem judge_good {B : Nat} (hB : B < 2 ^ 31) (chain : List Lexeme)
    (hc : ∀ y ∈ chain, GoodLex B y) (hne : chain ≠ []) :
    GoodPath B (judge chain) ∧ (judge chain).lexemeList ≠ [] :=
  judgeRun_good hB chain hc hne _ (judge_min chain).1

/-- The invariant of the running cross path of `IKArbitrator::process`:
fresh, or nonempty with `path_begin` holding the truncated begin of the
sorted list's head. -/
def GoodCross (B : Nat) (p : LexemePath) : Prop :=
  p = LexemePath.new ∨
  ∃ hd t, p.lexemeList = hd :: t ∧
    p.pathBegin = i32ofNat hd.begin ∧
    SortedLex p.lexemeList ∧
    ∀ y ∈ p.lexemeList, GoodLex B y

/-- `add_cross_lexeme` preserves the cross-path invariant when the new
lexeme sorts at or after every present one. -/
theorem addCross_goodCross {B : Nat} (p : LexemePath) (l : Lexeme)
    (hp : GoodCross B p) (hl : GoodLex B l)
    (hle : ∀ e ∈ p.lexemeList, lexLe e l) :
    GoodCross B (p.addCrossLexeme l).2 ∧
    ∀ y ∈ (p.addCrossLexeme l).2.lexemeList, y ∈ p.lexemeList ∨ y = l := by
  unfold LexemePath.addCrossLexeme
  by_cases hemp : p.lexemeList.isEmpty = true
  · rw [if_pos hemp]
    have hnil : p.lexemeList = [] := by
      rwa [List.isEmpty_iff] at hemp
    have hres : olInsert p.lexemeList l = [l] := by
      rw [hnil]
      simp [olInsert]
    dsimp only
    rw [hres]
    refine ⟨Or.inr ⟨l, [], rfl, rfl, by simp [SortedLex], ?_⟩, ?_⟩
    · intro y hy
      simp at hy
      rw [hy]
      exact hl
    · intro y hy
      simp at hy
      exact Or.inr hy
  · rw [if_neg hemp]
    have hne : p.lexemeList ≠ [] := by
      simpa [List.isEmpty_iff] using hemp
    rcases hp with hnew | ⟨hd, t, hlist, hpb, hsort, hg⟩
    · exfalso
      rw [hnew] at hne
      exact hne rfl
    by_cases hcc : p.checkCross l = true
    · rw [if_pos hcc]
      dsimp only
      have hnotlt : ¬ lexCmp l hd = .lt := by
        have h := hle hd (by rw [hlist]; simp)
        unfold lexLe at h
        rw [lexCmp_gt_swap] at h
        exact h
      obtain ⟨t2, hres⟩ := olInsert_head_keep hd t l hnotlt
      constructor
      · right
        refine ⟨hd, t2, by rw [hlist]; exact hres, by simpa using hpb, ?_, ?_⟩
        · exact olInsert_sorted p.lexemeList l hsort
        · intro y hy
          rcases olInsert_mem_sub p.lexemeList l y hy with h | h
          · exact hg y h
          · rw [h]
            exact hl
      · intro y hy
        exact olInsert_mem_sub p.lexemeList l y hy
    · rw [if_neg hcc]
      exact ⟨Or.inr ⟨hd, t, hlist, hpb, hsort, hg⟩, fun y hy => Or.inl hy⟩

/-- The path-map invariant the output stage relies on: every stored path
is empty, or nonempty with its key at or below the begin of its head,
zero offsets, begins non-decreasing, and (in SEARCH mode) pairwise
non-overlapping. -/
def MapOk (strong : Bool) (m : PathMap) : Prop :=
  ∀ k p, m k = some p →
    p.lexemeList = [] ∨
    ∃ hd t, p.lexemeList = hd :: t ∧ k ≤ hd.begin ∧
      (∀ y ∈ p.lexemeList, y.offset = 0) ∧
      List.Pairwise beginLe p.lexemeList ∧
      (strong = true → List.Pairwise lexSep p.lexemeList)

theorem sortedLex_pairwise_beginLe {l : List Lexeme} (h : SortedLex l) :
    List.Pairwise beginLe l :=
  h.imp fun hab => lexLe_beginLe hab

theorem lexSep_pairwise_beginLe {l : List Lexeme} (h : List.Pairwise lexSep l) :
    List.Pairwise beginLe l :=
  h.imp fun hab => lexSep_beginLe hab

theorem asUsize_i32ofNat {n : Nat} (h : n < 2 ^ 31) :
    asUsize (i32ofNat n) = n := by
  rw [i32ofNat_small h]
  exact asUsize_castNat (by omega)

theorem mapOk_insert {strong : Bool} {m : PathMap} (hm : MapOk strong m)
    {k : Nat} {p : LexemePath}
    (hp : p.lexemeList = [] ∨
      ∃ hd t, p.lexemeList = hd :: t ∧ k ≤ hd.begin ∧
        (∀ y ∈ p.lexemeList, y.offset = 0) ∧
        List.Pairwise beginLe p.lexemeList ∧
        (strong = true → List.Pairwise lexSep p.lexemeList)) :
    MapOk strong (pmInsert m k p) := by
  intro k' p' h
  unfold pmInsert at h
  split at h
  · rename_i hkk
    have hpp := Option.some.inj h
    rw [← hpp, hkk]
    exact hp
  · exact hm k' p' h

/-- `storePath` keeps the path-map invariant: size-one and INDEX-mode
paths are stored directly (their sorted lists satisfy the weak clauses),
larger SEARCH-mode paths go through `judge` first. -/
theorem storePath_mapOk {B : Nat} (hB : B < 2 ^ 31) (mode : TokenMode)
    (strong : Bool) (hstrong : strong = true → mode = .SEARCH)
    (m : PathMap) (cross : LexemePath)
    (hm : MapOk strong m) (hcross : GoodCross B cross) :
    MapOk strong (storePath mode m cross) := by
  unfold storePath
  split
  · rename_i hcond
    apply mapOk_insert hm
    rcases hcross with hnew | ⟨hd, t, hlist, hpb, hsort, hg⟩
    · left
      rw [hnew]
      rfl
    · right
      obtain ⟨-, hl1, hl2⟩ := hg hd (by rw [hlist]; simp)
      refine ⟨hd, t, hlist, ?_, ?_, ?_, ?_⟩
      · rw [hpb, asUsize_i32ofNat (by omega : hd.begin < 2 ^ 31)]
      · intro y hy
        exact (hg y hy).1
      · exact sortedLex_pairwise_beginLe hsort
      · intro hst
        have hsize : cross.size = 1 := by
          rcases hcond with h | h
          · exact h
          · exact absurd (hstrong hst) h
        have htnil : t = [] := by
          unfold LexemePath.size at hsize
          rw [hlist] at hsize
          simpa using hsize
        rw [hlist, htnil]
        simp
  · rename_i hcond
    dsimp only
    apply mapOk_insert hm
    by_cases hcne : cross.lexemeList = []
    · left
      rw [hcne]
      rfl
    · rcases hcross with hnew | ⟨hd, t, hlist, hpb, hsort, hg⟩
      · exfalso
        rw [hnew] at hcne
        exact hcne rfl
      obtain ⟨hjp, hjne⟩ := judge_good hB cross.lexemeList hg hcne
      rcases hjp with hjnew | ⟨hd2, t2, hlist2, hpb2, -, hsep2, hg2⟩
      · exfalso
        rw [hjnew] at hjne
        exact hjne rfl
      right
      obtain ⟨-, hl1, hl2⟩ := hg2 hd2 (by rw [hlist2]; simp)
      refine ⟨hd2, t2, hlist2, ?_, ?_, ?_, fun _ => hsep2⟩
      · rw [hpb2, asUsize_i32ofNat (by omega : hd2.begin < 2 ^ 31)]
      · intro y hy
        exact (hg2 y hy).1
      · exact lexSep_pairwise_beginLe hsep2

/-- The main loop of `IKArbitrator::process` maintains the path-map
invariant. -/
theorem processLoop_mapOk {B : Nat} (hB : B < 2 ^ 31) (mode : TokenMode)
    (strong : Bool) (hstrong : strong = true → mode = .SEARCH) :
    ∀ (org : List Lexeme) (m : PathMap) (cross : LexemePath),
      List.Pairwise lexLe org →
      (∀ y ∈ org, GoodLex B y) →
      GoodCross B cross →
      (∀ e ∈ cross.lexemeList, ∀ l ∈ org, lexLe e l) →
      MapOk strong m →
      MapOk strong (processLoop mode org m cross) := by
  intro org
  induction org with
  | nil =>
    intro m cross hsort hgood hcross hrel hm
    simp only [processLoop]
    exact storePath_mapOk hB mode strong hstrong m cross hm hcross
  | cons l rest ih =>
    intro m cross hsort hgood hcross hrel hm
    simp only [processLoop]
    obtain ⟨hc2, hsub⟩ := addCross_goodCross cross l hcross (hgood l (by simp))
      (fun e he => hrel e he l (by simp))
    split
    · apply ih _ _ (List.pairwise_cons.mp hsort).2
        (fun y hy => hgood y (by simp [hy])) hc2 ?_ hm
      intro e he l' hl'
      rcases hsub e he with h | h
      · exact hrel e h l' (by simp [hl'])
      · rw [h]
        exact (List.pairwise_cons.mp hsort).1 l' hl'
    · have hm' := storePath_mapOk hB mode strong hstrong m cross hm hcross
      obtain ⟨hc3, hsub3⟩ := addCross_goodCross LexemePath.new l (Or.inl rfl)
        (hgood l (by simp)) (by intro e he; simp [LexemePath.new] at he)
      apply ih _ _ (List.pairwise_cons.mp hsort).2
        (fun y hy => hgood y (by simp [hy])) hc3 ?_ hm'
      intro e he l' hl'
      rcases hsub3 e he with h | h
      · simp [LexemePath.new] at h
      · rw [h]
        exact (List.pairwise_cons.mp hsort).1 l' hl'

/-- The arbitrator establishes the path-map invariant from scratch. -/
theorem arbProcess_mapOk {B : Nat} (hB : B < 2 ^ 31) (mode : TokenMode)
    (strong : Bool) (hstrong : strong = true → mode = .SEARCH)
    (org : List Lexeme) (hsort : List.Pairwise lexLe org)
    (hgood : ∀ y ∈ org, GoodLex B y) :
    MapOk strong (arbProcess mode org) := by
  unfold arbProcess
  apply processLoop_mapOk hB mode strong hstrong org pmEmpty LexemePath.new
    hsort hgood (Or.inl rfl) ?_ ?_
  · intro e he
    simp [LexemePath.new] at he
  · intro k p h
    simp [pmEmpty] at h

/-! ## The output stage (towards claims C7 and C2) -/

/-- A single-character emission list is pairwise anything: it has at most
one element. -/
theorem singleCharLexeme_pairwise (R : Lexeme → Lexeme → Prop) (c : Char)
    (i : Nat) : List.Pairwise R (singleCharLexeme c i) := by
  unfold singleCharLexeme
  split
  · simp
  · split <;> simp

/-- Gap filling emits in-order unit-length single characters inside
`[i, i + n)`. -/
theorem gapFillGo_spec (chars : List Char) :
    ∀ (n i : Nat),
      (∀ y ∈ gapFillGo chars n i,
        i ≤ y.begin ∧ y.begin + y.length ≤ i + n ∧ y.offset = 0 ∧
          y.length = 1) ∧
      List.Pairwise lexSep (gapFillGo chars n i) := by
  intro n
  induction n with
  | zero =>
    intro i
    simp [gapFillGo]
  | succ m ih =>
    intro i
    simp only [gapFillGo]
    obtain ⟨ihm, ihp⟩ := ih (i + 1)
    have hone : ∀ y ∈ (match chars.get? i with
        | some c => singleCharLexeme c i
        | none => ([] : List Lexeme)),
        y.begin = i ∧ y.length = 1 ∧ y.offset = 0 := by
      rcases hg : chars.get? i with _ | c
      · simp
      · simpa using fun y hy => singleCharLexeme_mem y hy
    constructor
    · intro y hy
      rcases List.mem_append.mp hy with h | h
      · obtain ⟨h1, h2, h3⟩ := hone y h
        refine ⟨by omega, by omega, h3, h2⟩
      · obtain ⟨h1, h2, h3, h4⟩ := ihm y h
        refine ⟨by omega, by omega, h3, h4⟩
    · rw [List.pairwise_append]
      refine ⟨?_, ihp, ?_⟩
      · cases chars.get? i with
        | none => simp
        | some c => exact singleCharLexeme_pairwise lexSep c i
      · intro x hx y hy
        obtain ⟨h1, h2, h3⟩ := hone x hx
        obtain ⟨h4, -, -⟩ := ihm y hy
        unfold lexSep
        omega

/-- Draining a path with begins non-decreasing, starting at its head:
every emission lies at or after the head's begin and at or before the
final index; emissions come in begin order; and if the path is pairwise
non-overlapping so are the emissions, all of which then end by the final
index. -/
theorem drainPath_spec (chars : List Char) :
    ∀ (ls : List Lexeme) (i : Nat) (hd : Lexeme) (t : List Lexeme),
      ls = hd :: t →
      (∀ y ∈ ls, y.offset = 0) →
      List.Pairwise beginLe ls →
      (∀ y ∈ (drainPath chars ls i).1,
        hd.begin ≤ y.begin ∧ y.offset = 0 ∧ y.begin ≤ (drainPath chars ls i).2) ∧
      List.Pairwise beginLe (drainPath chars ls i).1 ∧
      hd.begin ≤ (drainPath chars ls i).2 ∧
      (List.Pairwise lexSep ls →
        List.Pairwise lexSep (drainPath chars ls i).1 ∧
        ∀ y ∈ (drainPath chars ls i).1,
          y.begin + y.length ≤ (drainPath chars ls i).2) := by
  intro ls
  induction ls with
  | nil =>
    intro i hd t hls
    exact absurd hls (by simp)
  | cons l rest ih =>
    intro i hd t hls hz hble
    obtain ⟨hl, ht⟩ : l = hd ∧ rest = t := by
      have h1 := List.cons.injEq l rest hd t ▸ hls
      exact ⟨h1.1, h1.2⟩
    subst hl
    cases rest with
    | nil =>
      simp only [drainPath]
      refine ⟨?_, by simp, by simp, ?_⟩
      · intro y hy
        simp at hy
        rw [hy]
        exact ⟨le_refl _, hz l (by simp), by simp⟩
      · intro hsep
        refine ⟨by simp, ?_⟩
        intro y hy
        simp at hy
        rw [hy]
    | cons l2 t' =>
      have hstep : drainPath chars (l :: l2 :: t') i =
          (l :: (gapFill chars (l.begin + l.length) l2.begin ++
            (drainPath chars (l2 :: t') (max (l.begin + l.length) l2.begin)).1),
           (drainPath chars (l2 :: t') (max (l.begin + l.length) l2.begin)).2) := rfl
      rw [hstep]
      dsimp only
      obtain ⟨ihm, ihble, ihlow, ihsep⟩ := ih (max (l.begin + l.length) l2.begin) l2 t'
        rfl (fun y hy => hz y (by simp [hy]))
        (List.pairwise_cons.mp hble).2
      obtain ⟨gfm, gfp⟩ := gapFillGo_spec chars (l2.begin - (l.begin + l.length))
        (l.begin + l.length)
      have hgf : ∀ y ∈ gapFill chars (l.begin + l.length) l2.begin,
          l.begin + l.length ≤ y.begin ∧ y.begin + y.length ≤ l2.begin ∧
          y.offset = 0 := by
        intro y hy
        obtain ⟨h1, h2, h3, h4⟩ := gfm y hy
        exact ⟨h1, by omega, h3⟩
      have hll2 : l.begin ≤ l2.begin := (List.pairwise_cons.mp hble).1 l2 (by simp)
      have hl2low : l2.begin ≤ (drainPath chars (l2 :: t') (max (l.begin + l.length) l2.begin)).2 := ihlow
      refine ⟨?_, ?_, by omega, ?_⟩
      · intro y hy
        rcases List.mem_cons.mp hy with h | h
        · rw [h]
          exact ⟨le_refl _, hz l (by simp), by omega⟩
        rcases List.mem_append.mp h with h | h
        · obtain ⟨h1, h2, h3⟩ := hgf y h
          exact ⟨by omega, h3, by omega⟩
        · obtain ⟨h1, h2, h3⟩ := ihm y h
          exact ⟨by omega, h2, h3⟩
      · refine List.pairwise_cons.mpr ⟨?_, ?_⟩
        · intro y hy
          rcases List.mem_append.mp hy with h | h
          · obtain ⟨h1, -, -⟩ := hgf y h
            unfold beginLe
            omega
          · obtain ⟨h1, -, -⟩ := ihm y h
            unfold beginLe
            omega
        · rw [List.pairwise_append]
          refine ⟨gfp.imp fun hab => lexSep_beginLe hab, ihble, ?_⟩
          intro x hx y hy
          obtain ⟨-, h2, -⟩ := hgf x hx
          obtain ⟨h3, -, -⟩ := ihm y hy
          unfold beginLe
          omega
      · intro hsep
        have hsep2 : List.Pairwise lexSep (l2 :: t') := (List.pairwise_cons.mp hsep).2
        have hsepl : l.begin + l.length ≤ l2.begin :=
          (List.pairwise_cons.mp hsep).1 l2 (by simp)
        obtain ⟨ihsp, ihend⟩ := ihsep hsep2
        constructor
        · refine List.pairwise_cons.mpr ⟨?_, ?_⟩
          · intro y hy
            rcases List.mem_append.mp hy with h | h
            · obtain ⟨h1, -, -⟩ := hgf y h
              exact h1
            · obtain ⟨h1, -, -⟩ := ihm y h
              unfold lexSep
              omega
          · rw [List.pairwise_append]
            refine ⟨gfp, ihsp, ?_⟩
            intro x hx y hy
            obtain ⟨-, h2, -⟩ := hgf x hx
            obtain ⟨h3, -, -⟩ := ihm y hy
            unfold lexSep
            omega
        · intro y hy
          rcases List.mem_cons.mp hy with h | h
          · rw [h]
            omega
          rcases List.mem_append.mp h with h | h
          · obtain ⟨-, h2, -⟩ := hgf y h
            omega
          · exact ihend y h

/-- The outer output loop: over a path map satisfying the invariant, every
emission begins at or after the loop index with a zero offset, begins are
non-decreasing, and in SEARCH mode emissions are pairwise
non-overlapping — for every fuel. -/
theorem outputLoop_spec (chars : List Char) (strong : Bool) (m : PathMap)
    (hm : MapOk strong m) :
    ∀ (fuel index : Nat),
      (∀ y ∈ outputLoop chars m fuel index, index ≤ y.begin ∧ y.offset = 0) ∧
      List.Pairwise beginLe (outputLoop chars m fuel index) ∧
      (strong = true → List.Pairwise lexSep (outputLoop chars m fuel index)) := by
  intro fuel
  induction fuel with
  | zero =>
    intro index
    simp [outputLoop]
  | succ n ih =>
    intro index
    simp only [outputLoop]
    rcases hgi : chars.get? index with _ | c
    · simp
    · dsimp only
      by_cases huse : charTypeOf c = .USELESS
      · rw [if_pos huse]
        obtain ⟨h1, h2, h3⟩ := ih (index + 1)
        refine ⟨?_, h2, h3⟩
        intro y hy
        obtain ⟨hb, ho⟩ := h1 y hy
        exact ⟨by omega, ho⟩
      · rw [if_neg huse]
        rcases hmi : m index with _ | path
        · dsimp only
          obtain ⟨h1, h2, h3⟩ := ih (index + 1)
          refine ⟨?_, ?_, ?_⟩
          · intro y hy
            rcases List.mem_append.mp hy with h | h
            · obtain ⟨hb, hl, ho⟩ := singleCharLexeme_mem y h
              exact ⟨by omega, ho⟩
            · obtain ⟨hb, ho⟩ := h1 y h
              exact ⟨by omega, ho⟩
          · rw [List.pairwise_append]
            refine ⟨singleCharLexeme_pairwise _ c index, h2, ?_⟩
            intro x hx y hy
            obtain ⟨hb, -, -⟩ := singleCharLexeme_mem x hx
            obtain ⟨hb2, -⟩ := h1 y hy
            unfold beginLe
            omega
          · intro hst
            rw [List.pairwise_append]
            refine ⟨singleCharLexeme_pairwise _ c index, h3 hst, ?_⟩
            intro x hx y hy
            obtain ⟨hb, hl, -⟩ := singleCharLexeme_mem x hx
            obtain ⟨hb2, -⟩ := h1 y hy
            unfold lexSep
            omega
        · dsimp only
          rcases hm index path hmi with hempty |
            ⟨hd, t, hlist, hk, hz, hble, hsepS⟩
          · have hred : drainPath chars path.lexemeList index = ([], index) := by
              rw [hempty]
              rfl
            simp only [hred]
            simpa using ih index
          · obtain ⟨dm, dble, dlow, dsep⟩ :=
              drainPath_spec chars path.lexemeList index hd t hlist hz hble
            obtain ⟨h1, h2, h3⟩ := ih ((drainPath chars path.lexemeList index).2)
            refine ⟨?_, ?_, ?_⟩
            · intro y hy
              rcases List.mem_append.mp hy with h | h
              · obtain ⟨hb, ho, -⟩ := dm y h
                exact ⟨by omega, ho⟩
              · obtain ⟨hb, ho⟩ := h1 y h
                exact ⟨by omega, ho⟩
            · rw [List.pairwise_append]
              refine ⟨dble, h2, ?_⟩
              intro x hx y hy
              obtain ⟨-, -, hxr⟩ := dm x hx
              obtain ⟨hyr, -⟩ := h1 y hy
              unfold beginLe
              omega
            · intro hst
              obtain ⟨dsp, dend⟩ := dsep (hsepS hst)
              rw [List.pairwise_append]
              refine ⟨dsp, h3 hst, ?_⟩
              intro x hx y hy
              have hxe := dend x hx
              obtain ⟨hyr, -⟩ := h1 y hy
              unfold lexSep
              omega

/-- The whole `output_to_result` stage under the path-map invariant. -/
theorem outputToResult_spec (chars : List Char) (strong : Bool) (m : PathMap)
    (hm : MapOk strong m) :
    (∀ y ∈ outputToResult chars m, y.offset = 0) ∧
    List.Pairwise beginLe (outputToResult chars m) ∧
    (strong = true → List.Pairwise lexSep (outputToResult chars m)) := by
  obtain ⟨h1, h2, h3⟩ := outputLoop_spec chars strong m hm chars.length 0
  exact ⟨fun y hy => (h1 y hy).2, h2, h3⟩

/-! ## The final compounding and stop-word stage (claims C7 and C2) -/

/-- The arabic merging phase keeps the head's begin and offset, consumes
at most the head of the rest, and preserves pairwise non-overlap. -/
theorem compoundArabic_spec (rv : Lexeme) (rs : List Lexeme)
    (hsep : List.Pairwise lexSep (rv :: rs)) (hz : ∀ y ∈ rv :: rs, y.offset = 0) :
    (compoundArabic rv rs).1.begin = rv.begin ∧
    (compoundArabic rv rs).1.offset = 0 ∧
    (compoundArabic rv rs).2.Sublist rs ∧
    List.Pairwise lexSep ((compoundArabic rv rs).1 :: (compoundArabic rv rs).2) := by
  have hid : (rv.begin = rv.begin ∧ rv.offset = 0 ∧ rs.Sublist rs ∧
      List.Pairwise lexSep (rv :: rs)) :=
    ⟨rfl, hz rv (by simp), List.Sublist.refl rs, hsep⟩
  cases rs with
  | nil =>
    simpa only [compoundArabic] using hid
  | cons nxt rest =>
    simp only [compoundArabic]
    have happ : ∀ ty : LexemeType,
        rv.getEndPosition = nxt.getBeginPosition →
        (rv.append nxt ty).1 = true ∧
        (rv.append nxt ty).2.begin = rv.begin ∧
        (rv.append nxt ty).2.offset = rv.offset ∧
        (rv.append nxt ty).2.length = rv.length + nxt.length := by
      intro ty hadj
      simp [Lexeme.append, if_pos hadj]
    have hmerge : ∀ ty : LexemeType,
        rv.getEndPosition = nxt.getBeginPosition →
        (rv.append nxt ty).2.begin = rv.begin ∧
        (rv.append nxt ty).2.offset = 0 ∧
        rest.Sublist (nxt :: rest) ∧
        List.Pairwise lexSep ((rv.append nxt ty).2 :: rest) := by
      intro ty hadj
      obtain ⟨-, hb2, ho2, hl2⟩ := happ ty hadj
      have hzr := hz rv (by simp)
      have hzn := hz nxt (by simp)
      unfold Lexeme.getEndPosition Lexeme.getBeginPosition at hadj
      refine ⟨hb2, by rw [ho2, hzr], by simp, ?_⟩
      refine List.pairwise_cons.mpr
        ⟨?_, (List.pairwise_cons.mp (List.pairwise_cons.mp hsep).2).2⟩
      intro y hy
      have hsn : lexSep nxt y :=
        (List.pairwise_cons.mp (List.pairwise_cons.mp hsep).2).1 y hy
      unfold lexSep at hsn ⊢
      rw [hb2, hl2]
      omega
    have hfail : ∀ ty : LexemeType,
        ¬ rv.getEndPosition = nxt.getBeginPosition →
        (rv.append nxt ty).1 = false := by
      intro ty hadj
      simp only [Lexeme.append, if_neg hadj]
    by_cases h1 : rv.lexemeType = .ARABIC
    · rw [if_pos h1]
      by_cases h2 : nxt.lexemeType = .CNUM
      · rw [if_pos h2]
        by_cases hadj : rv.getEndPosition = nxt.getBeginPosition
        · rw [if_pos (happ .CNUM hadj).1]
          exact hmerge .CNUM hadj
        · rw [if_neg (by rw [hfail .CNUM hadj]; simp)]
          exact hid
      · rw [if_neg h2]
        by_cases h3 : nxt.lexemeType = .COUNT
        · rw [if_pos h3]
          by_cases hadj : rv.getEndPosition = nxt.getBeginPosition
          · rw [if_pos (happ .CQUAN hadj).1]
            exact hmerge .CQUAN hadj
          · rw [if_neg (by rw [hfail .CQUAN hadj]; simp)]
            exact hid
        · rw [if_neg h3]
          exact hid
    · rw [if_neg h1]
      exact hid

/-- The CNUM merging phase: same shape as the arabic one. -/
theorem compoundCnum_spec (rv : Lexeme) (rs : List Lexeme)
    (hsep : List.Pairwise lexSep (rv :: rs)) (hz : ∀ y ∈ rv :: rs, y.offset = 0) :
    (compoundCnum rv rs).1.begin = rv.begin ∧
    (compoundCnum rv rs).1.offset = 0 ∧
    (compoundCnum rv rs).2.Sublist rs ∧
    List.Pairwise lexSep ((compoundCnum rv rs).1 :: (compoundCnum rv rs).2) := by
  have hid : (rv.begin = rv.begin ∧ rv.offset = 0 ∧ rs.Sublist rs ∧
      List.Pairwise lexSep (rv :: rs)) :=
    ⟨rfl, hz rv (by simp), List.Sublist.refl rs, hsep⟩
  cases rs with
  | nil =>
    simpa only [compoundCnum] using hid
  | cons nxt rest =>
    simp only [compoundCnum]
    have happ : rv.getEndPosition = nxt.getBeginPosition →
        (rv.append nxt .CQUAN).1 = true ∧
        (rv.append nxt .CQUAN).2.begin = rv.begin ∧
        (rv.append nxt .CQUAN).2.offset = rv.offset ∧
        (rv.append nxt .CQUAN).2.length = rv.length + nxt.length := by
      intro hadj
      simp [Lexeme.append, if_pos hadj]
    by_cases h1 : rv.lexemeType = .CNUM
    · rw [if_pos h1]
      by_cases h2 : nxt.lexemeType = .COUNT
      · rw [if_pos h2]
        by_cases hadj : rv.getEndPosition = nxt.getBeginPosition
        · obtain ⟨hf, hb2, ho2, hl2⟩ := happ hadj
          rw [if_pos hf]
          have hzr := hz rv (by simp)
          have hzn := hz nxt (by simp)
          unfold Lexeme.getEndPosition Lexeme.getBeginPosition at hadj
          refine ⟨hb2, by rw [ho2, hzr], by simp, ?_⟩
          refine List.pairwise_cons.mpr
            ⟨?_, (List.pairwise_cons.mp (List.pairwise_cons.mp hsep).2).2⟩
          intro y hy
          have hsn : lexSep nxt y :=
            (List.pairwise_cons.mp (List.pairwise_cons.mp hsep).2).1 y hy
          unfold lexSep at hsn ⊢
          rw [hb2, hl2]
          omega
        · rw [if_neg (by simp only [Lexeme.append, if_neg hadj]; simp)]
          exact hid
      · rw [if_neg h2]
        exact hid
    · rw [if_neg h1]
      exact hid

/-- `compound` keeps the head's begin and offset, consumes a prefix of the
rest, and preserves pairwise non-overlap. -/
theorem compound_spec (rv : Lexeme) (rs : List Lexeme)
    (hsep : List.Pairwise lexSep (rv :: rs)) (hz : ∀ y ∈ rv :: rs, y.offset = 0) :
    (compound rv rs).1.begin = rv.begin ∧
    (compound rv rs).1.offset = 0 ∧
    (compound rv rs).2.Sublist rs ∧
    List.Pairwise lexSep ((compound rv rs).1 :: (compound rv rs).2) := by
  cases rs with
  | nil =>
    simp only [compound]
    refine ⟨?_, ?_, ?_, ?_⟩ <;>
      first
        | trivial
        | exact hz rv (by simp)
        | simp
  | cons nxt rest =>
    simp only [compound]
    obtain ⟨a1, a2, a3, a4⟩ := compoundArabic_spec rv (nxt :: rest) hsep hz
    have hz2 : ∀ y ∈ (compoundArabic rv (nxt :: rest)).1 ::
        (compoundArabic rv (nxt :: rest)).2, y.offset = 0 := by
      intro y hy
      rcases List.mem_cons.mp hy with h | h
      · rw [h]
        exact a2
      · exact hz y (List.mem_cons_of_mem rv (a3.subset h))
    obtain ⟨b1, b2, b3, b4⟩ := compoundCnum_spec (compoundArabic rv (nxt :: rest)).1
      (compoundArabic rv (nxt :: rest)).2 a4 hz2
    exact ⟨by rw [b1, a1], b2, b3.trans a3, b4⟩

/-- The stop-word loop in INDEX mode: begins stay non-decreasing and every
output's begin is bounded below by an input's begin. -/
theorem finalizeGo_index_spec (d : Dictionary) (input : List Char) :
    ∀ (fuel : Nat) (l : List Lexeme),
      List.Pairwise beginLe l →
      List.Pairwise beginLe (finalizeGo d input .INDEX fuel l) ∧
      (∀ y ∈ finalizeGo d input .INDEX fuel l, ∃ x ∈ l, x.begin ≤ y.begin) := by
  intro fuel
  induction fuel with
  | zero =>
    intro l h1
    simp [finalizeGo]
  | succ n ih =>
    intro l h1
    cases l with
    | nil => simp [finalizeGo]
    | cons rv rest =>
      simp only [finalizeGo]
      rw [if_neg (by simp : ¬ (TokenMode.INDEX = TokenMode.SEARCH))]
      dsimp only
      obtain ⟨ih1, ih2⟩ := ih rest (List.pairwise_cons.mp h1).2
      split
      · refine ⟨ih1, ?_⟩
        intro y hy
        obtain ⟨x, hx, hxb⟩ := ih2 y hy
        exact ⟨x, by simp [hx], hxb⟩
      · have hpb : (rv.parseText input).begin = rv.begin := rfl
        refine ⟨?_, ?_⟩
        · refine List.pairwise_cons.mpr ⟨?_, ih1⟩
          intro y hy
          obtain ⟨x, hx, hxb⟩ := ih2 y hy
          have hrx := (List.pairwise_cons.mp h1).1 x hx
          unfold beginLe at hrx ⊢
          rw [hpb]
          omega
        · intro y hy
          rcases List.mem_cons.mp hy with h | h
          · exact ⟨rv, by simp, by rw [h, hpb]⟩
          · obtain ⟨x, hx, hxb⟩ := ih2 y h
            exact ⟨x, by simp [hx], hxb⟩

/-- The stop-word loop in SEARCH mode: compounding keeps outputs pairwise
non-overlapping, with every output's begin bounded below by an input's
begin. -/
theorem finalizeGo_search_spec (d : Dictionary) (input : List Char) :
    ∀ (fuel : Nat) (l : List Lexeme),
      List.Pairwise lexSep l → (∀ y ∈ l, y.offset = 0) →
      List.Pairwise lexSep (finalizeGo d input .SEARCH fuel l) ∧
      (∀ y ∈ finalizeGo d input .SEARCH fuel l, ∃ x ∈ l, x.begin ≤ y.begin) := by
  intro fuel
  induction fuel with
  | zero =>
    intro l h1 h2
    simp [finalizeGo]
  | succ n ih =>
    intro l h1 h2
    cases l with
    | nil => simp [finalizeGo]
    | cons rv rest =>
      simp only [finalizeGo]
      obtain ⟨c1, c2, c3, c4⟩ := compound_spec rv rest h1 h2
      have hz2 : ∀ y ∈ (compound rv rest).2, y.offset = 0 :=
        fun y hy => h2 y (List.mem_cons_of_mem rv (c3.subset hy))
      obtain ⟨ih1, ih2⟩ := ih (compound rv rest).2 (List.pairwise_cons.mp c4).2 hz2
      simp only [if_true]
      split
      · refine ⟨ih1, ?_⟩
        intro y hy
        obtain ⟨x, hx, hxb⟩ := ih2 y hy
        exact ⟨x, List.mem_cons_of_mem rv (c3.subset hx), hxb⟩
      · have hpb : ((compound rv rest).1.parseText input).begin =
            (compound rv rest).1.begin := rfl
        have hpl : ((compound rv rest).1.parseText input).length =
            (compound rv rest).1.length := rfl
        refine ⟨?_, ?_⟩
        · refine List.pairwise_cons.mpr ⟨?_, ih1⟩
          intro y hy
          obtain ⟨x, hx, hxb⟩ := ih2 y hy
          have hcx : lexSep (compound rv rest).1 x :=
            (List.pairwise_cons.mp c4).1 x hx
          unfold lexSep at hcx ⊢
          rw [hpb, hpl]
          omega
        · intro y hy
          rcases List.mem_cons.mp hy with h | h
          · exact ⟨rv, by simp, by rw [h, hpb, c1]⟩
          · obtain ⟨x, hx, hxb⟩ := ih2 y h
            exact ⟨x, List.mem_cons_of_mem rv (c3.subset hx), hxb⟩

/-! ## Claims C7 and C2 -/

/-- C7: for every dictionary, every input of at most `2^30` characters
(so that every `i32`/`usize` register in the pipeline is exact) and both
modes, the tokens returned by a single `tokenize` call appear in
non-decreasing order of their begin position (`token.position` in
`token_stream` is `lexeme.get_begin()`). -/
theorem c7_positions_non_decreasing (d : Dictionary) (input : List Char)
    (mode : TokenMode) (hb : input.length ≤ 2 ^ 30) :
    List.Pairwise (fun a b => a.begin ≤ b.begin) (tokenize d input mode) := by
  by_cases h0 : input = []
  · subst h0
    rw [show tokenize d [] mode = [] from rfl]
    simp
  · have h1 : 1 ≤ input.length := by
      cases input with
      | nil => exact absurd rfl h0
      | cons a l => simp
    have hBlt : input.length < 2 ^ 31 := by omega
    obtain ⟨hsort, hgood⟩ := originLexemes_good d input h1 (by omega)
    unfold tokenize
    cases mode with
    | INDEX =>
      have hmap := arbProcess_mapOk hBlt .INDEX false (by simp) _ hsort hgood
      obtain ⟨hz, hble, -⟩ := outputToResult_spec input false _ hmap
      have hfin := finalizeGo_index_spec d input
        (outputToResult input (arbProcess .INDEX (originLexemes d input))).length
        (outputToResult input (arbProcess .INDEX (originLexemes d input))) hble
      exact hfin.1
    | SEARCH =>
      have hmap := arbProcess_mapOk hBlt .SEARCH true (fun _ => rfl) _ hsort hgood
      obtain ⟨hz, -, hsepf⟩ := outputToResult_spec input true _ hmap
      have hfin := finalizeGo_search_spec d input
        (outputToResult input (arbProcess .SEARCH (originLexemes d input))).length
        (outputToResult input (arbProcess .SEARCH (originLexemes d input)))
        (hsepf rfl) hz
      exact hfin.1.imp fun hab => lexSep_beginLe hab

theorem c7_witness :
    ((['一', '块'] : List Char).length ≤ 2 ^ 30) ∧
    List.Pairwise (fun a b => a.begin ≤ b.begin)
      (tokenize emptyDictionary ['一', '块'] .SEARCH) :=
  ⟨by decide,
    c7_positions_non_decreasing emptyDictionary ['一', '块'] .SEARCH (by decide)⟩

/-- C2: for every dictionary and every input of at most `2^30` characters,
in SEARCH mode any two tokens of the output stream in emission order are
non-overlapping: the later one's position (`get_begin()`) is at least the
earlier one's position plus its `position_length` (`get_length()`). -/
theorem c2_search_non_overlap (d : Dictionary) (input : List Char)
    (hb : input.length ≤ 2 ^ 30) :
    List.Pairwise (fun a b => a.begin + a.length ≤ b.begin)
      (tokenize d input .SEARCH) := by
  by_cases h0 : input = []
  · subst h0
    rw [show tokenize d [] .SEARCH = [] from rfl]
    simp
  · have h1 : 1 ≤ input.length := by
      cases input with
      | nil => exact absurd rfl h0
      | cons a l => simp
    have hBlt : input.length < 2 ^ 31 := by omega
    obtain ⟨hsort, hgood⟩ := originLexemes_good d input h1 (by omega)
    unfold tokenize
    have hmap := arbProcess_mapOk hBlt .SEARCH true (fun _ => rfl) _ hsort hgood
    obtain ⟨hz, -, hsepf⟩ := outputToResult_spec input true _ hmap
    have hfin := finalizeGo_search_spec d input
      (outputToResult input (arbProcess .SEARCH (originLexemes d input))).length
      (outputToResult input (arbProcess .SEARCH (originLexemes d input)))
      (hsepf rfl) hz
    exact hfin.1

theorem c2_witness :
    ((['3', '块', '钱'] : List Char).length ≤ 2 ^ 30) ∧
    List.Pairwise (fun a b => a.begin + a.length ≤ b.begin)
      (tokenize emptyDictionary ['3', '块', '钱'] .SEARCH) :=
  ⟨by decide,
    c2_search_non_overlap emptyDictionary ['3', '块', '钱'] (by decide)⟩

end IkRs
